import Mathlib

/-!
# A shallow embedding of the shablon reactive state core (`src/state.js`)

This file models the dependency-tracking engine of `src/state.js`:

* `watch(trackedFunc, optUntrackedFunc)` — observer registration, `watcher.run`,
  `watcher.unwatch`, `removeWatcher`;
* `store(obj)` / `createProxy` — the proxy `get` trap (getter caching with the
  `"@@"`-prefixed shadow key, detached-child re-resolution, lazy child wrapping,
  path-subscriber registration) and the proxy `set` trap (detached marking,
  array index refresh, loose-equality change check with the `"length"` exception);
* `callWatchers` — the flush queue (a JS `Set`, modelled as a duplicate-free
  insertion-ordered list split into the already-visited `flushFront` and the
  still-to-visit `flushRest` so that iteration during mutation matches JS `Set`
  iterator semantics), `queueMicrotask` scheduling (counted in `scheduled`),
  and the drain with the unwatched skip, the parent-subsumption skip and the
  500-repetition ceiling.

Modelling decisions, all observationally faithful for the operations embedded here:

* Proxies are identified with their target objects (one `Nat` per container).
  `state.js` only distinguishes them at the `__raw` accessor and at raw slot
  accesses; each such code path is embedded explicitly.
* JS values are restricted to `undefined`, numbers and container references
  (`JVal`); loose equality on that domain is `looseEq`.
* Watcher callbacks are small effectful programs (`Prog`): sequences of proxied
  reads (whose continuation may branch on the value read, giving conditional
  dependencies), proxied writes, and nested `watch` registrations.  A getter's
  deriving function is likewise a `Prog` reading through the proxies, matching
  how the repository's getters read the store through a closure.
* `watcher[pathsSubsSym]` holds references to the very `Set` objects stored in
  `pathWatcherIds`; since `deleteProperty` (the only operation that breaks the
  path ↔ set-object correspondence) is not exercised by any claim, those set
  references are modelled by their path keys.
* Timers and microtasks are explicit: `unwatch` appends to `toRemove` and the
  debounced timer firing is the separate step `cleanTimerFire`; a queued flush
  microtask is counted in `scheduled` and its body is the separate `drainLoop`.
* All execution is fuel-bounded (`Res.fuel` = fuel exhausted, a model artifact);
  `Res.err` models a thrown JS exception (strict-mode `TypeError`s: property
  assignment on a primitive or assignment to a getter-only property).
* `runs` counts executions of a watcher's tracked function and `trace` logs
  path registrations; `warns` logs the infinite-loop diagnostics.  These are
  observation counters (like the test suite's `fired` counters), not behavior.
-/

namespace Shablon

/-- The modelled JS value domain: `undefined`, numbers, object references. -/
inductive JVal where
  | undef : JVal
  | num : Int → JVal
  | ref : Nat → JVal
deriving DecidableEq, Repr

/-- JS loose equality (`==`) restricted to the modelled value domain:
`undefined == undefined`, numbers by value, references by identity. -/
def looseEq : JVal → JVal → Bool
  | .undef, .undef => true
  | .num a, .num b => a == b
  | .ref a, .ref b => a == b
  | _, _ => false

/-- Watcher callback bodies: proxied reads (the continuation may branch on the
value, which is what makes dependencies conditional), proxied writes, and
nested `watch` registrations, as performed by user code against the store. -/
inductive Prog where
  | ret : JVal → Prog
  | get : Nat → String → (JVal → Prog) → Prog
  | set : Nat → String → JVal → Prog → Prog
  | watchNew : Prog → Prog → Prog

/-- The optional second `watch` argument: absent, a user-supplied untracked
callback, or the engine-made getter-cache closure created in the `get` trap
(`cache a p` writes the derived result under the shadow key `"@@" ++ p` of
container `a`, via `defineProperty` on first write and through the proxy
afterwards). -/
inductive UFn where
  | none : UFn
  | user : (JVal → Prog) → UFn
  | cache : Nat → String → UFn

/-- A watcher (observer) record, mirroring the symbol-keyed fields of the
watcher object in `watch`: parent id, children ids, joined subscriber sets
(by path key), the unwatched flag, the on-removal hook of getter watchers
(the `(Nat, originalProp)` key to clear from `_watcher`), plus the `runs`
observation counter. -/
structure W where
  tracked : Prog
  untracked : UFn
  parent : Option Nat
  children : List Nat
  pathsSubs : List String
  unwatched : Bool
  onRemove : Option (Nat × String)
  runs : Nat

/-- A raw container: data fields, the getter descriptors captured at
`createProxy` time, `Array.isArray`, and the symbol-keyed `parentSym`
(`[receiver, prop]`), `detachedSym` and `skipSym` markers. -/
structure HObj where
  fields : List (String × JVal)
  getters : List (String × Prog)
  isArr : Bool
  parent : Option (Nat × String)
  detached : Bool
  skip : Bool

/-- `Object.getOwnPropertyDescriptors` is only consulted for non-array
containers (`createProxy` captures `{}` for arrays). -/
def descriptorsOf (o : HObj) : List (String × Prog) :=
  if o.isArr then [] else o.getters

/-- The whole engine state: the heap of raw containers, `allWatchers`,
the id counter, `pathWatcherIds`, the `flushQueue` split at the drain
iterator position (`flushFront` visited, `flushRest` to visit; outside a
drain `flushFront = []`), the number of `queueMicrotask` calls, the
`activeWatcher` cursor, the `_watcher` fields of getter descriptors,
`toRemove`, and the `trace`/`warns` observation logs. -/
structure Eng where
  heap : List (Nat × HObj)
  watchers : List (Nat × W)
  nextId : Nat
  pathSubs : List (String × List Nat)
  flushFront : List Nat
  flushRest : List Nat
  scheduled : Nat
  active : Option Nat
  getterW : List ((Nat × String) × Nat)
  toRemove : List Nat
  trace : List (Nat × String)
  warns : List Nat

/-- Association-list lookup. -/
def alookup {K V : Type} [DecidableEq K] : List (K × V) → K → Option V
  | [], _ => Option.none
  | (k, v) :: t, k' => if k = k' then some v else alookup t k'

/-- Association-list update-or-append. -/
def aset {K V : Type} [DecidableEq K] : List (K × V) → K → V → List (K × V)
  | [], k, v => [(k, v)]
  | (k0, v0) :: t, k, v => if k0 = k then (k, v) :: t else (k0, v0) :: aset t k v

/-- Association-list key removal. -/
def aerase {K V : Type} [DecidableEq K] : List (K × V) → K → List (K × V)
  | [], _ => []
  | (k0, v0) :: t, k => if k0 = k then aerase t k else (k0, v0) :: aerase t k

/-- `Set.delete`: remove an element from an insertion-ordered duplicate-free list. -/
def lerase {A : Type} [DecidableEq A] (l : List A) (a : A) : List A :=
  l.filter (fun x => decide (x ≠ a))

/-- `Set.add`: append if not already a member. -/
def addOnce {A : Type} [DecidableEq A] (l : List A) (a : A) : List A :=
  if a ∈ l then l else l ++ [a]

def objAt (e : Eng) (a : Nat) : Option HObj :=
  alookup e.heap a

def updObj (e : Eng) (a : Nat) (f : HObj → HObj) : Eng :=
  match alookup e.heap a with
  | some o => { e with heap := aset e.heap a (f o) }
  | Option.none => e

def updW (e : Eng) (id : Nat) (f : W → W) : Eng :=
  match alookup e.watchers id with
  | some w => { e with watchers := aset e.watchers id (f w) }
  | Option.none => e

/-- The subscriber-id set registered for a path (empty when absent). -/
def subsOf (e : Eng) (p : String) : List Nat :=
  (alookup e.pathSubs p).getD []

/-- Observation counter: number of executions of a watcher's tracked function. -/
def runsOf (e : Eng) (id : Nat) : Nat :=
  ((alookup e.watchers id).map W.runs).getD 0

/-- The full `flushQueue` contents, in insertion order. -/
def queueOf (e : Eng) : List Nat :=
  e.flushFront ++ e.flushRest

/-- `getPath`: walk the `parentSym` chain upward, prefixing each key with the
`"/"` separator.  Fuel guards against parent-link cycles; `none` is fuel
exhaustion. -/
def getPath : Nat → Eng → Nat → String → Option String
  | 0, _, _, _ => Option.none
  | n + 1, e, a, prop =>
    match objAt e a with
    | Option.none => some prop
    | some o =>
      match o.parent with
      | Option.none => some prop
      | some (pa, key) => getPath n e pa (key ++ "/" ++ prop)

/-- One iteration of the `callWatchers` subscriber loop:
`flushQueue.delete(id); flushQueue.add(id)`, then `queueMicrotask` when the
queue size is exactly 1 after the re-add.  A deleted-and-re-added id goes to
the end of the not-yet-visited region, which is exactly where a JS `Set`
iterator will visit it. -/
def enqueue (e : Eng) (id : Nat) : Eng :=
  let fr := lerase e.flushFront id
  let rs := lerase e.flushRest id ++ [id]
  let e' := { e with flushFront := fr, flushRest := rs }
  if fr.length + rs.length = 1 then { e' with scheduled := e'.scheduled + 1 } else e'

/-- `callWatchers(obj, prop, pathWatcherIds)`: resolve the path, then run the
subscriber loop.  `none` is fuel exhaustion inside `getPath`. -/
def callWatchers (fuel : Nat) (e : Eng) (a : Nat) (prop : String) : Option Eng :=
  match getPath fuel e a prop with
  | Option.none => Option.none
  | some path =>
    match alookup e.pathSubs path with
    | Option.none => some e
    | some ids => some (ids.foldl enqueue e)

/-- The subscriber-registration block of the `get` trap: add the active
watcher's id to the path's subscriber set, record that set (by path key) in
the watcher's own set-of-sets, and log the registration in `trace`. -/
def registerSub (e : Eng) (wid : Nat) (path : String) : Eng :=
  let subs := addOnce (subsOf e path) wid
  let e' := { e with pathSubs := aset e.pathSubs path subs }
  let e'' := updW e' wid (fun w => { w with pathsSubs := addOnce w.pathsSubs path })
  { e'' with trace := e''.trace ++ [(wid, path)] }

/-- `subs.delete(watcher[idSym])` for one previously joined set, identified by
its path key; an absent entry is left untouched. -/
def eraseSub (ps : List (String × List Nat)) (p : String) (id : Nat) :
    List (String × List Nat) :=
  match alookup ps p with
  | some subs => aset ps p (lerase subs id)
  | Option.none => ps

/-- The upward walk of the detached-child block of the `get` trap: collect the
parent keys from the current container to the root and report whether any
container on the way (root excluded, start included) carries `detachedSym`. -/
def upWalk : Nat → Eng → Nat → Option (List String × Nat × Bool)
  | 0, _, _ => Option.none
  | n + 1, e, a =>
    match objAt e a with
    | Option.none => Option.none
    | some o =>
      match o.parent with
      | Option.none => some ([], a, false)
      | some (pa, key) =>
        match upWalk n e pa with
        | Option.none => Option.none
        | some (props, root, det) => some (key :: props, root, o.detached || det)

/-- The `activeObj` of the downward re-resolution walk: a live proxy, the plain
`{}` substituted for a missing segment, or a primitive number that landed in a
segment of the live path. -/
inductive DCur where
  | proxy : Nat → DCur
  | empty : DCur
  | prim : Int → DCur
deriving DecidableEq, Repr

/-- The container the re-resolved read finally resolves against: a raw live
container, or the empty `{}` substitute. -/
inductive RTgt where
  | obj : Nat → RTgt
  | empty : RTgt
deriving DecidableEq, Repr

/-- Result of an engine computation: success, a thrown JS exception, or fuel
exhaustion (a model artifact). -/
inductive Res where
  | ok : Eng → JVal → Res
  | err : Res
  | fuel : Res

/-- The dispatch argument of the single fuel-structural interpreter `step`:
one constructor per mutually recursive function of the source. -/
inductive Call where
  | exec : Prog → Call
  | pget : Nat → String → Call
  | pgetRest : Nat → String → Call
  | dwalk : DCur → List String → Call
  | rget : Nat → String → Call
  | pset : Nat → String → JVal → Call
  | mkWatch : Prog → UFn → Call
  | runw : Nat → Call

/-- The detached-marking block of the `set` trap (lines 404–407): a replaced
wrapped child (the old value carries a parent link) is marked `detachedSym`. -/
def detachMark (e : Eng) (oldValue : JVal) : Eng :=
  match oldValue with
  | .ref c =>
    match objAt e c with
    | some co =>
      if co.parent.isSome then updObj e c (fun oo => { oo with detached := true }) else e
    | Option.none => e
  | _ => e

/-- The index-refresh block of the `set` trap (lines 409–412): assigning an
already wrapped child into a sequence at a numeric key updates the key in the
child's stored parent link (keeps paths right after `unshift` and friends). -/
def idxRefresh (e : Eng) (isArr : Bool) (prop : String) (v : JVal) : Eng :=
  match v with
  | .ref c =>
    match objAt e c with
    | some co =>
      if co.parent.isSome ∧ isArr = true ∧ prop.toNat?.isSome then
        updObj e c (fun oo => { oo with parent := oo.parent.map (fun pk => (pk.1, prop)) })
      else e
    | Option.none => e
  | _ => e

/-- The child-wrapping block of the `get` trap (lines 341–352): a plain child
container without a parent link gets one, pointing at the receiver proxy and
the key.  With proxies identified with their targets, the memoizing slot
write `obj[prop] = propVal` is the identity. -/
def wrapChild (e : Eng) (receiver : Nat) (prop : String) (propVal : JVal) : Eng :=
  match propVal with
  | .ref c =>
    match objAt e c with
    | some co =>
      if co.parent = Option.none then
        updObj e c (fun oo => { oo with parent := some (receiver, prop) })
      else e
    | Option.none => e
  | _ => e

/-- Extract the resolved target of a `dwalk` call from the `JVal` it is smuggled
back in (`undef` encodes the `{}` substitute). -/
def toTgt : JVal → RTgt
  | .ref a => .obj a
  | _ => .empty

/-- The tail of the `get` trap after the raw read (lines 341–394): wrap a
plain child, then register the active watcher (if any) under the resolved
path — `getPath` of the re-resolved container, or the bare key when the read
resolved against the `{}` substitute — and return the value. -/
def finishRead (n : Nat) (e2 : Eng) (a : Nat) (prop : String) (tv : JVal)
    (propVal : JVal) : Res :=
  let e3 := wrapChild e2 a prop propVal
  match e3.active with
  | some wid =>
    match toTgt tv with
    | .empty => .ok (registerSub e3 wid prop) propVal
    | .obj a2 =>
      match getPath n e3 a2 prop with
      | some path => .ok (registerSub e3 wid path) propVal
      | Option.none => .fuel
  | Option.none => .ok e3 propVal

/-- The engine interpreter.  Each `Call` case is the line-by-line embedding of
the corresponding function of `src/state.js`:

* `exec` runs a callback body against the proxies;
* `pget` is the proxy `get` trap for string keys (lines 228–395): the getter
  branch with its `!obj[parentSym]` guard, shadow-key substitution and lazy
  `_watcher` creation, then `pgetRest`;
* `pgetRest` is the remainder of the `get` trap: the detached-child
  re-resolution (via `upWalk`/`dwalk`), the raw read, lazy child wrapping, and
  subscriber registration;
* `dwalk` is the downward re-resolution loop (lines 311–326): it sets `skipSym`
  on the current object — a strict-mode `TypeError` when that object is a
  primitive — reads the next segment through the proxy, substitutes `{}` for a
  missing segment, and unwraps `__raw` at the last segment;
* `rget` is a raw `obj[prop]` access: a data slot, else a getter invocation,
  else `undefined`;
* `pset` is the proxy `set` trap (lines 396–423): detached marking, array index
  refresh, the raw write (a `TypeError` on a getter-only property), then
  `callWatchers` unless the value is loosely equal and the key is not
  `"length"`;
* `mkWatch` is `watch(trackedFunc, optUntrackedFunc)` minus the handle: make
  the watcher, store it, run it once (the id handed back to callers is the
  pre-state `nextId`);
* `runw` is `watcher.run`: parent registration, removal from all previously
  joined subscriber sets, tracked-callback execution with the active cursor
  set, the untracked callback (user or getter-cache) with the cursor cleared,
  and cursor restore.

All recursive calls spend one unit of fuel, so the interpreter is structurally
recursive and computes by kernel reduction. -/
def step : Nat → Eng → Call → Res
  | 0, _, _ => .fuel
  | n + 1, e, c =>
    match c with
    | .exec p =>
      match p with
      | .ret v => .ok e v
      | .get a prop k =>
        match step n e (.pget a prop) with
        | .ok e1 v => step n e1 (.exec (k v))
        | .err => .err
        | .fuel => .fuel
      | .set a prop v k =>
        match step n e (.pset a prop v) with
        | .ok e1 _ => step n e1 (.exec k)
        | .err => .err
        | .fuel => .fuel
      | .watchNew body k =>
        match step n e (.mkWatch body UFn.none) with
        | .ok e1 _ => step n e1 (.exec k)
        | .err => .err
        | .fuel => .fuel
    | .pget a prop =>
      match objAt e a with
      | Option.none => .err
      | some o =>
        if prop = "__raw" then .ok e (.ref a)
        else
          match alookup (descriptorsOf o) prop with
          | some g =>
            if o.parent = Option.none then
              match e.active with
              | Option.none => step n e (.exec g)
              | some _ =>
                match alookup e.getterW (a, prop) with
                | some _ => step n e (.pgetRest a ("@@" ++ prop))
                | Option.none =>
                  let old := e.active
                  let wid := e.nextId
                  match step n { e with active := Option.none }
                      (.mkWatch g (UFn.cache a prop)) with
                  | .ok e2 _ =>
                    let e3 := updW e2 wid
                      (fun w => { w with onRemove := some (a, prop) })
                    let e4 := { e3 with
                      getterW := aset e3.getterW (a, prop) wid, active := old }
                    step n e4 (.pgetRest a ("@@" ++ prop))
                  | .err => .err
                  | .fuel => .fuel
            else step n e (.pgetRest a prop)
          | Option.none => step n e (.pgetRest a prop)
    | .pgetRest a prop =>
      match objAt e a with
      | Option.none => .err
      | some o =>
        let resolved : Res :=
          if o.skip = false ∧ o.parent.isSome then
            match upWalk n e a with
            | Option.none => .fuel
            | some (props, root, det) =>
              if det then step n e (.dwalk (.proxy root) props.reverse)
              else .ok e (.ref a)
          else .ok e (.ref a)
        match resolved with
        | .err => .err
        | .fuel => .fuel
        | .ok e1 tv =>
          let readRes : Res :=
            match toTgt tv with
            | .empty => .ok e1 .undef
            | .obj a2 => step n e1 (.rget a2 prop)
          match readRes with
          | .err => .err
          | .fuel => .fuel
          | .ok e2 propVal => finishRead n e2 a prop tv propVal
    | .dwalk cur props =>
      match props with
      | [] => .ok e (match cur with | .proxy a => .ref a | _ => .undef)
      | p :: rest =>
        match cur with
        | .prim _ => .err
        | .empty =>
          if rest = [] then .ok e .undef
          else step n e (.dwalk .empty rest)
        | .proxy a =>
          let eSkip := updObj e a (fun oo => { oo with skip := true })
          match step n eSkip (.pget a p) with
          | .err => .err
          | .fuel => .fuel
          | .ok e1 item =>
            let e2 := updObj e1 a (fun oo => { oo with skip := false })
            if rest = [] then
              match item with
              | .ref cAddr => .ok e2 (.ref cAddr)
              | _ => .ok e2 .undef
            else
              match item with
              | .ref cAddr => step n e2 (.dwalk (.proxy cAddr) rest)
              | .num m => step n e2 (.dwalk (.prim m) rest)
              | .undef => step n e2 (.dwalk .empty rest)
    | .rget a prop =>
      match objAt e a with
      | Option.none => .err
      | some o =>
        match alookup o.fields prop with
        | some v => .ok e v
        | Option.none =>
          match alookup (descriptorsOf o) prop with
          | some g => step n e (.exec g)
          | Option.none => .ok e .undef
    | .pset a prop v =>
      match objAt e a with
      | Option.none => .err
      | some o =>
        match step n e (.rget a prop) with
        | .err => .err
        | .fuel => .fuel
        | .ok e1 oldValue =>
          let e2 := detachMark e1 oldValue
          let e3 := idxRefresh e2 o.isArr prop v
          match alookup (descriptorsOf o) prop with
          | some _ => .err
          | Option.none =>
            let e4 := updObj e3 a (fun oo => { oo with fields := aset oo.fields prop v })
            if looseEq v oldValue = false ∨ prop = "length" then
              match callWatchers n e4 a prop with
              | some e5 => .ok e5 .undef
              | Option.none => .fuel
            else .ok e4 .undef
    | .mkWatch tracked ufn =>
      let id := e.nextId
      let w : W := { tracked := tracked, untracked := ufn, parent := Option.none,
                     children := [], pathsSubs := [], unwatched := false,
                     onRemove := Option.none, runs := 0 }
      let e1 := { e with nextId := id + 1, watchers := aset e.watchers id w }
      match step n e1 (.runw id) with
      | .ok e2 _ => .ok e2 (.num (Int.ofNat id))
      | .err => .err
      | .fuel => .fuel
    | .runw id =>
      match alookup e.watchers id with
      | Option.none => .err
      | some w =>
        let old := e.active
        let e1 :=
          match old with
          | some pid =>
            let ea := updW e id (fun ww => { ww with parent := some pid })
            updW ea pid (fun pw => { pw with children := pw.children ++ [id] })
          | Option.none => e
        let e2 := { e1 with
          pathSubs := w.pathsSubs.foldl (fun ps p => eraseSub ps p id) e1.pathSubs }
        let e3 := updW { e2 with active := some id } id
          (fun ww => { ww with runs := ww.runs + 1 })
        match step n e3 (.exec w.tracked) with
        | .err => .err
        | .fuel => .fuel
        | .ok e5 result =>
          let after : Res :=
            match w.untracked with
            | UFn.none => .ok e5 .undef
            | UFn.user f =>
              step n { e5 with active := Option.none } (.exec (f result))
            | UFn.cache ca cprop =>
              let sp := "@@" ++ cprop
              let e6 := { e5 with active := Option.none }
              match objAt e6 ca with
              | Option.none => .err
              | some co =>
                match alookup co.fields sp with
                | Option.none =>
                  .ok (updObj e6 ca
                    (fun oo => { oo with fields := aset oo.fields sp result })) .undef
                | some _ => step n e6 (.pset ca sp result)
          match after with
          | .ok e8 _ => .ok { e8 with active := old } .undef
          | .err => .err
          | .fuel => .fuel

/-- `watch(trackedFunc)` with no untracked callback, as used by user code. -/
def watchP (fuel : Nat) (e : Eng) (tracked : Prog) : Res :=
  step fuel e (.mkWatch tracked UFn.none)

/-- Execute a top-level script (reads/writes against the store outside any
watcher), e.g. the statements of a test body between two awaits. -/
def runScript (fuel : Nat) (e : Eng) (p : Prog) : Res :=
  step fuel e (.exec p)

/-- `watcher.unwatch()`: set the unwatched flag at once and append the id to
the debounced `toRemove` batch (the timer firing is `cleanTimerFire`). -/
def unwatch (e : Eng) (id : Nat) : Eng :=
  let e1 := updW e id (fun w => { w with unwatched := true })
  { e1 with toRemove := e1.toRemove ++ [id] }

/-- `removeWatcher` over a worklist: for each id, run the on-removal hook
(clearing the getter descriptor's `_watcher` field), recursively remove the
children, null the parent/children links, detach from all joined subscriber
sets, and delete the registry entry. -/
def removeWatchers : Nat → Eng → List Nat → Option Eng
  | 0, _, _ => Option.none
  | _ + 1, e, [] => some e
  | n + 1, e, id :: ids =>
    match alookup e.watchers id with
    | Option.none => removeWatchers n e ids
    | some w =>
      let e1 :=
        match w.onRemove with
        | some key => { e with getterW := aerase e.getterW key }
        | Option.none => e
      let afterChildren : Option Eng :=
        if w.children = [] then some e1
        else
          match removeWatchers n e1 w.children with
          | Option.none => Option.none
          | some e2 =>
            some (updW e2 id
              (fun ww => { ww with parent := Option.none, children := [] }))
      match afterChildren with
      | Option.none => Option.none
      | some e3 =>
        let e4 := { e3 with
          pathSubs := w.pathsSubs.foldl (fun ps p => eraseSub ps p id) e3.pathSubs }
        removeWatchers n { e4 with watchers := aerase e4.watchers id } ids

/-- The debounced cleanup timer firing: process the whole `toRemove` batch
once, then reset it. -/
def cleanTimerFire (fuel : Nat) (e : Eng) : Option Eng :=
  match removeWatchers fuel e e.toRemove with
  | some e2 => some { e2 with toRemove := [] }
  | Option.none => Option.none

/-- The body of the `queueMicrotask` drain in `callWatchers`: iterate the
flush queue (including entries appended during the iteration), skipping
missing or unwatched watchers, skipping a watcher whose parent id is also
pending, counting repetitions per id and skipping (with a diagnostic, logged
in `warns`) an id past 500 repetitions; clear the queue at the end. -/
def drainLoop : Nat → Eng → List (Nat × Nat) → Res
  | 0, _, _ => .fuel
  | n + 1, e, calls =>
    match e.flushRest with
    | [] => .ok { e with flushFront := [], flushRest := [] } .undef
    | cur :: rest =>
      let e1 := { e with flushFront := e.flushFront ++ [cur], flushRest := rest }
      match alookup e1.watchers cur with
      | Option.none => drainLoop n e1 calls
      | some w =>
        if w.unwatched = true then drainLoop n e1 calls
        else if (match w.parent with
                 | some pid => decide (pid ∈ e1.flushFront ++ e1.flushRest)
                 | Option.none => false) = true then drainLoop n e1 calls
        else
          let cnt := (alookup calls cur).getD 0 + 1
          let calls' := aset calls cur cnt
          if 500 < cnt then drainLoop n { e1 with warns := e1.warns ++ [cur] } calls'
          else
            match step n e1 (.runw cur) with
            | .ok e2 _ => drainLoop n e2 calls'
            | .err => .err
            | .fuel => .fuel

/-- A queued flush microtask running: drain with a fresh repetition counter. -/
def drain (fuel : Nat) (e : Eng) : Res :=
  drainLoop fuel e []

/-! ## Scenario building blocks -/

/-- A plain record container with only data fields. -/
def flatObj (fs : List (String × JVal)) : HObj :=
  { fields := fs, getters := [], isArr := false, parent := Option.none,
    detached := false, skip := false }

/-- A freshly created engine around a given heap: the state right after
`store(obj)` with no watcher registered yet. -/
def mkEng (h : List (Nat × HObj)) : Eng :=
  { heap := h, watchers := [], nextId := 0, pathSubs := [], flushFront := [],
    flushRest := [], scheduled := 0, active := Option.none, getterW := [],
    toRemove := [], trace := [], warns := [] }

/-- JS truthiness of `v > 0` for the modelled values. -/
def jgt (v : JVal) : Bool :=
  match v with
  | .num m => 0 < m
  | _ => false

/-- `v + 1` (JS increment on the modelled values; non-numbers give 1 for
definiteness, which no scenario exercises). -/
def jinc (v : JVal) : JVal :=
  match v with
  | .num m => .num (m + 1)
  | _ => .num 1

/-- User statement `data.p++` against the root container: a proxied read
followed by a proxied write of the incremented value. -/
def incr (p : String) : Prog :=
  .get 0 p (fun v => .set 0 p (jinc v) (.ret .undef))

/-- Project the engine out of a result (dummy engine on failure; every
scenario fact that relies on a state also asserts `isOk` of the result). -/
def getE : Res → Eng
  | .ok e _ => e
  | _ => mkEng []

def isOk : Res → Bool
  | .ok _ _ => true
  | _ => false

def getEO : Option Eng → Eng
  | some e => e
  | Option.none => mkEng []

/-! ## Helper lemmas about the association-list and set primitives -/

theorem alookup_aset_self {K V : Type} [DecidableEq K] (l : List (K × V)) (k : K) (v : V) :
    alookup (aset l k v) k = some v := by
  induction l with
  | nil => simp [aset, alookup]
  | cons hd t ih =>
    by_cases h : hd.1 = k <;> simp [aset, alookup, h, ih]

theorem alookup_aset_ne {K V : Type} [DecidableEq K] (l : List (K × V)) (k k' : K) (v : V)
    (h : k ≠ k') : alookup (aset l k v) k' = alookup l k' := by
  induction l with
  | nil => simp [aset, alookup, h]
  | cons hd t ih =>
    by_cases h1 : hd.1 = k
    · have h2 : ¬hd.1 = k' := fun hh => h (h1 ▸ hh)
      simp [aset, alookup, h1, h, Ne.symm h, h2]
    · by_cases h3 : hd.1 = k' <;> simp [aset, alookup, h1, h3, Ne.symm h, ih]

theorem mem_lerase {A : Type} [DecidableEq A] (l : List A) (a x : A) :
    x ∈ lerase l a ↔ (x ∈ l ∧ x ≠ a) := by
  simp [lerase, List.mem_filter]

theorem mem_addOnce {A : Type} [DecidableEq A] (l : List A) (a x : A) :
    x ∈ addOnce l a ↔ (x ∈ l ∨ x = a) := by
  by_cases h : a ∈ l
  · simp only [addOnce, if_pos h]
    constructor
    · exact Or.inl
    · rintro (hm | rfl)
      · exact hm
      · exact h
  · simp [addOnce, if_neg h]

theorem lerase_of_not_mem {A : Type} [DecidableEq A] (l : List A) (a : A) (h : a ∉ l) :
    lerase l a = l := by
  unfold lerase
  rw [List.filter_eq_self]
  intro b hb
  simp only [decide_eq_true_eq]
  exact fun hh => h (hh ▸ hb)

theorem subsOf_eraseSub (e : List (String × List Nat)) (p q : String) (id : Nat) :
    (alookup (eraseSub e p id) q).getD [] =
      (if q = p then lerase ((alookup e q).getD []) id else (alookup e q).getD []) := by
  unfold eraseSub
  by_cases hq : q = p
  · subst hq
    match h : alookup e q with
    | Option.none => simp [h, lerase]
    | some subs => simp [h, alookup_aset_self]
  · match h : alookup e p with
    | Option.none => simp [hq, h]
    | some subs =>
      simp [hq, h, alookup_aset_ne e p q (lerase subs id) (fun hh => hq hh.symm)]

/-! ## C3 — set-trap change check and the `"length"` exception -/

/-- A reactive record (not a sequence) that happens to own a property named
`"length"`. -/
def c3e0 : Eng := mkEng [(0, flatObj [("length", .num 5)])]

/-- An observer depending on the `"length"` property of the record. -/
def c3e1 : Eng := getE (watchP 100 c3e0 (.get 0 "length" (fun _ => .ret .undef)))

/-- Writing the *same* value 5 back to the record's `"length"` property. -/
def c3r2 : Res := runScript 100 c3e1 (.set 0 "length" (.num 5) (.ret .undef))

def c3e2 : Eng := getE c3r2

def c3r3 : Res := drain 600 c3e2

/-- C3, counterexample: container 0 is a record (`isArr = false`), not a
sequence, and the value written to its `"length"` property is loosely equal
to the stored one — by the claim no dependent observer should be invalidated —
yet the write enqueues the observer (`flushRest = [0]`) and the flush re-runs
it (`runs` goes from 1 to 2).  The `set` trap tests only `prop === "length"`,
not whether the container is a sequence. -/
theorem c3_length_on_record_counterexample :
    (objAt c3e0 0).map HObj.isArr = some false ∧
    looseEq (.num 5) (.num 5) = true ∧
    isOk c3r2 = true ∧
    c3e2.flushRest = [0] ∧
    isOk c3r3 = true ∧
    runsOf (getE c3r3) 0 = 2 ∧
    runsOf c3e1 0 = 1 := by decide

theorem objAt_updObj_self (e : Eng) (a : Nat) (f : HObj → HObj) (o : HObj)
    (h : objAt e a = some o) : objAt (updObj e a f) a = some (f o) := by
  unfold objAt at h ⊢
  unfold updObj
  rw [h]
  exact alookup_aset_self e.heap a (f o)

theorem updObj_pathSubs (e : Eng) (a : Nat) (f : HObj → HObj) :
    (updObj e a f).pathSubs = e.pathSubs := by
  unfold updObj
  match alookup e.heap a with
  | some o => rfl
  | Option.none => rfl

theorem updObj_flushRest (e : Eng) (a : Nat) (f : HObj → HObj) :
    (updObj e a f).flushRest = e.flushRest := by
  unfold updObj
  match alookup e.heap a with
  | some o => rfl
  | Option.none => rfl

theorem enqueue_flushRest (e : Eng) (id' : Nat) :
    (enqueue e id').flushRest = lerase e.flushRest id' ++ [id'] := by
  unfold enqueue
  dsimp only
  split <;> rfl

theorem mem_enqueue_flushRest (e : Eng) (id id' : Nat) (h : id ∈ e.flushRest ∨ id = id') :
    id ∈ (enqueue e id').flushRest := by
  rw [enqueue_flushRest]
  rcases h with h | rfl
  · by_cases hne : id = id'
    · subst hne
      simp
    · simp only [List.mem_append, mem_lerase]
      exact Or.inl ⟨h, hne⟩
  · simp

theorem mem_foldl_enqueue_flushRest (ids : List Nat) (e : Eng) (id : Nat)
    (h : id ∈ e.flushRest ∨ id ∈ ids) :
    id ∈ (ids.foldl enqueue e).flushRest := by
  induction ids generalizing e with
  | nil =>
    rcases h with h | h
    · exact h
    · cases h
  | cons hd t ih =>
    simp only [List.foldl_cons]
    apply ih
    rcases h with h | h
    · exact Or.inl (mem_enqueue_flushRest e id hd (Or.inl h))
    · rcases List.mem_cons.mp h with rfl | hm
      · exact Or.inl (mem_enqueue_flushRest e id id (Or.inr rfl))
      · exact Or.inr hm

/-- The no-trigger half of the `set` trap contract: writing a number loosely
equal to the stored number at a data property whose key is not `"length"`
performs the write and nothing else (no `callWatchers`): the flush queue, the
schedule count, the watcher registry — the entire state except the written
field — are untouched. -/
theorem pset_eq_noTrigger (n : Nat) (e : Eng) (a : Nat) (prop : String) (o : HObj) (m : Int)
    (ho : objAt e a = some o)
    (hg : alookup (descriptorsOf o) prop = Option.none)
    (hf : alookup o.fields prop = some (.num m))
    (hlen : prop ≠ "length") :
    step (n + 2) e (.pset a prop (.num m)) =
      .ok (updObj e a (fun oo => { oo with fields := aset oo.fields prop (.num m) })) .undef := by
  show step (n + 1 + 1) e (.pset a prop (.num m)) = _
  simp only [step, ho, hg, hf, looseEq, hlen, detachMark, idxRefresh]
  simp

/-- The `"length"` half of the `set` trap contract: a write to the property
key `"length"` of a root container always reaches `callWatchers`, whatever the
old and new values: every subscriber of the `"length"` path is pending
afterwards.  Note the trap tests only `prop === "length"`; it does not ask
whether the container is a sequence. -/
theorem pset_length_triggers (n : Nat) (e : Eng) (a : Nat) (o : HObj) (m m' : Int)
    (ho : objAt e a = some o)
    (hg : alookup (descriptorsOf o) "length" = Option.none)
    (hf : alookup o.fields "length" = some (.num m))
    (hroot : o.parent = Option.none) :
    ∃ e', step (n + 2) e (.pset a "length" (.num m')) = .ok e' .undef ∧
      ∀ id ∈ subsOf e "length", id ∈ e'.flushRest := by
  show ∃ e', step (n + 1 + 1) e (.pset a "length" (.num m')) = _ ∧ _
  have hup := objAt_updObj_self e a
    (fun oo => { oo with fields := aset oo.fields "length" (.num m') }) o ho
  simp only [step, ho, hg, hf, detachMark, idxRefresh]
  simp only [callWatchers, getPath, hup, hroot, updObj_pathSubs, or_true, ite_true]
  match hsub : alookup e.pathSubs "length" with
  | Option.none =>
    refine ⟨_, rfl, ?_⟩
    intro id hid
    unfold subsOf at hid
    rw [hsub] at hid
    cases hid
  | some ids =>
    refine ⟨_, rfl, ?_⟩
    intro id hid
    unfold subsOf at hid
    rw [hsub] at hid
    apply mem_foldl_enqueue_flushRest
    exact Or.inr hid

/-- A one-field record used to witness the no-trigger half of the amended C3. -/
def c3w : Eng := mkEng [(0, flatObj [("x", .num 3)])]

/-- C3, amended: for every write of a number loosely equal to the stored
number at a data property of a reactive container, no dependent observer is
invalidated (the write is still performed and nothing else changes) — except a
write to the property key `"length"` of *any* container (the check does not
distinguish sequences from records), which always reaches `callWatchers` and
leaves every subscriber of the `"length"` path pending. -/
theorem c3_set_trap_change_check :
    (∀ n e a prop o m, objAt e a = some o →
      alookup (descriptorsOf o) prop = Option.none →
      alookup o.fields prop = some (.num m) →
      prop ≠ "length" →
      step (n + 2) e (.pset a prop (.num m)) =
        .ok (updObj e a (fun oo => { oo with fields := aset oo.fields prop (.num m) })) .undef) ∧
    (∀ n e a o m m', objAt e a = some o →
      alookup (descriptorsOf o) "length" = Option.none →
      alookup o.fields "length" = some (.num m) →
      o.parent = Option.none →
      ∃ e', step (n + 2) e (.pset a "length" (.num m')) = .ok e' .undef ∧
        ∀ id ∈ subsOf e "length", id ∈ e'.flushRest) :=
  ⟨fun n e a prop o m ho hg hf hl => pset_eq_noTrigger n e a prop o m ho hg hf hl,
   fun n e a o m m' ho hg hf hr => pset_length_triggers n e a o m m' ho hg hf hr⟩

/-- Witness for C3 at concrete inputs: a loosely-equal write to `"x"` only
writes the field, and a loosely-equal write to `"length"` of the record of the
counterexample scenario makes its subscriber pending. -/
theorem c3_set_trap_change_check_witness :
    (step 2 c3w (.pset 0 "x" (.num 3)) =
      .ok (updObj c3w 0 (fun oo => { oo with fields := aset oo.fields "x" (.num 3) })) .undef) ∧
    (∃ e', step 12 c3e1 (.pset 0 "length" (.num 5)) = .ok e' .undef ∧
      ∀ id ∈ subsOf c3e1 "length", id ∈ e'.flushRest) :=
  ⟨c3_set_trap_change_check.1 0 c3w 0 "x" _ 3 rfl rfl rfl (by decide),
   c3_set_trap_change_check.2 10 c3e1 0 _ 5 5 rfl rfl rfl rfl⟩

/-! ## C7 — microtask scheduling per quiescent period -/

/-- Total `flushQueue.size`. -/
def queueSize (e : Eng) : Nat :=
  e.flushFront.length + e.flushRest.length

/-- A store `{x: 0}` with a single observer depending on `"x"`. -/
def c7e0 : Eng := mkEng [(0, flatObj [("x", .num 0)])]

def c7e1 : Eng := getE (watchP 100 c7e0 (.get 0 "x" (fun _ => .ret .undef)))

/-- First write of the quiescent period. -/
def c7r2 : Res := runScript 100 c7e1 (.set 0 "x" (.num 1) (.ret .undef))

def c7e2 : Eng := getE c7r2

/-- Second write of the same quiescent period (no drain ran in between). -/
def c7r3 : Res := runScript 100 c7e2 (.set 0 "x" (.num 2) (.ret .undef))

def c7e3 : Eng := getE c7r3

theorem enqueue_scheduled (e : Eng) (id : Nat) :
    (enqueue e id).scheduled =
      (if (lerase e.flushFront id).length + (lerase e.flushRest id ++ [id]).length = 1
       then e.scheduled + 1 else e.scheduled) := by
  unfold enqueue
  dsimp only
  split <;> simp_all

theorem enqueue_queueSize (e : Eng) (id : Nat) :
    (enqueue e id).flushFront = lerase e.flushFront id ∧
    (enqueue e id).flushRest = lerase e.flushRest id ++ [id] := by
  unfold enqueue
  dsimp only
  split <;> exact ⟨rfl, rfl⟩

theorem lerase_cons_self {A : Type} [DecidableEq A] (t : List A) (a : A) :
    lerase (a :: t) a = lerase t a := by
  simp [lerase, List.filter_cons]

theorem lerase_cons_ne {A : Type} [DecidableEq A] (t : List A) (hd a : A) (h : hd ≠ a) :
    lerase (hd :: t) a = hd :: lerase t a := by
  simp [lerase, List.filter_cons, h]

theorem lerase_length_nodup {A : Type} [DecidableEq A] (l : List A) (a : A) (h : l.Nodup) :
    l.length ≤ (lerase l a).length + 1 := by
  induction l with
  | nil => simp [lerase]
  | cons hd t ih =>
    obtain ⟨hm, hnd⟩ := List.nodup_cons.mp h
    by_cases heq : hd = a
    · subst heq
      rw [lerase_cons_self, lerase_of_not_mem t hd hm]
      simp
    · rw [lerase_cons_ne t hd a heq]
      have := ih hnd
      simp only [List.length_cons]
      omega

/-- Deleting one id from the two queue halves loses at most one element in
total, provided the whole queue is duplicate-free. -/
theorem lerase_pair_length (fr rs : List Nat) (id : Nat) (h : (fr ++ rs).Nodup) :
    fr.length + rs.length ≤ (lerase fr id).length + (lerase rs id).length + 1 := by
  rcases List.nodup_append.mp h with ⟨h1, h2, hdisj⟩
  by_cases hf : id ∈ fr
  · have hnr : id ∉ rs := hdisj hf
    rw [lerase_of_not_mem rs id hnr]
    have := lerase_length_nodup fr id h1
    omega
  · rw [lerase_of_not_mem fr id hf]
    have := lerase_length_nodup rs id h2
    omega

theorem lerase_nodup {A : Type} [DecidableEq A] (l : List A) (a : A) (h : l.Nodup) :
    (lerase l a).Nodup :=
  h.filter _

theorem not_mem_lerase_self {A : Type} [DecidableEq A] (l : List A) (a : A) :
    a ∉ lerase l a := by
  intro hm
  exact ((mem_lerase l a a).mp hm).2 rfl

theorem enqueue_nodup (e : Eng) (id : Nat) (h : (e.flushFront ++ e.flushRest).Nodup) :
    ((enqueue e id).flushFront ++ (enqueue e id).flushRest).Nodup := by
  rw [(enqueue_queueSize e id).1, (enqueue_queueSize e id).2]
  rcases List.nodup_append.mp h with ⟨h1, h2, hdisj⟩
  rw [List.nodup_append]
  refine ⟨lerase_nodup _ _ h1, ?_, ?_⟩
  · rw [List.nodup_append]
    refine ⟨lerase_nodup _ _ h2, List.nodup_singleton id, ?_⟩
    intro x hx
    simp only [List.mem_singleton]
    rintro rfl
    exact not_mem_lerase_self _ _ hx
  · intro x hx
    have hxf := (mem_lerase _ _ _).mp hx
    intro hy
    rcases List.mem_append.mp hy with hy | hy
    · exact hdisj hxf.1 ((mem_lerase _ _ _).mp hy).1
    · rcases List.mem_singleton.mp hy with rfl
      exact hxf.2 rfl

/-- While the flush queue holds at least two ids, the subscriber loop of
`callWatchers` schedules no microtask (and the queue stays at size ≥ 2). -/
theorem foldl_enqueue_no_schedule (ids : List Nat) (e : Eng) (h : 2 ≤ queueSize e)
    (hnd : (e.flushFront ++ e.flushRest).Nodup) :
    (ids.foldl enqueue e).scheduled = e.scheduled ∧
    2 ≤ queueSize (ids.foldl enqueue e) ∧
    ((ids.foldl enqueue e).flushFront ++ (ids.foldl enqueue e).flushRest).Nodup := by
  induction ids generalizing e with
  | nil => exact ⟨rfl, h, hnd⟩
  | cons hd t ih =>
    simp only [List.foldl_cons]
    have hq := enqueue_queueSize e hd
    have hpair := lerase_pair_length e.flushFront e.flushRest hd hnd
    have hge : 2 ≤ queueSize (enqueue e hd) := by
      unfold queueSize at h ⊢
      rw [hq.1, hq.2]
      simp only [List.length_append, List.length_singleton]
      omega
    have hs : (enqueue e hd).scheduled = e.scheduled := by
      rw [enqueue_scheduled]
      rw [if_neg ?_]
      unfold queueSize at h
      simp only [List.length_append, List.length_singleton]
      omega
    obtain ⟨hs2, hg2, hn2⟩ := ih (enqueue e hd) hge (enqueue_nodup e hd hnd)
    exact ⟨hs2.trans hs, hg2, hn2⟩

/-- First write of a quiescent period: enqueueing a duplicate-free nonempty
subscriber list into the empty flush queue schedules exactly one microtask. -/
theorem foldl_enqueue_from_empty (ids : List Nat) (e : Eng)
    (hfr : e.flushFront = []) (hrs : e.flushRest = [])
    (hne : ids ≠ []) (hnd : ids.Nodup) :
    (ids.foldl enqueue e).scheduled = e.scheduled + 1 := by
  match ids, hne with
  | hd :: t, _ =>
    simp only [List.foldl_cons]
    have h1 : (enqueue e hd).scheduled = e.scheduled + 1 := by
      rw [enqueue_scheduled, hfr, hrs]
      simp [lerase]
    have hq := enqueue_queueSize e hd
    match t, hnd with
    | [], _ => simpa using h1
    | id2 :: t2, hnd =>
      have hmem : ¬hd = id2 := by
        intro hh
        subst hh
        simp at hnd
      simp only [List.foldl_cons]
      have hq1 : (enqueue e hd).flushFront = [] := by rw [hq.1, hfr]; rfl
      have hq2 : (enqueue e hd).flushRest = [hd] := by rw [hq.2, hrs]; rfl
      have hqq := enqueue_queueSize (enqueue e hd) id2
      have h2 : (enqueue (enqueue e hd) id2).scheduled = e.scheduled + 1 := by
        rw [enqueue_scheduled, hq1, hq2, h1]
        rw [if_neg ?_]
        simp [lerase, hmem]
      have hsz : 2 ≤ queueSize (enqueue (enqueue e hd) id2) := by
        unfold queueSize
        rw [hqq.1, hqq.2, hq1, hq2]
        simp [lerase, hmem]
      have hnodup2 : ((enqueue (enqueue e hd) id2).flushFront ++
          (enqueue (enqueue e hd) id2).flushRest).Nodup := by
        rw [hqq.1, hqq.2, hq1, hq2]
        simp [lerase, List.filter_cons, hmem]
      obtain ⟨hs, _, _⟩ := foldl_enqueue_no_schedule t2 _ hsz hnodup2
      rw [hs, h2]

/-- The defect: when the flush queue holds exactly the one observer being
re-invalidated, `flushQueue.delete` + `add` leaves the size at 1, so the
`size == 1` test passes again and a *second* microtask is scheduled even
though the pending set never became empty in between. -/
theorem enqueue_singleton_reschedules (e : Eng) (wid : Nat)
    (hfr : e.flushFront = []) (hrs : e.flushRest = [wid]) :
    (enqueue e wid).scheduled = e.scheduled + 1 := by
  rw [enqueue_scheduled, hfr, hrs]
  simp [lerase]

/-- The extra drains are harmless: a drain that finds an empty pending set
returns at once, running no watcher. -/
theorem drain_empty_harmless (n : Nat) (e : Eng) (h : e.flushRest = []) :
    drain (n + 1) e = .ok { e with flushFront := [], flushRest := [] } .undef := by
  unfold drain drainLoop
  rw [h]

/-- C7, counterexample: two synchronous writes to `x` in the same quiescent
period (the pending set holds observer 0 throughout and no drain runs in
between), yet a microtask is scheduled by *each* write: `scheduled` goes
0 → 1 → 2.  The `size == 1` test in `callWatchers` passes again after the
delete + re-add of the only pending id, so a second microtask is scheduled,
contradicting the claim that a new microtask is scheduled only on the
empty-to-non-empty transition and never a second time per quiescent period. -/
theorem c7_second_microtask_counterexample :
    c7e1.scheduled = 0 ∧ c7e1.flushRest = [] ∧
    isOk c7r2 = true ∧ c7e2.scheduled = 1 ∧ c7e2.flushRest = [0] ∧
    isOk c7r3 = true ∧ c7e3.scheduled = 2 ∧ c7e3.flushRest = [0] := by decide

/-- C7, amended: the subscriber loop of `callWatchers` schedules a microtask
exactly when the flush queue has size 1 right after an id is deleted and
re-appended.  Consequently (a) the first invalidating write of a quiescent
period (pending set empty, duplicate-free nonempty subscriber list) schedules
exactly one microtask; (b) while the pending set holds at least two ids no
further microtask is scheduled; but (c) when the pending set holds exactly
the one observer being re-invalidated, an additional microtask *is* scheduled
in the same quiescent period; (d) such extra drains find an emptied pending
set and return without running any watcher. -/
theorem c7_microtask_scheduling :
    (∀ (ids : List Nat) (e : Eng), e.flushFront = [] → e.flushRest = [] →
      ids ≠ [] → ids.Nodup →
      (ids.foldl enqueue e).scheduled = e.scheduled + 1) ∧
    (∀ (ids : List Nat) (e : Eng), 2 ≤ queueSize e →
      (e.flushFront ++ e.flushRest).Nodup →
      (ids.foldl enqueue e).scheduled = e.scheduled) ∧
    (∀ (e : Eng) (wid : Nat), e.flushFront = [] → e.flushRest = [wid] →
      (enqueue e wid).scheduled = e.scheduled + 1) ∧
    (∀ (n : Nat) (e : Eng), e.flushRest = [] →
      drain (n + 1) e = .ok { e with flushFront := [], flushRest := [] } .undef) :=
  ⟨fun ids e hf hr hne hnd => foldl_enqueue_from_empty ids e hf hr hne hnd,
   fun ids e hsz hnd => (foldl_enqueue_no_schedule ids e hsz hnd).1,
   fun e wid hf hr => enqueue_singleton_reschedules e wid hf hr,
   fun n e h => drain_empty_harmless n e h⟩

/-- A state whose pending set already holds two observer ids. -/
def c7two : Eng := { mkEng [] with flushRest := [1, 2] }

/-- Witness for C7 at concrete inputs: a first write schedules one microtask;
writes against a two-element pending set schedule none; re-invalidating the
single pending observer schedules another; draining an empty set is a no-op. -/
theorem c7_microtask_scheduling_witness :
    ([0].foldl enqueue c7e1).scheduled = c7e1.scheduled + 1 ∧
    ([5].foldl enqueue c7two).scheduled = c7two.scheduled ∧
    (enqueue c7e2 0).scheduled = c7e2.scheduled + 1 ∧
    drain 5 c7e1 = .ok { c7e1 with flushFront := [], flushRest := [] } .undef :=
  ⟨c7_microtask_scheduling.1 [0] c7e1 rfl rfl (by decide) (by decide),
   c7_microtask_scheduling.2.1 [5] c7two (by decide) (by decide),
   c7_microtask_scheduling.2.2.1 c7e2 0 rfl rfl,
   c7_microtask_scheduling.2.2.2 4 c7e1 rfl⟩

/-! ## C5 / C10 — computed properties (getter caching and its root-only guard) -/

/-- A deriving function reading the root's `x` and `y` dependencies through
the proxy (as the repository's getters do via closure) and returning
`h x y`. -/
def gDeriv (h : Int → Int → Int) : Prog :=
  .get 0 "x" (fun a => .get 0 "y" (fun b =>
    .ret (.num (h (match a with | .num m => m | _ => 0)
                  (match b with | .num m => m | _ => 0)))))

/-- `store({x: 0, y: 0, get g() { return h(this-x, this-y) }})`. -/
def c5store (h : Int → Int → Int) : Eng := mkEng [(0,
  { fields := [("x", .num 0), ("y", .num 0)],
    getters := [("g", gDeriv h)], isArr := false,
    parent := Option.none, detached := false, skip := false })]

/-- `h` ignoring `x`: a dependency change that leaves the derived value
unchanged. -/
def gSnd : Int → Int → Int := fun _ b => b

/-- `h` returning `x`: a dependency change that changes the derived value. -/
def gFst : Int → Int → Int := fun a _ => a

/-- Observer (id 0) reading the computed `g`; its first run creates the
internal cache watcher (id 1). -/
def c5reg (h : Int → Int → Int) : Res :=
  watchP 100 (c5store h) (.get 0 "g" (fun _ => .ret .undef))

def c5sameInit : Eng := getE (c5reg gSnd)

/-- Write `x := 1`, then flush, with the value-preserving getter. -/
def c5sameAfter : Res :=
  drain 600 (getE (runScript 100 c5sameInit (.set 0 "x" (.num 1) (.ret .undef))))

def c5chgInit : Eng := getE (c5reg gFst)

/-- Write `x := 1`, then flush, with the value-changing getter. -/
def c5chgAfter : Res :=
  drain 600 (getE (runScript 100 c5chgInit (.set 0 "x" (.num 1) (.ret .undef))))

/-- A skipped getter branch evaluates the getter as a plain property read:
for any container carrying a parent link, the `get` trap continues directly
with `pgetRest` on the *original* key — no `"@@"` shadow substitution and no
internal cache watcher creation. -/
theorem pget_nested_getter_plain (n : Nat) (e : Eng) (a : Nat) (prop : String)
    (o : HObj) (g : Prog)
    (ho : objAt e a = some o)
    (hraw : prop ≠ "__raw")
    (hg : alookup (descriptorsOf o) prop = some g)
    (hp : o.parent.isSome) :
    step (n + 1) e (.pget a prop) = step n e (.pgetRest a prop) := by
  have hp' : ¬o.parent = Option.none := by
    intro hh
    rw [hh] at hp
    cases hp
  simp only [step, ho, hraw, hg, hp']
  simp [hp']

/-- A nested store `{child: {z: 3, get g() {...}}}` with the getter declared
on the wrapped child container. -/
def c10e0 : Eng := mkEng
  [(0, flatObj [("child", .ref 1)]),
   (1, { fields := [("z", .num 3)],
         getters := [("g", .get 0 "child" (fun _ => .ret (.num 42)))],
         isArr := false, parent := some (0, "child"), detached := false,
         skip := false })]

/-- An observer reading the nested computed property `g`. -/
def c10r : Res := watchP 100 c10e0 (.get 1 "g" (fun _ => .ret .undef))

def c10e1 : Eng := getE c10r

/-- C10: computed-property caching applies only to containers without a parent
link (roots).  (a) In general, for any container carrying a parent link the
`get` trap skips the getter branch entirely and continues as a plain property
read of the original key — no `"@@"` shadow-key substitution and no internal
caching observer.  (b) In the concrete nested scenario the in-observer read of
the child's getter leaves `nextId` at 1 (no cache watcher is registered),
leaves `_watcher` empty, creates no `"@@g"` field on the child, and registers
the observer under the plain path `"child/g"`.  (c) By contrast, the same read
against a root container does create the cache watcher and the shadow key. -/
theorem c10_nested_getter_not_cached :
    (∀ n e a prop o g, objAt e a = some o → prop ≠ "__raw" →
      alookup (descriptorsOf o) prop = some g → o.parent.isSome →
      step (n + 1) e (.pget a prop) = step n e (.pgetRest a prop)) ∧
    (isOk c10r = true ∧ c10e1.nextId = 1 ∧ c10e1.getterW = [] ∧
     (objAt c10e1 1).map (fun o => alookup o.fields "@@g") = some Option.none ∧
     subsOf c10e1 "child/g" = [0]) ∧
    (c5sameInit.nextId = 2 ∧ c5sameInit.getterW.length = 1 ∧
     (objAt c5sameInit 0).map (fun o => alookup o.fields "@@g") = some (some (.num 0)) ∧
     subsOf c5sameInit "@@g" = [0]) :=
  ⟨fun n e a prop o g ho hraw hg hp => pget_nested_getter_plain n e a prop o g ho hraw hg hp,
   by decide, by decide⟩

/-- Witness for C10's general part at a concrete input: the nested child (addr
1, parent link to the root) with getter `g`. -/
theorem c10_nested_getter_not_cached_witness :
    step 50 c10e0 (.pget 1 "g") = step 49 c10e0 (.pgetRest 1 "g") :=
  c10_nested_getter_not_cached.1 49 c10e0 1 "g" _ _ rfl (by decide) rfl rfl

def getV : Res → Option JVal
  | .ok _ v => some v
  | _ => Option.none

/-- Reading a computed property outside any active observer calls the original
getter directly and returns its result at once (no shadow key, no caching,
no registration: the trap returns the deriving function's evaluation). -/
theorem pget_getter_outside_direct (n : Nat) (e : Eng) (a : Nat) (prop : String)
    (o : HObj) (g : Prog)
    (ho : objAt e a = some o)
    (hraw : prop ≠ "__raw")
    (hg : alookup (descriptorsOf o) prop = some g)
    (hroot : o.parent = Option.none)
    (hact : e.active = Option.none) :
    step (n + 1) e (.pget a prop) = step n e (.exec g) := by
  simp only [step, ho, hraw, hg, hroot, hact]
  simp

/-- C5: computed-property caching.  (a) Outside any active observer, a getter
read evaluates the deriving function directly (always fresh).  (b) The caching
mechanism notifies dependents only on value change: the cache watcher's write
of an unchanged number into the `"@@"`-prefixed shadow key performs the write
and touches nothing else — in particular the flush queue, so no dependent
observer is invalidated.  (c) Concretely, with getter `gSnd` (value ignores
`x`): after `x := 1` and a flush, the deriving function has been re-invoked
(cache watcher runs 1 → 2) while the dependent observer has not re-run (stays
at 1).  (d) With getter `gFst` (value follows `x`): the same write re-runs the
dependent observer (1 → 2).  (e) Reading the getter outside a watcher after
the change returns the fresh derived value. -/
theorem c5_getter_caching :
    (∀ n e a prop o g, objAt e a = some o → prop ≠ "__raw" →
      alookup (descriptorsOf o) prop = some g → o.parent = Option.none →
      e.active = Option.none →
      step (n + 1) e (.pget a prop) = step n e (.exec g)) ∧
    (∀ n e a p o m, objAt e a = some o →
      alookup (descriptorsOf o) ("@@" ++ p) = Option.none →
      alookup o.fields ("@@" ++ p) = some (.num m) →
      ("@@" ++ p) ≠ "length" →
      step (n + 2) e (.pset a ("@@" ++ p) (.num m)) =
        .ok (updObj e a
          (fun oo => { oo with fields := aset oo.fields ("@@" ++ p) (.num m) })) .undef) ∧
    (runsOf c5sameInit 0 = 1 ∧ runsOf c5sameInit 1 = 1 ∧
     isOk c5sameAfter = true ∧
     runsOf (getE c5sameAfter) 1 = 2 ∧ runsOf (getE c5sameAfter) 0 = 1) ∧
    (runsOf c5chgInit 0 = 1 ∧ runsOf c5chgInit 1 = 1 ∧
     isOk c5chgAfter = true ∧
     runsOf (getE c5chgAfter) 1 = 2 ∧ runsOf (getE c5chgAfter) 0 = 2) ∧
    getV (step 100 (getE c5chgAfter) (.pget 0 "g")) = some (.num 1) :=
  ⟨fun n e a prop o g ho hraw hg hroot hact =>
      pget_getter_outside_direct n e a prop o g ho hraw hg hroot hact,
   fun n e a p o m ho hg hf hl => pset_eq_noTrigger n e a ("@@" ++ p) o m ho hg hf hl,
   by decide, by decide, by decide⟩

/-- Witness for C5's hypothesis-bearing parts at concrete inputs: direct
evaluation of `g` on the fresh store, and the no-trigger shadow write of the
unchanged cached value 0. -/
theorem c5_getter_caching_witness :
    (step 50 (c5store gSnd) (.pget 0 "g") = step 49 (c5store gSnd) (.exec (gDeriv gSnd))) ∧
    (step 12 c5sameInit (.pset 0 "@@g" (.num 0)) =
      .ok (updObj c5sameInit 0
        (fun oo => { oo with fields := aset oo.fields "@@g" (.num 0) })) .undef) :=
  ⟨c5_getter_caching.1 49 (c5store gSnd) 0 "g" _ _ rfl (by decide) rfl rfl rfl,
   c5_getter_caching.2.1 10 c5sameInit 0 "g" _ 0 rfl rfl rfl (by decide)⟩

/-! ## C8 — detached-path re-resolution -/

/-- A stale chain `root.a.b` whose live `"a"` slot now holds the primitive 5:
container 1 (the old `a`) was replaced and is marked detached; container 2
(the old `b`) is still referenced externally. -/
def c8bad : Eng := mkEng
  [(0, flatObj [("a", .num 5)]),
   (1, { fields := [("b", .ref 2)], getters := [], isArr := false,
         parent := some (0, "a"), detached := true, skip := false }),
   (2, { fields := [("c", .num 7)], getters := [], isArr := false,
         parent := some (1, "b"), detached := false, skip := false })]

def c8badRead : Res := step 100 c8bad (.pget 2 "c")

/-- The same stale chain, but the live `"a"` segment is missing altogether
(the slot is absent, i.e. `undefined`). -/
def c8miss : Eng := mkEng
  [(0, flatObj []),
   (1, { fields := [("b", .ref 2)], getters := [], isArr := false,
         parent := some (0, "a"), detached := true, skip := false }),
   (2, { fields := [("c", .num 7)], getters := [], isArr := false,
         parent := some (1, "b"), detached := false, skip := false })]

def c8missRead : Res := step 100 c8miss (.pget 2 "c")

/-- Once a segment of the live path is missing, the rest of the downward walk
runs against the `{}` substitute: it always completes, without touching the
state, and resolves to the empty target (the read then yields `undefined`). -/
theorem dwalk_empty_ok (rest : List String) :
    ∀ (p : String) (n : Nat) (e : Eng), rest.length < n →
      step n e (.dwalk .empty (p :: rest)) = .ok e .undef := by
  induction rest with
  | nil =>
    intro p n e hn
    match n, hn with
    | m + 1, _ => simp [step]
  | cons q t ih =>
    intro p n e hn
    match n, hn with
    | m + 1, hn =>
      have : t.length < m := by
        simp at hn
        omega
      simp only [step]
      rw [if_neg (by simp)]
      exact ih q m e this

/-- One proxy step of the downward walk whose segment read yields `undefined`
(the segment is missing): the walk substitutes the `{}` object and continues
(or, at the last segment, resolves empty at once) — no error is raised by
this step. -/
theorem dwalk_missing_segment_step (n : Nat) (e e1 : Eng) (a : Nat) (p : String)
    (rest : List String)
    (hread : step n (updObj e a (fun oo => { oo with skip := true })) (.pget a p) =
      .ok e1 .undef) :
    step (n + 1) e (.dwalk (.proxy a) (p :: rest)) =
      (if rest = [] then .ok (updObj e1 a (fun oo => { oo with skip := false })) .undef
       else step n (updObj e1 a (fun oo => { oo with skip := false }))
         (.dwalk .empty rest)) := by
  simp only [step, hread]

/-- The failing regime: when the current walk object is a primitive number,
the very first statement of the loop body — `activeObj[skipSym] = true` — is a
strict-mode property assignment on a primitive and throws a `TypeError`. -/
theorem dwalk_prim_throws (n : Nat) (e : Eng) (m : Int) (p : String) (rest : List String) :
    step (n + 1) e (.dwalk (.prim m) (p :: rest)) = .err := rfl

/-- C8 (amended): the detached-path re-resolution is error-free on missing
segments — (a) after a missing segment the remaining walk always completes
against the `{}` substitute with the empty target; (b) a missing-segment
proxy step itself continues into that regime without error; (d) end to end,
the concrete stale read whose live `"a"` is absent returns `undefined`
successfully.  But it is not unconditionally error-free: (c) whenever a
non-final live segment holds a primitive number, the walk throws. -/
theorem c8_detached_reresolution :
    (∀ (rest : List String) (p : String) (n : Nat) (e : Eng), rest.length < n →
      step n e (.dwalk .empty (p :: rest)) = .ok e .undef) ∧
    (∀ (n : Nat) (e e1 : Eng) (a : Nat) (p : String) (rest : List String),
      step n (updObj e a (fun oo => { oo with skip := true })) (.pget a p) =
        .ok e1 .undef →
      step (n + 1) e (.dwalk (.proxy a) (p :: rest)) =
        (if rest = [] then .ok (updObj e1 a (fun oo => { oo with skip := false })) .undef
         else step n (updObj e1 a (fun oo => { oo with skip := false }))
           (.dwalk .empty rest))) ∧
    (∀ (n : Nat) (e : Eng) (m : Int) (p : String) (rest : List String),
      step (n + 1) e (.dwalk (.prim m) (p :: rest)) = .err) ∧
    (isOk c8missRead = true ∧ getV c8missRead = some .undef) :=
  ⟨fun rest p n e hn => dwalk_empty_ok rest p n e hn,
   fun n e e1 a p rest hread => dwalk_missing_segment_step n e e1 a p rest hread,
   fun n e m p rest => dwalk_prim_throws n e m p rest,
   by decide⟩

/-- C8, counterexample to the unconditional "never raises an error": a read
through the stale, detached `b` reference whose re-resolved live path holds
the primitive 5 at its `"a"` segment (the segment is present, not missing)
throws instead of recovering. -/
theorem c8_primitive_segment_counterexample :
    (objAt c8bad 1).map HObj.detached = some true ∧
    (objAt c8bad 0).map (fun o => alookup o.fields "a") = some (some (.num 5)) ∧
    c8badRead = .err := by
  refine ⟨by decide, by decide, ?_⟩
  rfl

/-- The walk state of `c8miss` with the root's `skipSym` set: the state in
which the missing `"a"` segment is read (the read changes nothing, so it is
also the state after the read). -/
def c8missStep : Eng := updObj c8miss 0 (fun oo => { oo with skip := true })

/-- Witness for C8's hypothesis-bearing parts at concrete inputs: the empty
walk over two remaining segments, and a concrete missing-segment step (the
walk from the root of `c8miss`, whose `"a"` read yields `undefined`). -/
theorem c8_detached_reresolution_witness :
    (step 3 (mkEng []) (.dwalk .empty ["p", "q"]) = .ok (mkEng []) .undef) ∧
    (step 31 c8miss (.dwalk (.proxy 0) ["a", "b"]) =
      (if ["b"] = ([] : List String)
       then .ok (updObj c8missStep 0 (fun oo => { oo with skip := false })) .undef
       else step 30 (updObj c8missStep 0 (fun oo => { oo with skip := false }))
         (.dwalk .empty ["b"]))) :=
  ⟨c8_detached_reresolution.1 ["q"] "p" 3 (mkEng []) (by decide),
   c8_detached_reresolution.2.1 30 c8miss c8missStep 0 "a" ["b"] (by rfl)⟩

/-! ## Effect bookkeeping for the interpreter -/

def unwOf (e : Eng) (id : Nat) : Option Bool :=
  (alookup e.watchers id).map W.unwatched

def wrunsOf (e : Eng) (id : Nat) : Option Nat :=
  (alookup e.watchers id).map W.runs

/-- Well-formed id allocation: every registered watcher id is below the
counter (true of every reachable state; `watch` allocates `nextId`). -/
def WFids (e : Eng) : Prop :=
  ∀ id, (alookup e.watchers id).isSome = true → id < e.nextId

theorem alookup_updW (e : Eng) (id : Nat) (f : W → W) (id' : Nat) :
    alookup (updW e id f).watchers id' =
      if id' = id then (alookup e.watchers id).map f else alookup e.watchers id' := by
  unfold updW
  match h : alookup e.watchers id with
  | Option.none =>
    by_cases hx : id' = id <;> simp [hx, h]
  | some w =>
    by_cases hx : id' = id
    · subst hx
      simp [h, alookup_aset_self]
    · simp [hx, alookup_aset_ne e.watchers id id' (f w) (fun hh => hx hh.symm)]

theorem objAt_updObj (e : Eng) (a : Nat) (f : HObj → HObj) (a' : Nat) :
    objAt (updObj e a f) a' =
      if a' = a then (objAt e a).map f else objAt e a' := by
  unfold updObj objAt
  match h : alookup e.heap a with
  | Option.none =>
    by_cases hx : a' = a <;> simp [hx, h]
  | some o =>
    by_cases hx : a' = a
    · subst hx
      simp [h, alookup_aset_self]
    · simp [hx, alookup_aset_ne e.heap a a' (f o) (fun hh => hx hh.symm)]

theorem updW_watchers_keep (e : Eng) (id : Nat) (f : W → W) :
    (updW e id f).nextId = e.nextId ∧ (updW e id f).pathSubs = e.pathSubs ∧
    (updW e id f).heap = e.heap ∧ (updW e id f).flushFront = e.flushFront ∧
    (updW e id f).flushRest = e.flushRest ∧ (updW e id f).scheduled = e.scheduled ∧
    (updW e id f).active = e.active ∧ (updW e id f).trace = e.trace := by
  unfold updW
  match alookup e.watchers id with
  | Option.none => exact ⟨rfl, rfl, rfl, rfl, rfl, rfl, rfl, rfl⟩
  | some w => exact ⟨rfl, rfl, rfl, rfl, rfl, rfl, rfl, rfl⟩

theorem updObj_watchers (e : Eng) (a : Nat) (f : HObj → HObj) :
    (updObj e a f).watchers = e.watchers ∧ (updObj e a f).nextId = e.nextId ∧
    (updObj e a f).pathSubs = e.pathSubs ∧ (updObj e a f).flushFront = e.flushFront ∧
    (updObj e a f).flushRest = e.flushRest ∧ (updObj e a f).scheduled = e.scheduled ∧
    (updObj e a f).active = e.active ∧ (updObj e a f).trace = e.trace := by
  unfold updObj
  match alookup e.heap a with
  | Option.none => exact ⟨rfl, rfl, rfl, rfl, rfl, rfl, rfl, rfl⟩
  | some o => exact ⟨rfl, rfl, rfl, rfl, rfl, rfl, rfl, rfl⟩

theorem enqueue_keep (e : Eng) (id : Nat) :
    (enqueue e id).watchers = e.watchers ∧ (enqueue e id).nextId = e.nextId ∧
    (enqueue e id).pathSubs = e.pathSubs ∧ (enqueue e id).heap = e.heap ∧
    (enqueue e id).active = e.active ∧ (enqueue e id).trace = e.trace := by
  unfold enqueue
  dsimp only
  split <;> exact ⟨rfl, rfl, rfl, rfl, rfl, rfl⟩

theorem foldl_enqueue_keep (ids : List Nat) (e : Eng) :
    ((ids.foldl enqueue e).watchers = e.watchers ∧
     (ids.foldl enqueue e).nextId = e.nextId ∧
     (ids.foldl enqueue e).pathSubs = e.pathSubs ∧
     (ids.foldl enqueue e).heap = e.heap ∧
     (ids.foldl enqueue e).active = e.active ∧
     (ids.foldl enqueue e).trace = e.trace) := by
  induction ids generalizing e with
  | nil => exact ⟨rfl, rfl, rfl, rfl, rfl, rfl⟩
  | cons hd t ih =>
    simp only [List.foldl_cons]
    obtain ⟨h1, h2, h3, h4, h5, h6⟩ := ih (enqueue e hd)
    have hk := enqueue_keep e hd
    exact ⟨h1.trans hk.1, h2.trans hk.2.1, h3.trans hk.2.2.1, h4.trans hk.2.2.2.1,
           h5.trans hk.2.2.2.2.1, h6.trans hk.2.2.2.2.2⟩

theorem callWatchers_keep (n : Nat) (e : Eng) (a : Nat) (prop : String) (e' : Eng)
    (h : callWatchers n e a prop = some e') :
    e'.watchers = e.watchers ∧ e'.nextId = e.nextId ∧ e'.pathSubs = e.pathSubs ∧
    e'.heap = e.heap ∧ e'.active = e.active ∧ e'.trace = e.trace := by
  unfold callWatchers at h
  match hp : getPath n e a prop with
  | Option.none => rw [hp] at h; cases h
  | some path =>
    simp only [hp] at h
    match hs : alookup e.pathSubs path with
    | Option.none =>
      simp only [hs] at h
      cases h
      exact ⟨rfl, rfl, rfl, rfl, rfl, rfl⟩
    | some ids =>
      simp only [hs] at h
      cases h
      exact foldl_enqueue_keep ids e

theorem watchfacts_updW (e : Eng) (wid : Nat) (f : W → W)
    (hu : ∀ w, (f w).unwatched = w.unwatched) (hr : ∀ w, (f w).runs = w.runs) (id : Nat) :
    (alookup (updW e wid f).watchers id).isSome = (alookup e.watchers id).isSome ∧
    unwOf (updW e wid f) id = unwOf e id ∧ wrunsOf (updW e wid f) id = wrunsOf e id := by
  rw [unwOf, wrunsOf, unwOf, wrunsOf, alookup_updW]
  by_cases hx : id = wid
  · subst hx
    match alookup e.watchers id with
    | Option.none => simp
    | some w => simp [hu w, hr w]
  · simp [hx]

theorem registerSub_keep (e : Eng) (wid : Nat) (path : String) :
    (registerSub e wid path).nextId = e.nextId ∧
    (registerSub e wid path).heap = e.heap ∧
    (registerSub e wid path).flushFront = e.flushFront ∧
    (registerSub e wid path).flushRest = e.flushRest ∧
    (registerSub e wid path).scheduled = e.scheduled ∧
    (registerSub e wid path).active = e.active := by
  unfold registerSub
  dsimp only
  have h := updW_watchers_keep { e with pathSubs := aset e.pathSubs path (addOnce (subsOf e path) wid) } wid
    (fun w => { w with pathsSubs := addOnce w.pathsSubs path })
  refine ⟨h.1, ?_, ?_, ?_, ?_, ?_⟩ <;> simp [h.2.2.1, h.2.2.2.1, h.2.2.2.2.1, h.2.2.2.2.2.1, h.2.2.2.2.2.2.1]

theorem registerSub_watchers (e : Eng) (wid : Nat) (path : String) (id : Nat) :
    (alookup (registerSub e wid path).watchers id).isSome =
      (alookup e.watchers id).isSome ∧
    unwOf (registerSub e wid path) id = unwOf e id ∧
    wrunsOf (registerSub e wid path) id = wrunsOf e id := by
  unfold registerSub
  dsimp only
  exact watchfacts_updW
    { e with pathSubs := aset e.pathSubs path (addOnce (subsOf e path) wid) } wid
    (fun w => { w with pathsSubs := addOnce w.pathsSubs path })
    (fun w => rfl) (fun w => rfl) id

theorem runsOf_eq_getD (e : Eng) (id : Nat) : runsOf e id = (wrunsOf e id).getD 0 := rfl

theorem runsOf_zero_of_ge (e : Eng) (h : WFids e) (id : Nat) (hid : e.nextId ≤ id) :
    runsOf e id = 0 := by
  unfold runsOf
  match hl : alookup e.watchers id with
  | Option.none => rfl
  | some w =>
    have := h id (by rw [hl]; rfl)
    omega

/-- The state-evolution facts common to every interpreter call that returns
`ok`: the id counter grows, well-formed allocation is preserved, existing
watcher entries keep their presence and their unwatched flag, and any watcher
allocated during the call has run at most once. -/
def Base (e e' : Eng) : Prop :=
  e.nextId ≤ e'.nextId ∧ WFids e' ∧
  (∀ id, id < e.nextId →
    (alookup e'.watchers id).isSome = (alookup e.watchers id).isSome ∧
    unwOf e' id = unwOf e id) ∧
  (∀ id, e.nextId ≤ id → runsOf e' id ≤ 1)

/-- A call that re-runs no pre-existing watcher: run counters of all
previously allocated ids are untouched. -/
def PureStep (e e' : Eng) : Prop :=
  Base e e' ∧ ∀ id, id < e.nextId → wrunsOf e' id = wrunsOf e id

/-- A `watcher.run` call on `rid`: every other pre-existing watcher keeps its
run counter, and `rid`'s counter increases by exactly one. -/
def RunStep (rid : Nat) (e e' : Eng) : Prop :=
  Base e e' ∧
  (∀ id, id < e.nextId → id ≠ rid → wrunsOf e' id = wrunsOf e id) ∧
  (∀ w, alookup e.watchers rid = some w → runsOf e' rid = w.runs + 1)

theorem PureStep.refl (e : Eng) (h : WFids e) : PureStep e e := by
  refine ⟨⟨le_refl _, h, fun id _ => ⟨rfl, rfl⟩, fun id hid => ?_⟩, fun id _ => rfl⟩
  rw [runsOf_zero_of_ge e h id hid]
  omega

theorem PureStep.trans {e e1 e2 : Eng} (h1 : PureStep e e1) (h2 : PureStep e1 e2) :
    PureStep e e2 := by
  obtain ⟨⟨hn1, hw1, hp1, hf1⟩, hr1⟩ := h1
  obtain ⟨⟨hn2, hw2, hp2, hf2⟩, hr2⟩ := h2
  refine ⟨⟨hn1.trans hn2, hw2, fun id hid => ?_, fun id hid => ?_⟩, fun id hid => ?_⟩
  · obtain ⟨ha, hb⟩ := hp1 id hid
    obtain ⟨hc, hd⟩ := hp2 id (lt_of_lt_of_le hid hn1)
    exact ⟨hc.trans ha, hd.trans hb⟩
  · by_cases hlt : id < e1.nextId
    · have hle := hf1 id hid
      have heq := hr2 id hlt
      rw [runsOf_eq_getD, heq, ← runsOf_eq_getD]
      exact hle
    · exact hf2 id (le_of_not_lt hlt)
  · exact (hr2 id (lt_of_lt_of_le hid hn1)).trans (hr1 id hid)

theorem PureStep.trans_run {rid : Nat} {e e1 e2 : Eng}
    (h1 : PureStep e e1) (h2 : RunStep rid e1 e2) (hrid : rid < e.nextId) :
    RunStep rid e e2 := by
  obtain ⟨⟨hn1, hw1, hp1, hf1⟩, hr1⟩ := h1
  obtain ⟨⟨hn2, hw2, hp2, hf2⟩, hro2, hrr2⟩ := h2
  refine ⟨⟨hn1.trans hn2, hw2, fun id hid => ?_, fun id hid => ?_⟩,
          fun id hid hne => ?_, fun w hw => ?_⟩
  · obtain ⟨ha, hb⟩ := hp1 id hid
    obtain ⟨hc, hd⟩ := hp2 id (lt_of_lt_of_le hid hn1)
    exact ⟨hc.trans ha, hd.trans hb⟩
  · by_cases hlt : id < e1.nextId
    · have hle := hf1 id hid
      have hne : id ≠ rid := by omega
      have heq := hro2 id hlt hne
      rw [runsOf_eq_getD, heq, ← runsOf_eq_getD]
      exact hle
    · exact hf2 id (le_of_not_lt hlt)
  · exact (hro2 id (lt_of_lt_of_le hid hn1) hne).trans (hr1 id hid)
  · have hruns : wrunsOf e1 rid = some w.runs := by
      rw [hr1 rid hrid]
      unfold wrunsOf
      rw [hw]
      rfl
    unfold wrunsOf at hruns
    match hl : alookup e1.watchers rid with
    | Option.none => rw [hl] at hruns; cases hruns
    | some w1 =>
      rw [hl] at hruns
      have hw1 : w1.runs = w.runs := by
        simpa using hruns
      rw [hrr2 w1 hl, hw1]

theorem RunStep.trans_pure {rid : Nat} {e e1 e2 : Eng}
    (h1 : RunStep rid e e1) (h2 : PureStep e1 e2) (hrid : rid < e.nextId) :
    RunStep rid e e2 := by
  obtain ⟨⟨hn1, hw1, hp1, hf1⟩, hro1, hrr1⟩ := h1
  obtain ⟨⟨hn2, hw2, hp2, hf2⟩, hr2⟩ := h2
  refine ⟨⟨hn1.trans hn2, hw2, fun id hid => ?_, fun id hid => ?_⟩,
          fun id hid hne => ?_, fun w hw => ?_⟩
  · obtain ⟨ha, hb⟩ := hp1 id hid
    obtain ⟨hc, hd⟩ := hp2 id (lt_of_lt_of_le hid hn1)
    exact ⟨hc.trans ha, hd.trans hb⟩
  · by_cases hlt : id < e1.nextId
    · have hle := hf1 id hid
      have heq := hr2 id hlt
      rw [runsOf_eq_getD, heq, ← runsOf_eq_getD]
      exact hle
    · exact hf2 id (le_of_not_lt hlt)
  · exact (hr2 id (lt_of_lt_of_le hid hn1)).trans (hro1 id hid hne)
  · have h1r := hrr1 w hw
    have h2r := hr2 rid (lt_of_lt_of_le hrid hn1)
    rw [runsOf_eq_getD, h2r, ← runsOf_eq_getD, h1r]

/-- A step that leaves the watcher registry and the id counter untouched is
pure. -/
theorem pureStep_of_same {e e' : Eng} (hwf : WFids e)
    (h1 : e'.watchers = e.watchers) (h2 : e'.nextId = e.nextId) : PureStep e e' := by
  refine ⟨⟨le_of_eq h2.symm, ?_, fun id hid => ?_, fun id hid => ?_⟩, fun id hid => ?_⟩
  · intro id hs
    rw [h1] at hs
    rw [h2]
    exact hwf id hs
  · rw [unwOf, unwOf, h1]
    exact ⟨rfl, rfl⟩
  · rw [runsOf, h1]
    have := runsOf_zero_of_ge e hwf id hid
    rw [runsOf] at this
    omega
  · rw [wrunsOf, wrunsOf, h1]

/-- `updW` with a field update preserving the unwatched flag and the run
counter is pure. -/
theorem pureStep_of_updW (e : Eng) (wid : Nat) (f : W → W) (hwf : WFids e)
    (hu : ∀ w, (f w).unwatched = w.unwatched) (hr : ∀ w, (f w).runs = w.runs) :
    PureStep e (updW e wid f) := by
  have hk := updW_watchers_keep e wid f
  refine ⟨⟨le_of_eq hk.1.symm, ?_, fun id hid => ?_, fun id hid => ?_⟩, fun id hid => ?_⟩
  · intro id hs
    have hfacts := watchfacts_updW e wid f hu hr id
    rw [hfacts.1] at hs
    rw [hk.1]
    exact hwf id hs
  · have hfacts := watchfacts_updW e wid f hu hr id
    exact ⟨hfacts.1, hfacts.2.1⟩
  · have hfacts := watchfacts_updW e wid f hu hr id
    rw [runsOf_eq_getD, hfacts.2.2, ← runsOf_eq_getD]
    have := runsOf_zero_of_ge e hwf id hid
    omega
  · exact (watchfacts_updW e wid f hu hr id).2.2

/-- The master conclusion of the interpreter effect lemma, per call kind. -/
def MBConc : Call → Eng → Eng → Prop
  | .runw rid => RunStep rid
  | _ => PureStep

theorem pureStep_of_registerSub (e : Eng) (wid : Nat) (path : String) (hwf : WFids e) :
    PureStep e (registerSub e wid path) := by
  have hk := registerSub_keep e wid path
  refine ⟨⟨le_of_eq hk.1.symm, ?_, fun id hid => ?_, fun id hid => ?_⟩, fun id hid => ?_⟩
  · intro id hs
    have hfacts := registerSub_watchers e wid path id
    rw [hfacts.1] at hs
    rw [hk.1]
    exact hwf id hs
  · have hfacts := registerSub_watchers e wid path id
    exact ⟨hfacts.1, hfacts.2.1⟩
  · have hfacts := registerSub_watchers e wid path id
    rw [runsOf_eq_getD, hfacts.2.2, ← runsOf_eq_getD]
    have := runsOf_zero_of_ge e hwf id hid
    omega
  · exact (registerSub_watchers e wid path id).2.2

theorem runStep_of_updW_runs (e : Eng) (rid : Nat) (hwf : WFids e) :
    RunStep rid e (updW e rid (fun ww => { ww with runs := ww.runs + 1 })) := by
  have hk := updW_watchers_keep e rid (fun ww => { ww with runs := ww.runs + 1 })
  have hlook := alookup_updW e rid (fun ww => { ww with runs := ww.runs + 1 })
  refine ⟨⟨le_of_eq hk.1.symm, ?_, fun id hid => ?_, fun id hid => ?_⟩,
          fun id hid hne => ?_, fun w hw => ?_⟩
  · intro id hs
    rw [hk.1]
    apply hwf id
    rw [hlook id] at hs
    by_cases hx : id = rid
    · subst hx
      rw [if_pos rfl] at hs
      simpa using hs
    · rwa [if_neg hx] at hs
  · rw [unwOf, unwOf, hlook id]
    by_cases hx : id = rid
    · subst hx
      rw [if_pos rfl]
      match alookup e.watchers id with
      | Option.none => exact ⟨rfl, rfl⟩
      | some w => exact ⟨rfl, rfl⟩
    · rw [if_neg hx]
      exact ⟨rfl, rfl⟩
  · rw [runsOf, hlook id]
    by_cases hx : id = rid
    · subst hx
      match hl : alookup e.watchers id with
      | Option.none => simp
      | some w =>
        have := hwf id (by rw [hl]; rfl)
        omega
    · rw [if_neg hx]
      have := runsOf_zero_of_ge e hwf id hid
      rw [runsOf] at this
      omega
  · rw [wrunsOf, wrunsOf, hlook id, if_neg hne]
  · rw [runsOf, hlook rid, if_pos rfl, hw]
    rfl

theorem WFids_mkWatch (e : Eng) (w : W) (hwf : WFids e) :
    WFids { e with nextId := e.nextId + 1, watchers := aset e.watchers e.nextId w } := by
  intro id hs
  simp only at hs ⊢
  by_cases hx : id = e.nextId
  · omega
  · rw [alookup_aset_ne e.watchers e.nextId id w (fun hh => hx hh.symm)] at hs
    have := hwf id hs
    omega

theorem pureStep_updObjOnly (e : Eng) (a : Nat) (f : HObj → HObj) (hwf : WFids e) :
    PureStep e (updObj e a f) :=
  pureStep_of_same hwf (updObj_watchers _ _ _).1 (updObj_watchers _ _ _).2.1

theorem pureStep_detachMark (e : Eng) (x : JVal) (hwf : WFids e) :
    PureStep e (detachMark e x) := by
  unfold detachMark
  repeat' split
  all_goals first
    | exact pureStep_updObjOnly _ _ _ hwf
    | exact PureStep.refl e hwf

theorem pureStep_idxRefresh (e : Eng) (b : Bool) (prop : String) (x : JVal) (hwf : WFids e) :
    PureStep e (idxRefresh e b prop x) := by
  unfold idxRefresh
  repeat' split
  all_goals first
    | exact pureStep_updObjOnly _ _ _ hwf
    | exact PureStep.refl e hwf

theorem pureStep_wrapChild (e : Eng) (a : Nat) (prop : String) (x : JVal) (hwf : WFids e) :
    PureStep e (wrapChild e a prop x) := by
  unfold wrapChild
  repeat' split
  all_goals first
    | exact pureStep_updObjOnly _ _ _ hwf
    | exact PureStep.refl e hwf

theorem pureStep_finishRead (n : Nat) (e2 : Eng) (a : Nat) (prop : String) (tv : JVal)
    (propVal : JVal) (e' : Eng) (v : JVal) (hwf : WFids e2)
    (h : finishRead n e2 a prop tv propVal = .ok e' v) : PureStep e2 e' := by
  unfold finishRead at h
  dsimp only at h
  have pw : PureStep e2 (wrapChild e2 a prop propVal) := pureStep_wrapChild e2 a prop propVal hwf
  match hact : (wrapChild e2 a prop propVal).active with
  | Option.none =>
    rw [hact] at h
    dsimp only at h
    cases h
    exact pw
  | some wid =>
    rw [hact] at h
    dsimp only at h
    match htv : toTgt tv with
    | .empty =>
      rw [htv] at h
      dsimp only at h
      cases h
      exact pw.trans (pureStep_of_registerSub _ wid prop pw.1.2.1)
    | .obj a2 =>
      rw [htv] at h
      dsimp only at h
      match hp : getPath n (wrapChild e2 a prop propVal) a2 prop with
      | some path =>
        rw [hp] at h
        dsimp only at h
        cases h
        exact pw.trans (pureStep_of_registerSub _ wid path pw.1.2.1)
      | Option.none =>
        rw [hp] at h
        simp at h

/-- The common tail of the `runw` case of the master effect lemma: from the
state after parent registration (`eA`, reached purely from `e`), the
dependency reset, the tracked-callback execution and the untracked phase
together form a `RunStep` on `rid`. -/
theorem stepMB_runwCore (n : Nat)
    (ih : ∀ e c e' v, WFids e → step n e c = .ok e' v → MBConc c e e')
    (e : Eng) (rid : Nat) (w : W) (hwf : WFids e) (hrid : rid < e.nextId)
    (eA : Eng) (pPre : PureStep e eA) (old : Option Nat) (e' : Eng) (v : JVal)
    (hstep : (match step n (updW { { eA with
          pathSubs := w.pathsSubs.foldl (fun ps p => eraseSub ps p rid) eA.pathSubs }
          with active := some rid } rid (fun ww => { ww with runs := ww.runs + 1 }))
        (.exec w.tracked) with
      | .err => Res.err
      | .fuel => Res.fuel
      | .ok e5 result =>
        (match (match w.untracked with
          | UFn.none => Res.ok e5 JVal.undef
          | UFn.user f => step n { e5 with active := Option.none } (.exec (f result))
          | UFn.cache ca cprop =>
            match objAt { e5 with active := Option.none } ca with
            | Option.none => Res.err
            | some co =>
              match alookup co.fields ("@@" ++ cprop) with
              | Option.none =>
                Res.ok (updObj { e5 with active := Option.none } ca
                  (fun oo => { oo with
                    fields := aset oo.fields ("@@" ++ cprop) result })) JVal.undef
              | some x =>
                step n { e5 with active := Option.none }
                  (.pset ca ("@@" ++ cprop) result)) with
         | .ok e8 x => Res.ok { e8 with active := old } JVal.undef
         | .err => Res.err
         | .fuel => Res.fuel)) = .ok e' v) :
    RunStep rid e e' := by
  have pB : PureStep e { { eA with
      pathSubs := w.pathsSubs.foldl (fun ps p => eraseSub ps p rid) eA.pathSubs }
      with active := some rid } :=
    pPre.trans (pureStep_of_same pPre.1.2.1 rfl rfl)
  have r1 : RunStep rid e (updW { { eA with
      pathSubs := w.pathsSubs.foldl (fun ps p => eraseSub ps p rid) eA.pathSubs }
      with active := some rid } rid (fun ww => { ww with runs := ww.runs + 1 })) :=
    pB.trans_run (runStep_of_updW_runs _ rid pB.1.2.1) hrid
  match h1 : step n (updW { { eA with
      pathSubs := w.pathsSubs.foldl (fun ps p => eraseSub ps p rid) eA.pathSubs }
      with active := some rid } rid (fun ww => { ww with runs := ww.runs + 1 }))
      (.exec w.tracked) with
  | .err => rw [h1] at hstep; simp at hstep
  | .fuel => rw [h1] at hstep; simp at hstep
  | .ok e5 result =>
    rw [h1] at hstep
    dsimp only at hstep
    have p5 : PureStep _ e5 := ih _ (.exec w.tracked) e5 result r1.1.2.1 h1
    have r2 : RunStep rid e e5 := r1.trans_pure p5 hrid
    match hu : w.untracked with
    | UFn.none =>
      rw [hu] at hstep
      dsimp only at hstep
      cases hstep
      exact r2.trans_pure (pureStep_of_same r2.1.2.1 rfl rfl) hrid
    | UFn.user f =>
      rw [hu] at hstep
      dsimp only at hstep
      match h2 : step n { e5 with active := Option.none } (.exec (f result)) with
      | .err => rw [h2] at hstep; simp at hstep
      | .fuel => rw [h2] at hstep; simp at hstep
      | .ok e7 x =>
        rw [h2] at hstep
        dsimp only at hstep
        cases hstep
        have pc : PureStep e5 { e5 with active := Option.none } :=
          pureStep_of_same r2.1.2.1 rfl rfl
        have p7 : PureStep _ e7 := ih _ (.exec (f result)) e7 x pc.1.2.1 h2
        have r3 : RunStep rid e e7 := r2.trans_pure (pc.trans p7) hrid
        exact r3.trans_pure (pureStep_of_same r3.1.2.1 rfl rfl) hrid
    | UFn.cache ca cprop =>
      rw [hu] at hstep
      dsimp only at hstep
      match hco : objAt { e5 with active := Option.none } ca with
      | Option.none => rw [hco] at hstep; simp at hstep
      | some co =>
        rw [hco] at hstep
        dsimp only at hstep
        match hfs : alookup co.fields ("@@" ++ cprop) with
        | Option.none =>
          rw [hfs] at hstep
          dsimp only at hstep
          cases hstep
          have pc : PureStep e5 { e5 with active := Option.none } :=
            pureStep_of_same r2.1.2.1 rfl rfl
          have pu : PureStep _ (updObj { e5 with active := Option.none } ca
              (fun oo => { oo with fields := aset oo.fields ("@@" ++ cprop) result })) :=
            pureStep_updObjOnly _ _ _ pc.1.2.1
          have r3 : RunStep rid e _ := r2.trans_pure (pc.trans pu) hrid
          exact r3.trans_pure (pureStep_of_same r3.1.2.1 rfl rfl) hrid
        | some x =>
          rw [hfs] at hstep
          dsimp only at hstep
          match h2 : step n { e5 with active := Option.none }
              (.pset ca ("@@" ++ cprop) result) with
          | .err => rw [h2] at hstep; simp at hstep
          | .fuel => rw [h2] at hstep; simp at hstep
          | .ok e8 x2 =>
            rw [h2] at hstep
            dsimp only at hstep
            cases hstep
            have pc : PureStep e5 { e5 with active := Option.none } :=
              pureStep_of_same r2.1.2.1 rfl rfl
            have p8 : PureStep _ e8 :=
              ih _ (.pset ca ("@@" ++ cprop) result) e8 x2 pc.1.2.1 h2
            have r3 : RunStep rid e e8 := r2.trans_pure (pc.trans p8) hrid
            exact r3.trans_pure (pureStep_of_same r3.1.2.1 rfl rfl) hrid

/-- The `mkWatch` case of the master effect lemma: allocating a fresh watcher
(run counter 0) and running it once is pure with respect to all previously
existing watchers, and the fresh watcher ends with exactly one run. -/
theorem stepMB_mkWatchCore (n : Nat)
    (ih : ∀ e c e' v, WFids e → step n e c = .ok e' v → MBConc c e e')
    (e E1 : Eng) (wNew : W) (hwf : WFids e)
    (hE1n : E1.nextId = e.nextId + 1)
    (hE1w : E1.watchers = aset e.watchers e.nextId wNew)
    (hWnew : wNew.runs = 0)
    (e2 : Eng) (v2 : JVal)
    (hrun : step n E1 (.runw e.nextId) = .ok e2 v2) :
    PureStep e e2 := by
  have hwf1 : WFids E1 := by
    intro id hs
    rw [hE1w] at hs
    rw [hE1n]
    by_cases hx : id = e.nextId
    · omega
    · rw [alookup_aset_ne e.watchers e.nextId id wNew (fun hh => hx hh.symm)] at hs
      have := hwf id hs
      omega
  have hr : RunStep e.nextId E1 e2 := ih E1 (.runw e.nextId) e2 v2 hwf1 hrun
  obtain ⟨⟨hn2, hw2, hp2, hf2⟩, hro2, hrr2⟩ := hr
  have hlookE1 : ∀ id, id ≠ e.nextId →
      alookup E1.watchers id = alookup e.watchers id := by
    intro id hne
    rw [hE1w]
    exact alookup_aset_ne e.watchers e.nextId id wNew (fun hh => hne hh.symm)
  refine ⟨⟨?_, hw2, fun id hid => ?_, fun id hid => ?_⟩, fun id hid => ?_⟩
  · omega
  · have hne : id ≠ e.nextId := by omega
    obtain ⟨hc, hd⟩ := hp2 id (by omega)
    refine ⟨?_, ?_⟩
    · rw [hc, hlookE1 id hne]
    · rw [unwOf] at hd ⊢
      rw [hd, unwOf, hlookE1 id hne]
      rfl
  · by_cases hx : id = e.nextId
    · subst hx
      have hlook : alookup E1.watchers e.nextId = some wNew := by
        rw [hE1w]
        exact alookup_aset_self e.watchers e.nextId wNew
      rw [hrr2 wNew hlook, hWnew]
    · have := hf2 id (by omega)
      exact this
  · have hne : id ≠ e.nextId := by omega
    have hd := hro2 id (by omega) hne
    rw [wrunsOf] at hd ⊢
    rw [hd, wrunsOf, hlookE1 id hne]
    rfl

/-- The master effect lemma of the interpreter: every successful call grows
the id counter, preserves well-formed allocation, preserves the presence, the
unwatched flag and (except for the `runw` target, which gains exactly one
run) the run counter of every pre-existing watcher, and runs every watcher it
allocates at most once. -/
theorem stepMB : ∀ (n : Nat) (e : Eng) (c : Call) (e' : Eng) (v : JVal),
    WFids e → step n e c = .ok e' v → MBConc c e e' := by
  intro n
  induction n with
  | zero =>
    intro e c e' v hwf hstep
    simp [step] at hstep
  | succ n ih =>
    intro e c e' v hwf hstep
    match c with
    | .rget a prop =>
      show PureStep e e'
      simp only [step] at hstep
      match ho : objAt e a with
      | Option.none =>
        rw [ho] at hstep
        simp at hstep
      | some o =>
        rw [ho] at hstep
        dsimp only at hstep
        match hf : alookup o.fields prop with
        | some w =>
          rw [hf] at hstep
          dsimp only at hstep
          cases hstep
          exact PureStep.refl e hwf
        | Option.none =>
          rw [hf] at hstep
          dsimp only at hstep
          match hg : alookup (descriptorsOf o) prop with
          | some g =>
            rw [hg] at hstep
            dsimp only at hstep
            exact ih e (.exec g) e' v hwf hstep
          | Option.none =>
            rw [hg] at hstep
            dsimp only at hstep
            cases hstep
            exact PureStep.refl e hwf
    | .exec p =>
      show PureStep e e'
      simp only [step] at hstep
      cases p with
      | ret w =>
        cases hstep
        exact PureStep.refl e hwf
      | get a prop k =>
        dsimp only at hstep
        match h1 : step n e (.pget a prop) with
        | .ok e1 v1 =>
          rw [h1] at hstep
          dsimp only at hstep
          have p1 : PureStep e e1 := ih e (.pget a prop) e1 v1 hwf h1
          have p2 : PureStep e1 e' := ih e1 (.exec (k v1)) e' v p1.1.2.1 hstep
          exact p1.trans p2
        | .err => rw [h1] at hstep; simp at hstep
        | .fuel => rw [h1] at hstep; simp at hstep
      | set a prop vv k =>
        dsimp only at hstep
        match h1 : step n e (.pset a prop vv) with
        | .ok e1 v1 =>
          rw [h1] at hstep
          dsimp only at hstep
          have p1 : PureStep e e1 := ih e (.pset a prop vv) e1 v1 hwf h1
          have p2 : PureStep e1 e' := ih e1 (.exec k) e' v p1.1.2.1 hstep
          exact p1.trans p2
        | .err => rw [h1] at hstep; simp at hstep
        | .fuel => rw [h1] at hstep; simp at hstep
      | watchNew body k =>
        dsimp only at hstep
        match h1 : step n e (.mkWatch body UFn.none) with
        | .ok e1 v1 =>
          rw [h1] at hstep
          dsimp only at hstep
          have p1 : PureStep e e1 := ih e (.mkWatch body UFn.none) e1 v1 hwf h1
          have p2 : PureStep e1 e' := ih e1 (.exec k) e' v p1.1.2.1 hstep
          exact p1.trans p2
        | .err => rw [h1] at hstep; simp at hstep
        | .fuel => rw [h1] at hstep; simp at hstep
    | .dwalk cur props =>
      show PureStep e e'
      simp only [step] at hstep
      cases props with
      | nil =>
        cases hstep
        exact PureStep.refl e hwf
      | cons p rest =>
        cases cur with
        | prim m => simp at hstep
        | empty =>
          dsimp only at hstep
          by_cases hr : rest = []
          · rw [if_pos hr] at hstep
            cases hstep
            exact PureStep.refl e hwf
          · rw [if_neg hr] at hstep
            exact ih e (.dwalk .empty rest) e' v hwf hstep
        | proxy a =>
          dsimp only at hstep
          have pskip : PureStep e (updObj e a (fun oo => { oo with skip := true })) :=
            pureStep_updObjOnly _ _ _ hwf
          match h1 : step n (updObj e a (fun oo => { oo with skip := true })) (.pget a p) with
          | .ok e1 item =>
            rw [h1] at hstep
            dsimp only at hstep
            have p1 : PureStep _ e1 := ih _ (.pget a p) e1 item pskip.1.2.1 h1
            have p01 : PureStep e e1 := pskip.trans p1
            have p02 : PureStep e (updObj e1 a (fun oo => { oo with skip := false })) :=
              p01.trans (pureStep_updObjOnly _ _ _ p01.1.2.1)
            by_cases hr : rest = []
            · rw [if_pos hr] at hstep
              cases item with
              | ref c => cases hstep; exact p02
              | num m => cases hstep; exact p02
              | undef => cases hstep; exact p02
            · rw [if_neg hr] at hstep
              cases item with
              | ref c =>
                exact p02.trans (ih _ (.dwalk (.proxy c) rest) e' v p02.1.2.1 hstep)
              | num m =>
                exact p02.trans (ih _ (.dwalk (.prim m) rest) e' v p02.1.2.1 hstep)
              | undef =>
                exact p02.trans (ih _ (.dwalk .empty rest) e' v p02.1.2.1 hstep)
          | .err => rw [h1] at hstep; simp at hstep
          | .fuel => rw [h1] at hstep; simp at hstep
    | .pset a prop vv =>
      show PureStep e e'
      simp only [step] at hstep
      match ho : objAt e a with
      | Option.none => rw [ho] at hstep; simp at hstep
      | some o =>
        rw [ho] at hstep
        dsimp only at hstep
        match h1 : step n e (.rget a prop) with
        | .err => rw [h1] at hstep; simp at hstep
        | .fuel => rw [h1] at hstep; simp at hstep
        | .ok e1 oldValue =>
          rw [h1] at hstep
          dsimp only at hstep
          have p1 : PureStep e e1 := ih e (.rget a prop) e1 oldValue hwf h1
          have p2 : PureStep e (detachMark e1 oldValue) :=
            p1.trans (pureStep_detachMark e1 oldValue p1.1.2.1)
          have p3 : PureStep e (idxRefresh (detachMark e1 oldValue) o.isArr prop vv) :=
            p2.trans (pureStep_idxRefresh _ _ _ _ p2.1.2.1)
          match hg : alookup (descriptorsOf o) prop with
          | some g => rw [hg] at hstep; simp at hstep
          | Option.none =>
            rw [hg] at hstep
            dsimp only at hstep
            have p4 : PureStep e (updObj (idxRefresh (detachMark e1 oldValue) o.isArr prop vv)
                a (fun oo => { oo with fields := aset oo.fields prop vv })) :=
              p3.trans (pureStep_updObjOnly _ _ _ p3.1.2.1)
            by_cases htr : (looseEq vv oldValue = false ∨ prop = "length")
            · rw [if_pos htr] at hstep
              split at hstep
              · rename_i e5 hcw
                cases hstep
                have hk := callWatchers_keep _ _ _ _ _ hcw
                exact p4.trans (pureStep_of_same p4.1.2.1 hk.1 hk.2.1)
              · simp at hstep
            · rw [if_neg htr] at hstep
              cases hstep
              exact p4
    | .pget a prop =>
      show PureStep e e'
      simp only [step] at hstep
      match ho : objAt e a with
      | Option.none => rw [ho] at hstep; simp at hstep
      | some o =>
        rw [ho] at hstep
        dsimp only at hstep
        by_cases hraw : prop = "__raw"
        · rw [if_pos hraw] at hstep
          cases hstep
          exact PureStep.refl e hwf
        · rw [if_neg hraw] at hstep
          match hg : alookup (descriptorsOf o) prop with
          | Option.none =>
            rw [hg] at hstep
            dsimp only at hstep
            exact ih e (.pgetRest a prop) e' v hwf hstep
          | some g =>
            rw [hg] at hstep
            dsimp only at hstep
            by_cases hpar : o.parent = Option.none
            · rw [if_pos hpar] at hstep
              match hact : e.active with
              | Option.none =>
                rw [hact] at hstep
                dsimp only at hstep
                exact ih e (.exec g) e' v hwf hstep
              | some aw =>
                rw [hact] at hstep
                dsimp only at hstep
                match hgw : alookup e.getterW (a, prop) with
                | some wid =>
                  rw [hgw] at hstep
                  dsimp only at hstep
                  exact ih e (.pgetRest a ("@@" ++ prop)) e' v hwf hstep
                | Option.none =>
                  rw [hgw] at hstep
                  dsimp only at hstep
                  match h1 : step n { e with active := Option.none }
                      (.mkWatch g (UFn.cache a prop)) with
                  | .err => rw [h1] at hstep; simp at hstep
                  | .fuel => rw [h1] at hstep; simp at hstep
                  | .ok e2 v2 =>
                    rw [h1] at hstep
                    dsimp only at hstep
                    have pa : PureStep e { e with active := Option.none } :=
                      pureStep_of_same hwf rfl rfl
                    have pb : PureStep _ e2 :=
                      ih _ (.mkWatch g (UFn.cache a prop)) e2 v2 pa.1.2.1 h1
                    have p2 : PureStep e e2 := pa.trans pb
                    have p3 : PureStep e (updW e2 e.nextId
                        (fun w => { w with onRemove := some (a, prop) })) :=
                      p2.trans (pureStep_of_updW e2 e.nextId _ p2.1.2.1
                        (fun w => rfl) (fun w => rfl))
                    have p4 : PureStep e { updW e2 e.nextId
                        (fun w => { w with onRemove := some (a, prop) }) with
                        getterW := aset (updW e2 e.nextId
                          (fun w => { w with onRemove := some (a, prop) })).getterW
                          (a, prop) e.nextId,
                        active := some aw } :=
                      p3.trans (pureStep_of_same p3.1.2.1 rfl rfl)
                    exact p4.trans (ih _ (.pgetRest a ("@@" ++ prop)) e' v p4.1.2.1 hstep)
            · rw [if_neg hpar] at hstep
              exact ih e (.pgetRest a prop) e' v hwf hstep
    | .pgetRest a prop =>
      show PureStep e e'
      simp only [step] at hstep
      match ho : objAt e a with
      | Option.none => rw [ho] at hstep; simp at hstep
      | some o =>
        rw [ho] at hstep
        dsimp only at hstep
        by_cases hcond : (o.skip = false ∧ o.parent.isSome = true)
        · rw [if_pos hcond] at hstep
          match hup : upWalk n e a with
          | Option.none => rw [hup] at hstep; simp at hstep
          | some (props, root, det) =>
            rw [hup] at hstep
            dsimp only at hstep
            by_cases hdet : det = true
            · rw [if_pos hdet] at hstep
              match h1 : step n e (.dwalk (.proxy root) props.reverse) with
              | .err => rw [h1] at hstep; simp at hstep
              | .fuel => rw [h1] at hstep; simp at hstep
              | .ok e1 tv =>
                rw [h1] at hstep
                dsimp only at hstep
                have pA : PureStep e e1 := ih e (.dwalk (.proxy root) props.reverse) e1 tv hwf h1
                match htv : toTgt tv with
                | .empty =>
                  rw [htv] at hstep
                  dsimp only at hstep
                  exact pA.trans (pureStep_finishRead n e1 a prop tv .undef e' v pA.1.2.1 hstep)
                | .obj a2 =>
                  rw [htv] at hstep
                  dsimp only at hstep
                  match h2 : step n e1 (.rget a2 prop) with
                  | .err => rw [h2] at hstep; simp at hstep
                  | .fuel => rw [h2] at hstep; simp at hstep
                  | .ok e2 propVal =>
                    rw [h2] at hstep
                    dsimp only at hstep
                    have pB : PureStep e e2 :=
                      pA.trans (ih e1 (.rget a2 prop) e2 propVal pA.1.2.1 h2)
                    exact pB.trans
                      (pureStep_finishRead n e2 a prop tv propVal e' v pB.1.2.1 hstep)
            · rw [if_neg hdet] at hstep
              simp only [toTgt] at hstep
              match h2 : step n e (.rget a prop) with
              | .err => rw [h2] at hstep; simp at hstep
              | .fuel => rw [h2] at hstep; simp at hstep
              | .ok e2 propVal =>
                rw [h2] at hstep
                dsimp only at hstep
                have pB : PureStep e e2 := ih e (.rget a prop) e2 propVal hwf h2
                exact pB.trans
                  (pureStep_finishRead n e2 a prop (.ref a) propVal e' v pB.1.2.1 hstep)
        · rw [if_neg hcond] at hstep
          simp only [toTgt] at hstep
          match h2 : step n e (.rget a prop) with
          | .err => rw [h2] at hstep; simp at hstep
          | .fuel => rw [h2] at hstep; simp at hstep
          | .ok e2 propVal =>
            rw [h2] at hstep
            dsimp only at hstep
            have pB : PureStep e e2 := ih e (.rget a prop) e2 propVal hwf h2
            exact pB.trans
              (pureStep_finishRead n e2 a prop (.ref a) propVal e' v pB.1.2.1 hstep)
    | .mkWatch tracked ufn =>
      show PureStep e e'
      simp only [step] at hstep
      split at hstep
      · rename_i ee vv hrun
        cases hstep
        exact stepMB_mkWatchCore n ih e _ _ hwf rfl rfl rfl _ _ hrun
      · simp at hstep
      · simp at hstep
    | .runw rid =>
      show RunStep rid e e'
      simp only [step] at hstep
      match hw : alookup e.watchers rid with
      | Option.none => rw [hw] at hstep; simp at hstep
      | some w =>
        rw [hw] at hstep
        dsimp only at hstep
        have hrid : rid < e.nextId := hwf rid (by rw [hw]; rfl)
        match hact : e.active with
        | some pid =>
          rw [hact] at hstep
          dsimp only at hstep
          exact stepMB_runwCore n ih e rid w hwf hrid
            (updW (updW e rid (fun ww => { ww with parent := some pid })) pid
              (fun pw => { pw with children := pw.children ++ [rid] }))
            ((pureStep_of_updW e rid (fun ww => { ww with parent := some pid }) hwf
                (fun x => rfl) (fun x => rfl)).trans
              (pureStep_of_updW (updW e rid (fun ww => { ww with parent := some pid })) pid
                (fun pw => { pw with children := pw.children ++ [rid] })
                (pureStep_of_updW e rid (fun ww => { ww with parent := some pid }) hwf
                  (fun x => rfl) (fun x => rfl)).1.2.1
                (fun x => rfl) (fun x => rfl)))
            (some pid) e' v hstep
        | Option.none =>
          rw [hact] at hstep
          dsimp only at hstep
          exact stepMB_runwCore n ih e rid w hwf hrid e (PureStep.refl e hwf)
            Option.none e' v hstep

/-! ## Read-only observer machinery (for the batching claims) -/

/-- Callback bodies that perform no proxied writes (they may read, branch on
what they read, and register nested watchers). -/
inductive ROProg : Prog → Prop
  | ret : ∀ v, ROProg (.ret v)
  | get : ∀ a p (k : JVal → Prog), (∀ v, ROProg (k v)) → ROProg (.get a p k)
  | watchNew : ∀ body k, ROProg body → ROProg k → ROProg (.watchNew body k)

/-- An engine whose store has no computed properties and whose watchers all
have read-only tracked callbacks and no untracked callback. -/
def ROEng (e : Eng) : Prop :=
  (∀ a o, objAt e a = some o → o.getters = []) ∧
  (∀ id w, alookup e.watchers id = some w → ROProg w.tracked ∧ w.untracked = UFn.none)

/-- Calls admissible in the read-only setting. -/
def ROCall : Call → Prop
  | .exec p => ROProg p
  | .pset _ _ _ => False
  | .mkWatch p u => ROProg p ∧ u = UFn.none
  | _ => True

/-- Conclusion of the read-only effect lemma: the flush queue and the
microtask schedule count are untouched and the engine stays read-only. -/
def QRO (e e' : Eng) : Prop :=
  e'.flushFront = e.flushFront ∧ e'.flushRest = e.flushRest ∧
  e'.scheduled = e.scheduled ∧ ROEng e'

theorem QRO.qrefl (e : Eng) (h : ROEng e) : QRO e e := ⟨rfl, rfl, rfl, h⟩

theorem QRO.qtrans {e e1 e2 : Eng} (h1 : QRO e e1) (h2 : QRO e1 e2) : QRO e e2 :=
  ⟨h2.1.trans h1.1, h2.2.1.trans h1.2.1, h2.2.2.1.trans h1.2.2.1, h2.2.2.2⟩

theorem descriptorsOf_nil (o : HObj) (h : o.getters = []) : descriptorsOf o = [] := by
  unfold descriptorsOf
  split <;> simp [h]

theorem qro_updObj (e : Eng) (a : Nat) (f : HObj → HObj) (hro : ROEng e)
    (hg : ∀ o, (f o).getters = o.getters) : QRO e (updObj e a f) := by
  have hk := updObj_watchers e a f
  refine ⟨hk.2.2.2.1, hk.2.2.2.2.1, hk.2.2.2.2.2.1, ?_, ?_⟩
  · intro a' o' ho'
    rw [objAt_updObj] at ho'
    by_cases hx : a' = a
    · rw [if_pos hx] at ho'
      match hoa : objAt e a with
      | Option.none => rw [hoa] at ho'; cases ho'
      | some o0 =>
        rw [hoa] at ho'
        cases ho'
        rw [hg o0]
        exact hro.1 a o0 hoa
    · rw [if_neg hx] at ho'
      exact hro.1 a' o' ho'
  · intro id w hw
    rw [hk.1] at hw
    exact hro.2 id w hw

theorem qro_updW (e : Eng) (wid : Nat) (f : W → W) (hro : ROEng e)
    (ht : ∀ w, (f w).tracked = w.tracked) (hu : ∀ w, (f w).untracked = w.untracked) :
    QRO e (updW e wid f) := by
  have hk := updW_watchers_keep e wid f
  refine ⟨hk.2.2.2.1, hk.2.2.2.2.1, hk.2.2.2.2.2.1, ?_, ?_⟩
  · intro a o ho
    unfold objAt at ho
    rw [hk.2.2.1] at ho
    exact hro.1 a o ho
  · intro id w hw
    rw [alookup_updW] at hw
    by_cases hx : id = wid
    · rw [if_pos hx] at hw
      match hl : alookup e.watchers wid with
      | Option.none => rw [hl] at hw; cases hw
      | some w0 =>
        rw [hl] at hw
        cases hw
        rw [ht w0, hu w0]
        exact hro.2 wid w0 hl
    · rw [if_neg hx] at hw
      exact hro.2 id w hw

theorem qro_same_record (e e' : Eng) (hro : ROEng e)
    (hh : e'.heap = e.heap) (hw : e'.watchers = e.watchers)
    (h1 : e'.flushFront = e.flushFront) (h2 : e'.flushRest = e.flushRest)
    (h3 : e'.scheduled = e.scheduled) : QRO e e' := by
  refine ⟨h1, h2, h3, ?_, ?_⟩
  · intro a o ho
    unfold objAt at ho
    rw [hh] at ho
    exact hro.1 a o ho
  · intro id w hwl
    rw [hw] at hwl
    exact hro.2 id w hwl

theorem qro_registerSub (e : Eng) (wid : Nat) (path : String) (hro : ROEng e) :
    QRO e (registerSub e wid path) := by
  have h1 : QRO e { e with pathSubs := aset e.pathSubs path (addOnce (subsOf e path) wid) } :=
    qro_same_record _ _ hro rfl rfl rfl rfl rfl
  have h2 := qro_updW { e with pathSubs := aset e.pathSubs path (addOnce (subsOf e path) wid) }
    wid (fun w => { w with pathsSubs := addOnce w.pathsSubs path }) h1.2.2.2
    (fun w => rfl) (fun w => rfl)
  have h3 := qro_same_record
    (updW { e with pathSubs := aset e.pathSubs path (addOnce (subsOf e path) wid) }
      wid (fun w => { w with pathsSubs := addOnce w.pathsSubs path }))
    (registerSub e wid path) h2.2.2.2 rfl rfl rfl rfl rfl
  exact (h1.qtrans h2).qtrans h3

theorem qro_detachMark (e : Eng) (x : JVal) (hro : ROEng e) : QRO e (detachMark e x) := by
  unfold detachMark
  repeat' split
  all_goals first
    | exact qro_updObj _ _ _ hro (fun o => rfl)
    | exact QRO.qrefl e hro

theorem qro_idxRefresh (e : Eng) (b : Bool) (prop : String) (x : JVal) (hro : ROEng e) :
    QRO e (idxRefresh e b prop x) := by
  unfold idxRefresh
  repeat' split
  all_goals first
    | exact qro_updObj _ _ _ hro (fun o => rfl)
    | exact QRO.qrefl e hro

theorem qro_wrapChild (e : Eng) (a : Nat) (prop : String) (x : JVal) (hro : ROEng e) :
    QRO e (wrapChild e a prop x) := by
  unfold wrapChild
  repeat' split
  all_goals first
    | exact qro_updObj _ _ _ hro (fun o => rfl)
    | exact QRO.qrefl e hro

theorem qro_finishRead (n : Nat) (e2 : Eng) (a : Nat) (prop : String) (tv : JVal)
    (propVal : JVal) (e' : Eng) (v : JVal) (hro : ROEng e2)
    (h : finishRead n e2 a prop tv propVal = .ok e' v) : QRO e2 e' := by
  unfold finishRead at h
  dsimp only at h
  have pw : QRO e2 (wrapChild e2 a prop propVal) := qro_wrapChild e2 a prop propVal hro
  match hact : (wrapChild e2 a prop propVal).active with
  | Option.none =>
    rw [hact] at h
    dsimp only at h
    cases h
    exact pw
  | some wid =>
    rw [hact] at h
    dsimp only at h
    match htv : toTgt tv with
    | .empty =>
      rw [htv] at h
      dsimp only at h
      cases h
      exact pw.qtrans (qro_registerSub _ wid prop pw.2.2.2)
    | .obj a2 =>
      rw [htv] at h
      dsimp only at h
      match hp : getPath n (wrapChild e2 a prop propVal) a2 prop with
      | some path =>
        rw [hp] at h
        dsimp only at h
        cases h
        exact pw.qtrans (qro_registerSub _ wid path pw.2.2.2)
      | Option.none =>
        rw [hp] at h
        simp at h

/-- Fresh-watcher environments stay read-only when the new watcher has a
read-only tracked body and no untracked callback. -/
theorem stepRO_mkWatchCore (n : Nat)
    (ih : ∀ e c e' v, ROEng e → ROCall c → step n e c = .ok e' v → QRO e e')
    (e E1 : Eng) (wNew : W) (hro : ROEng e)
    (e2 : Eng) (v2 : JVal)
    (hrun : step n E1 (.runw e.nextId) = .ok e2 v2)
    (hE1h : E1.heap = e.heap)
    (hE1w : E1.watchers = aset e.watchers e.nextId wNew)
    (hE1f : E1.flushFront = e.flushFront) (hE1r : E1.flushRest = e.flushRest)
    (hE1s : E1.scheduled = e.scheduled)
    (hWt : ROProg wNew.tracked) (hWu : wNew.untracked = UFn.none) : QRO e e2 := by
  have hroE1 : ROEng E1 := by
    refine ⟨?_, ?_⟩
    · intro a o ho
      unfold objAt at ho
      rw [hE1h] at ho
      exact hro.1 a o ho
    · intro id w' hw'
      rw [hE1w] at hw'
      by_cases hx : id = e.nextId
      · subst hx
        rw [alookup_aset_self] at hw'
        cases hw'
        exact ⟨hWt, hWu⟩
      · rw [alookup_aset_ne _ _ _ _ (fun hh => hx hh.symm)] at hw'
        exact hro.2 id w' hw'
  have q1 : QRO e E1 := ⟨hE1f, hE1r, hE1s, hroE1⟩
  exact q1.qtrans (ih E1 (.runw e.nextId) e2 v2 hroE1 trivial hrun)

/-- The `runw` tail of the read-only effect lemma: running a read-only watcher
(whose untracked callback is absent) leaves the flush queue and the schedule
count untouched. -/
theorem stepRO_runwCore (n : Nat)
    (ih : ∀ e c e' v, ROEng e → ROCall c → step n e c = .ok e' v → QRO e e')
    (e : Eng) (rid : Nat) (w : W)
    (eA : Eng) (qPre : QRO e eA) (old : Option Nat) (e' : Eng) (v : JVal)
    (hwt : ROProg w.tracked) (hwu : w.untracked = UFn.none)
    (hstep : (match step n (updW { { eA with
          pathSubs := w.pathsSubs.foldl (fun ps p => eraseSub ps p rid) eA.pathSubs }
          with active := some rid } rid (fun ww => { ww with runs := ww.runs + 1 }))
        (.exec w.tracked) with
      | .err => Res.err
      | .fuel => Res.fuel
      | .ok e5 result =>
        (match (match w.untracked with
          | UFn.none => Res.ok e5 JVal.undef
          | UFn.user f => step n { e5 with active := Option.none } (.exec (f result))
          | UFn.cache ca cprop =>
            match objAt { e5 with active := Option.none } ca with
            | Option.none => Res.err
            | some co =>
              match alookup co.fields ("@@" ++ cprop) with
              | Option.none =>
                Res.ok (updObj { e5 with active := Option.none } ca
                  (fun oo => { oo with
                    fields := aset oo.fields ("@@" ++ cprop) result })) JVal.undef
              | some x =>
                step n { e5 with active := Option.none }
                  (.pset ca ("@@" ++ cprop) result)) with
         | .ok e8 x => Res.ok { e8 with active := old } JVal.undef
         | .err => Res.err
         | .fuel => Res.fuel)) = .ok e' v) :
    QRO e e' := by
  have qB : QRO eA { { eA with
      pathSubs := w.pathsSubs.foldl (fun ps p => eraseSub ps p rid) eA.pathSubs }
      with active := some rid } :=
    qro_same_record _ _ qPre.2.2.2 rfl rfl rfl rfl rfl
  have q1 : QRO e (updW { { eA with
      pathSubs := w.pathsSubs.foldl (fun ps p => eraseSub ps p rid) eA.pathSubs }
      with active := some rid } rid (fun ww => { ww with runs := ww.runs + 1 })) :=
    (qPre.qtrans qB).qtrans
      (qro_updW _ rid _ qB.2.2.2 (fun ww => rfl) (fun ww => rfl))
  match h1 : step n (updW { { eA with
      pathSubs := w.pathsSubs.foldl (fun ps p => eraseSub ps p rid) eA.pathSubs }
      with active := some rid } rid (fun ww => { ww with runs := ww.runs + 1 }))
      (.exec w.tracked) with
  | .err => rw [h1] at hstep; simp at hstep
  | .fuel => rw [h1] at hstep; simp at hstep
  | .ok e5 result =>
    rw [h1] at hstep
    dsimp only at hstep
    have q5 : QRO e e5 :=
      q1.qtrans (ih _ (.exec w.tracked) e5 result q1.2.2.2 hwt h1)
    rw [hwu] at hstep
    dsimp only at hstep
    cases hstep
    exact q5.qtrans (qro_same_record e5 _ q5.2.2.2 rfl rfl rfl rfl rfl)

/-- The read-only effect lemma: in an engine with no computed properties whose
watchers are all read-only with no untracked callback, every successful call
other than a proxied write leaves `flushFront`, `flushRest` and `scheduled`
exactly as they were and preserves read-onlyness. In particular the flush
drain's own watcher runs never enqueue anything. -/
theorem stepRO : ∀ (n : Nat) (e : Eng) (c : Call) (e' : Eng) (v : JVal),
    ROEng e → ROCall c → step n e c = .ok e' v → QRO e e' := by
  intro n
  induction n with
  | zero =>
    intro e c e' v hro roc hstep
    simp [step] at hstep
  | succ n ih =>
    intro e c e' v hro roc hstep
    match c with
    | .rget a prop =>
      simp only [step] at hstep
      match ho : objAt e a with
      | Option.none =>
        rw [ho] at hstep
        simp at hstep
      | some o =>
        rw [ho] at hstep
        dsimp only at hstep
        match hf : alookup o.fields prop with
        | some w =>
          rw [hf] at hstep
          dsimp only at hstep
          cases hstep
          exact QRO.qrefl e hro
        | Option.none =>
          rw [hf] at hstep
          dsimp only at hstep
          match hg : alookup (descriptorsOf o) prop with
          | some g =>
            rw [descriptorsOf_nil o (hro.1 a o ho)] at hg
            simp [alookup] at hg
          | Option.none =>
            rw [hg] at hstep
            dsimp only at hstep
            cases hstep
            exact QRO.qrefl e hro
    | .exec p =>
      simp only [step] at hstep
      have rp : ROProg p := roc
      cases rp with
      | ret w =>
        cases hstep
        exact QRO.qrefl e hro
      | get a prop k hk =>
        dsimp only at hstep
        match h1 : step n e (.pget a prop) with
        | .ok e1 v1 =>
          rw [h1] at hstep
          dsimp only at hstep
          have q1 : QRO e e1 := ih e (.pget a prop) e1 v1 hro trivial h1
          exact q1.qtrans (ih e1 (.exec (k v1)) e' v q1.2.2.2 (hk v1) hstep)
        | .err => rw [h1] at hstep; simp at hstep
        | .fuel => rw [h1] at hstep; simp at hstep
      | watchNew body k hb hkk =>
        dsimp only at hstep
        match h1 : step n e (.mkWatch body UFn.none) with
        | .ok e1 v1 =>
          rw [h1] at hstep
          dsimp only at hstep
          have q1 : QRO e e1 := ih e (.mkWatch body UFn.none) e1 v1 hro ⟨hb, rfl⟩ h1
          exact q1.qtrans (ih e1 (.exec k) e' v q1.2.2.2 hkk hstep)
        | .err => rw [h1] at hstep; simp at hstep
        | .fuel => rw [h1] at hstep; simp at hstep
    | .dwalk cur props =>
      simp only [step] at hstep
      cases props with
      | nil =>
        cases hstep
        exact QRO.qrefl e hro
      | cons p rest =>
        cases cur with
        | prim m => simp at hstep
        | empty =>
          dsimp only at hstep
          by_cases hr : rest = []
          · rw [if_pos hr] at hstep
            cases hstep
            exact QRO.qrefl e hro
          · rw [if_neg hr] at hstep
            exact ih e (.dwalk .empty rest) e' v hro trivial hstep
        | proxy a =>
          dsimp only at hstep
          have qskip : QRO e (updObj e a (fun oo => { oo with skip := true })) :=
            qro_updObj _ _ _ hro (fun o => rfl)
          match h1 : step n (updObj e a (fun oo => { oo with skip := true })) (.pget a p) with
          | .ok e1 item =>
            rw [h1] at hstep
            dsimp only at hstep
            have q01 : QRO e e1 :=
              qskip.qtrans (ih _ (.pget a p) e1 item qskip.2.2.2 trivial h1)
            have q02 : QRO e (updObj e1 a (fun oo => { oo with skip := false })) :=
              q01.qtrans (qro_updObj _ _ _ q01.2.2.2 (fun o => rfl))
            by_cases hr : rest = []
            · rw [if_pos hr] at hstep
              cases item with
              | ref c => cases hstep; exact q02
              | num m => cases hstep; exact q02
              | undef => cases hstep; exact q02
            · rw [if_neg hr] at hstep
              cases item with
              | ref c =>
                exact q02.qtrans (ih _ (.dwalk (.proxy c) rest) e' v q02.2.2.2 trivial hstep)
              | num m =>
                exact q02.qtrans (ih _ (.dwalk (.prim m) rest) e' v q02.2.2.2 trivial hstep)
              | undef =>
                exact q02.qtrans (ih _ (.dwalk .empty rest) e' v q02.2.2.2 trivial hstep)
          | .err => rw [h1] at hstep; simp at hstep
          | .fuel => rw [h1] at hstep; simp at hstep
    | .pset a prop vv =>
      exact False.elim roc
    | .pget a prop =>
      simp only [step] at hstep
      match ho : objAt e a with
      | Option.none => rw [ho] at hstep; simp at hstep
      | some o =>
        rw [ho] at hstep
        dsimp only at hstep
        by_cases hraw : prop = "__raw"
        · rw [if_pos hraw] at hstep
          cases hstep
          exact QRO.qrefl e hro
        · rw [if_neg hraw] at hstep
          match hg : alookup (descriptorsOf o) prop with
          | Option.none =>
            rw [hg] at hstep
            dsimp only at hstep
            exact ih e (.pgetRest a prop) e' v hro trivial hstep
          | some g =>
            rw [descriptorsOf_nil o (hro.1 a o ho)] at hg
            simp [alookup] at hg
    | .pgetRest a prop =>
      simp only [step] at hstep
      match ho : objAt e a with
      | Option.none => rw [ho] at hstep; simp at hstep
      | some o =>
        rw [ho] at hstep
        dsimp only at hstep
        by_cases hcond : (o.skip = false ∧ o.parent.isSome = true)
        · rw [if_pos hcond] at hstep
          match hup : upWalk n e a with
          | Option.none => rw [hup] at hstep; simp at hstep
          | some (props, root, det) =>
            rw [hup] at hstep
            dsimp only at hstep
            by_cases hdet : det = true
            · rw [if_pos hdet] at hstep
              match h1 : step n e (.dwalk (.proxy root) props.reverse) with
              | .err => rw [h1] at hstep; simp at hstep
              | .fuel => rw [h1] at hstep; simp at hstep
              | .ok e1 tv =>
                rw [h1] at hstep
                dsimp only at hstep
                have qA : QRO e e1 :=
                  ih e (.dwalk (.proxy root) props.reverse) e1 tv hro trivial h1
                match htv : toTgt tv with
                | .empty =>
                  rw [htv] at hstep
                  dsimp only at hstep
                  exact qA.qtrans (qro_finishRead n e1 a prop tv .undef e' v qA.2.2.2 hstep)
                | .obj a2 =>
                  rw [htv] at hstep
                  dsimp only at hstep
                  match h2 : step n e1 (.rget a2 prop) with
                  | .err => rw [h2] at hstep; simp at hstep
                  | .fuel => rw [h2] at hstep; simp at hstep
                  | .ok e2 propVal =>
                    rw [h2] at hstep
                    dsimp only at hstep
                    have qB : QRO e e2 :=
                      qA.qtrans (ih e1 (.rget a2 prop) e2 propVal qA.2.2.2 trivial h2)
                    exact qB.qtrans
                      (qro_finishRead n e2 a prop tv propVal e' v qB.2.2.2 hstep)
            · rw [if_neg hdet] at hstep
              simp only [toTgt] at hstep
              match h2 : step n e (.rget a prop) with
              | .err => rw [h2] at hstep; simp at hstep
              | .fuel => rw [h2] at hstep; simp at hstep
              | .ok e2 propVal =>
                rw [h2] at hstep
                dsimp only at hstep
                have qB : QRO e e2 := ih e (.rget a prop) e2 propVal hro trivial h2
                exact qB.qtrans
                  (qro_finishRead n e2 a prop (.ref a) propVal e' v qB.2.2.2 hstep)
        · rw [if_neg hcond] at hstep
          simp only [toTgt] at hstep
          match h2 : step n e (.rget a prop) with
          | .err => rw [h2] at hstep; simp at hstep
          | .fuel => rw [h2] at hstep; simp at hstep
          | .ok e2 propVal =>
            rw [h2] at hstep
            dsimp only at hstep
            have qB : QRO e e2 := ih e (.rget a prop) e2 propVal hro trivial h2
            exact qB.qtrans
              (qro_finishRead n e2 a prop (.ref a) propVal e' v qB.2.2.2 hstep)
    | .mkWatch tracked ufn =>
      obtain ⟨hrp, hun⟩ : ROProg tracked ∧ ufn = UFn.none := roc
      subst hun
      simp only [step] at hstep
      split at hstep
      · rename_i ee vv hrun
        cases hstep
        exact stepRO_mkWatchCore n ih e _ _ hro _ _ hrun rfl rfl rfl rfl rfl hrp rfl
      · simp at hstep
      · simp at hstep
    | .runw rid =>
      simp only [step] at hstep
      match hw : alookup e.watchers rid with
      | Option.none => rw [hw] at hstep; simp at hstep
      | some w =>
        rw [hw] at hstep
        dsimp only at hstep
        obtain ⟨hwt, hwu⟩ := hro.2 rid w hw
        match hact : e.active with
        | some pid =>
          rw [hact] at hstep
          dsimp only at hstep
          have qa : QRO e (updW e rid (fun ww => { ww with parent := some pid })) :=
            qro_updW e rid _ hro (fun x => rfl) (fun x => rfl)
          exact stepRO_runwCore n ih e rid w
            (updW (updW e rid (fun ww => { ww with parent := some pid })) pid
              (fun pw => { pw with children := pw.children ++ [rid] }))
            (qa.qtrans (qro_updW _ pid _ qa.2.2.2 (fun x => rfl) (fun x => rfl)))
            (some pid) e' v hwt hwu hstep
        | Option.none =>
          rw [hact] at hstep
          dsimp only at hstep
          exact stepRO_runwCore n ih e rid w e (QRO.qrefl e hro)
            Option.none e' v hwt hwu hstep

/-! ## The drain's repetition ceiling -/

/-- Driving lemma for the runaway ceiling: along a successful drain pass, a
watcher already counted `c` times by the repetition counter gains at most
`500 - c` further runs, and every pre-existing watcher survives the pass. -/
theorem drainLoop_cap : ∀ (n : Nat) (e : Eng) (calls : List (Nat × Nat))
    (e' : Eng) (v : JVal), WFids e → drainLoop n e calls = .ok e' v →
    WFids e' ∧ ∀ id, (alookup e.watchers id).isSome = true →
      (alookup e'.watchers id).isSome = true ∧
      runsOf e' id ≤ runsOf e id + (500 - min 500 ((alookup calls id).getD 0)) := by
  intro n
  induction n with
  | zero =>
    intro e calls e' v hwf h
    simp [drainLoop] at h
  | succ n ih =>
    intro e calls e' v hwf h
    simp only [drainLoop] at h
    match hrest : e.flushRest with
    | [] =>
      rw [hrest] at h
      dsimp only at h
      cases h
      exact ⟨hwf, fun id hid => ⟨hid, Nat.le_add_right _ _⟩⟩
    | cur :: rest =>
      rw [hrest] at h
      dsimp only at h
      have hwf1 : WFids { e with flushFront := e.flushFront ++ [cur], flushRest := rest } := hwf
      match hw : alookup e.watchers cur with
      | Option.none =>
        rw [hw] at h
        dsimp only at h
        obtain ⟨hwf', hb⟩ := ih _ calls e' v hwf1 h
        exact ⟨hwf', fun id hid => hb id hid⟩
      | some w =>
        rw [hw] at h
        dsimp only at h
        by_cases hunw : w.unwatched = true
        · rw [if_pos hunw] at h
          obtain ⟨hwf', hb⟩ := ih _ calls e' v hwf1 h
          exact ⟨hwf', fun id hid => hb id hid⟩
        · rw [if_neg hunw] at h
          by_cases hpp : (match w.parent with
              | some pid => decide (pid ∈ e.flushFront ++ [cur] ++ rest)
              | Option.none => false) = true
          · rw [if_pos hpp] at h
            obtain ⟨hwf', hb⟩ := ih _ calls e' v hwf1 h
            exact ⟨hwf', fun id hid => hb id hid⟩
          · rw [if_neg hpp] at h
            by_cases hcnt : 500 < (alookup calls cur).getD 0 + 1
            · rw [if_pos hcnt] at h
              have hwfW : WFids { e with flushFront := e.flushFront ++ [cur], flushRest := rest, warns := e.warns ++ [cur] } := hwf
              obtain ⟨hwf', hb⟩ := ih _ (aset calls cur ((alookup calls cur).getD 0 + 1))
                e' v hwfW h
              refine ⟨hwf', fun id hid => ?_⟩
              obtain ⟨hpres, hrun⟩ := hb id hid
              refine ⟨hpres, ?_⟩
              have hsameW : runsOf { e with flushFront := e.flushFront ++ [cur], flushRest := rest, warns := e.warns ++ [cur] } id = runsOf e id := rfl
              rw [hsameW] at hrun
              by_cases hx : id = cur
              · subst hx
                rw [alookup_aset_self] at hrun
                simp only [Option.getD_some] at hrun
                omega
              · rw [alookup_aset_ne calls cur id _ (fun hh => hx hh.symm)] at hrun
                exact hrun
            · rw [if_neg hcnt] at h
              match h2 : step n { e with flushFront := e.flushFront ++ [cur], flushRest := rest } (.runw cur) with
              | .err => rw [h2] at h; simp at h
              | .fuel => rw [h2] at h; simp at h
              | .ok e2 v2 =>
                rw [h2] at h
                dsimp only at h
                have hr : RunStep cur { e with flushFront := e.flushFront ++ [cur], flushRest := rest } e2 :=
                  stepMB n _ (.runw cur) e2 v2 hwf1 h2
                obtain ⟨hwf', hb⟩ := ih e2 (aset calls cur ((alookup calls cur).getD 0 + 1))
                  e' v hr.1.2.1 h
                refine ⟨hwf', fun id hid => ?_⟩
                have hlt : id < e.nextId := hwf id hid
                have hpres2 : (alookup e2.watchers id).isSome = true := by
                  rw [(hr.1.2.2.1 id hlt).1]
                  exact hid
                obtain ⟨hpres', hrun'⟩ := hb id hpres2
                refine ⟨hpres', ?_⟩
                by_cases hx : id = cur
                · subst hx
                  have hcurrun : runsOf e2 id = w.runs + 1 := hr.2.2 w hw
                  have hein : runsOf e id = w.runs := by
                    rw [runsOf_eq_getD, wrunsOf, hw]
                    rfl
                  rw [alookup_aset_self] at hrun'
                  simp only [Option.getD_some] at hrun'
                  rw [hcurrun] at hrun'
                  rw [hein]
                  omega
                · have hsame : wrunsOf e2 id = wrunsOf { e with flushFront := e.flushFront ++ [cur], flushRest := rest } id :=
                    hr.2.1 id hlt hx
                  have h22 : runsOf e2 id = runsOf e id := by
                    rw [runsOf_eq_getD, hsame]
                    rfl
                  rw [alookup_aset_ne calls cur id _ (fun hh => hx hh.symm)] at hrun'
                  rw [h22] at hrun'
                  exact hrun'

theorem alookup_isSome_mem {K V : Type} [DecidableEq K] (l : List (K × V)) (k : K) :
    (alookup l k).isSome = true → ∃ v, (k, v) ∈ l := by
  induction l with
  | nil => intro h; simp [alookup] at h
  | cons hd t ihl =>
    intro h
    by_cases hx : hd.1 = k
    · exact ⟨hd.2, by rw [← hx]; simp⟩
    · simp only [alookup] at h
      rw [if_neg hx] at h
      obtain ⟨w, hw⟩ := ihl h
      exact ⟨w, List.mem_cons_of_mem _ hw⟩

/-- Id allocation is well-formed as soon as every key of the watcher table is
below the counter (checkable on concrete engines). -/
theorem wfids_of_keys (e : Eng) (h : ∀ p ∈ e.watchers, p.1 < e.nextId) : WFids e := by
  intro id hs
  obtain ⟨w, hw⟩ := alookup_isSome_mem e.watchers id hs
  exact h (id, w) hw

/-! ## C9 scenario: a self-retriggering observer -/

def c9e0 : Eng := mkEng [(0, flatObj [("x", .num 0), ("y", .num 0)])]

/-- An observer body that reads `x` and writes `x + 1` back: it invalidates
itself on every run. -/
def c9run : Prog := .get 0 "x" (fun v => .set 0 "x" (jinc v) (.ret .undef))

def c9e1 : Eng := getE (watchP 2000 c9e0 c9run)

/-- A second, harmless observer on `y` in the same store. -/
def c9e2 : Eng := getE (watchP 100 c9e1 (.get 0 "y" (fun yv => .ret .undef)))

/-- One write to `y`: both observers are now pending in the same batch. -/
def c9e3 : Eng := getE (runScript 100 c9e2 (incr "y"))

/-- The flush drain over that batch. -/
def c9e4 : Eng := getE (drain 3000 c9e3)

/-- A quiet engine (one watcher, empty queue) for instantiating the cap. -/
def c9w1 : Eng := getE (watchP 100 c9e0 (.get 0 "y" (fun yv => .ret .undef)))

set_option maxRecDepth 10000 in
/-- C9: within a single flush drain pass, every pre-existing observer is
executed at most 500 more times no matter how it re-triggers itself (general
cap over arbitrary engines), and in the concrete self-retriggering scenario
the runaway observer is cut off at the ceiling and skipped with a diagnostic
warning naming it, while the sibling pending observer in the same batch is
still processed normally and the drain still succeeds. -/
theorem c9_runaway_ceiling :
    (∀ (fuel : Nat) (e e' : Eng) (v : JVal) (id : Nat), WFids e →
        drain fuel e = .ok e' v → (alookup e.watchers id).isSome = true →
        (alookup e'.watchers id).isSome = true ∧
        runsOf e' id ≤ runsOf e id + 500) ∧
    (runsOf c9e3 0 = 1 ∧ runsOf c9e4 0 = 501 ∧
     runsOf c9e3 1 = 1 ∧ runsOf c9e4 1 = 2 ∧
     c9e3.warns = [] ∧ c9e4.warns = [0] ∧
     queueOf c9e3 = [0, 1] ∧ isOk (drain 3000 c9e3) = true) := by
  constructor
  · intro fuel e e' v id hwf h hs
    have hc := (drainLoop_cap fuel e [] e' v hwf h).2 id hs
    exact ⟨hc.1, hc.2⟩
  · decide

theorem c9_runaway_ceiling_witness :
    (WFids c9w1 ∧ drain 5 c9w1 = .ok (getE (drain 5 c9w1)) .undef ∧
     (alookup c9w1.watchers 0).isSome = true) ∧
    ((alookup (getE (drain 5 c9w1)).watchers 0).isSome = true ∧
     runsOf (getE (drain 5 c9w1)) 0 ≤ runsOf c9w1 0 + 500) :=
  ⟨⟨wfids_of_keys c9w1 (by decide), rfl, rfl⟩,
   c9_runaway_ceiling.1 5 c9w1 (getE (drain 5 c9w1)) .undef 0
     (wfids_of_keys c9w1 (by decide)) rfl rfl⟩

/-! ## Unwatch finality machinery -/

theorem alookup_aerase {K V : Type} [DecidableEq K] (l : List (K × V)) (k k' : K) :
    alookup (aerase l k) k' = if k' = k then Option.none else alookup l k' := by
  induction l with
  | nil => simp [aerase, alookup]
  | cons hd t ihl =>
    obtain ⟨k0, v0⟩ := hd
    by_cases h0 : k0 = k
    · rw [show aerase ((k0, v0) :: t) k = aerase t k from by simp [aerase, h0]]
      rw [ihl]
      by_cases hx : k' = k
      · simp [hx]
      · have hne : ¬(k0 = k') := fun hh => hx (by rw [← hh]; exact h0)
        simp [hx, alookup, hne]
    · rw [show aerase ((k0, v0) :: t) k = (k0, v0) :: aerase t k from by simp [aerase, h0]]
      simp only [alookup]
      by_cases h1 : k0 = k'
      · have hx : ¬(k' = k) := fun hh => h0 (by rw [h1, hh])
        simp [h1, hx]
      · simp [h1, ihl]

/-- Effect shape of the debounced removal: the id counter is unchanged and
every watcher entry either keeps its run counter and unwatched flag or is
deleted outright. -/
def KeepsOrDrops (e e' : Eng) : Prop :=
  e'.nextId = e.nextId ∧
  ∀ id, (wrunsOf e' id = wrunsOf e id ∧ unwOf e' id = unwOf e id) ∨
    alookup e'.watchers id = Option.none

theorem kd_refl (e : Eng) : KeepsOrDrops e e := ⟨rfl, fun id => Or.inl ⟨rfl, rfl⟩⟩

theorem kd_trans {e e1 e2 : Eng} (h1 : KeepsOrDrops e e1) (h2 : KeepsOrDrops e1 e2) :
    KeepsOrDrops e e2 := by
  refine ⟨h2.1.trans h1.1, fun id => ?_⟩
  rcases h2.2 id with ⟨ha, hb⟩ | hn
  · rcases h1.2 id with ⟨hc, hd⟩ | hn1
    · exact Or.inl ⟨ha.trans hc, hb.trans hd⟩
    · right
      have hm : wrunsOf e2 id = Option.none := by
        rw [ha, wrunsOf, hn1]
        rfl
      rw [wrunsOf] at hm
      exact Option.map_eq_none'.mp hm
  · exact Or.inr hn

theorem kd_watchers_same (e e' : Eng) (hw : e'.watchers = e.watchers)
    (hn : e'.nextId = e.nextId) : KeepsOrDrops e e' := by
  refine ⟨hn, fun id => Or.inl ⟨?_, ?_⟩⟩
  · rw [wrunsOf, wrunsOf, hw]
  · rw [unwOf, unwOf, hw]

theorem kd_updW (e : Eng) (j : Nat) (f : W → W)
    (hr : ∀ w, (f w).runs = w.runs) (hu : ∀ w, (f w).unwatched = w.unwatched) :
    KeepsOrDrops e (updW e j f) := by
  refine ⟨(updW_watchers_keep e j f).1, fun id => Or.inl ⟨?_, ?_⟩⟩
  · rw [wrunsOf, wrunsOf, alookup_updW]
    by_cases hx : id = j
    · rw [if_pos hx, hx]
      match hl : alookup e.watchers j with
      | Option.none => rfl
      | some w => simp [hr w]
    · rw [if_neg hx]
  · rw [unwOf, unwOf, alookup_updW]
    by_cases hx : id = j
    · rw [if_pos hx, hx]
      match hl : alookup e.watchers j with
      | Option.none => rfl
      | some w => simp [hu w]
    · rw [if_neg hx]

theorem kd_aerase (e e' : Eng) (j : Nat) (hw : e'.watchers = aerase e.watchers j)
    (hn : e'.nextId = e.nextId) : KeepsOrDrops e e' := by
  refine ⟨hn, fun id => ?_⟩
  by_cases hx : id = j
  · right
    rw [hw, alookup_aerase, if_pos hx]
  · left
    constructor
    · rw [wrunsOf, wrunsOf, hw, alookup_aerase, if_neg hx]
    · rw [unwOf, unwOf, hw, alookup_aerase, if_neg hx]

/-- The recursive removal worklist only deletes entries or leaves their run
counter and unwatched flag intact. -/
theorem removeWatchers_kd : ∀ (n : Nat) (e : Eng) (ids : List Nat) (e' : Eng),
    removeWatchers n e ids = some e' → KeepsOrDrops e e' := by
  intro n
  induction n with
  | zero =>
    intro e ids e' h
    simp [removeWatchers] at h
  | succ n ih =>
    intro e ids e' h
    match ids with
    | [] =>
      simp only [removeWatchers] at h
      cases h
      exact kd_refl e
    | id :: rest =>
      simp only [removeWatchers] at h
      match hw : alookup e.watchers id with
      | Option.none =>
        rw [hw] at h
        exact ih e rest e' h
      | some w =>
        rw [hw] at h
        dsimp only at h
        match hor : w.onRemove with
        | some key =>
          rw [hor] at h
          dsimp only at h
          have kd1 : KeepsOrDrops e { e with getterW := aerase e.getterW key } :=
            kd_watchers_same _ _ rfl rfl
          by_cases hch : w.children = []
          · rw [if_pos hch] at h
            dsimp only at h
            refine kd_trans (kd_trans kd1 ?_) (ih _ rest e' h)
            exact kd_aerase _ _ id rfl rfl
          · rw [if_neg hch] at h
            match hrc : removeWatchers n { e with getterW := aerase e.getterW key } w.children with
            | Option.none => rw [hrc] at h; simp at h
            | some e2 =>
              rw [hrc] at h
              dsimp only at h
              have kd2 : KeepsOrDrops e e2 := kd_trans kd1 (ih _ w.children e2 hrc)
              have kd3 : KeepsOrDrops e (updW e2 id
                  (fun ww => { ww with parent := Option.none, children := [] })) :=
                kd_trans kd2 (kd_updW e2 id _ (fun ww => rfl) (fun ww => rfl))
              refine kd_trans (kd_trans kd3 ?_) (ih _ rest e' h)
              exact kd_aerase _ _ id rfl rfl
        | Option.none =>
          rw [hor] at h
          dsimp only at h
          by_cases hch : w.children = []
          · rw [if_pos hch] at h
            dsimp only at h
            refine kd_trans ?_ (ih _ rest e' h)
            exact kd_aerase _ _ id rfl rfl
          · rw [if_neg hch] at h
            match hrc : removeWatchers n e w.children with
            | Option.none => rw [hrc] at h; simp at h
            | some e2 =>
              rw [hrc] at h
              dsimp only at h
              have kd2 : KeepsOrDrops e e2 := ih _ w.children e2 hrc
              have kd3 : KeepsOrDrops e (updW e2 id
                  (fun ww => { ww with parent := Option.none, children := [] })) :=
                kd_trans kd2 (kd_updW e2 id _ (fun ww => rfl) (fun ww => rfl))
              refine kd_trans (kd_trans kd3 ?_) (ih _ rest e' h)
              exact kd_aerase _ _ id rfl rfl

/-- The debounced timer firing shares the removal effect shape. -/
theorem cleanTimerFire_kd (fuel : Nat) (e e' : Eng)
    (h : cleanTimerFire fuel e = some e') : KeepsOrDrops e e' := by
  unfold cleanTimerFire at h
  match hr : removeWatchers fuel e e.toRemove with
  | Option.none => rw [hr] at h; simp at h
  | some e2 =>
    rw [hr] at h
    dsimp only at h
    cases h
    exact kd_trans (removeWatchers_kd fuel e e.toRemove e2 hr)
      (kd_watchers_same _ _ rfl rfl)

/-- A flush drain never touches a watcher whose unwatched flag is set (or
whose entry is already gone): its flag and run counter survive unchanged. -/
theorem drainLoop_dead : ∀ (n : Nat) (e : Eng) (calls : List (Nat × Nat))
    (e' : Eng) (v : JVal) (id : Nat), WFids e → drainLoop n e calls = .ok e' v →
    id < e.nextId → (unwOf e id = some true ∨ unwOf e id = Option.none) →
    WFids e' ∧ e.nextId ≤ e'.nextId ∧ unwOf e' id = unwOf e id ∧
    wrunsOf e' id = wrunsOf e id := by
  intro n
  induction n with
  | zero =>
    intro e calls e' v id hwf h hlt hdead
    simp [drainLoop] at h
  | succ n ih =>
    intro e calls e' v id hwf h hlt hdead
    simp only [drainLoop] at h
    match hrest : e.flushRest with
    | [] =>
      rw [hrest] at h
      dsimp only at h
      cases h
      exact ⟨hwf, Nat.le_refl _, rfl, rfl⟩
    | cur :: rest =>
      rw [hrest] at h
      dsimp only at h
      have hwf1 : WFids { e with flushFront := e.flushFront ++ [cur], flushRest := rest } := hwf
      match hw : alookup e.watchers cur with
      | Option.none =>
        rw [hw] at h
        dsimp only at h
        exact ih { e with flushFront := e.flushFront ++ [cur], flushRest := rest } calls e' v id hwf1 h hlt hdead
      | some w =>
        rw [hw] at h
        dsimp only at h
        by_cases hunw : w.unwatched = true
        · rw [if_pos hunw] at h
          exact ih { e with flushFront := e.flushFront ++ [cur], flushRest := rest } calls e' v id hwf1 h hlt hdead
        · rw [if_neg hunw] at h
          by_cases hpp : (match w.parent with
              | some pid => decide (pid ∈ e.flushFront ++ [cur] ++ rest)
              | Option.none => false) = true
          · rw [if_pos hpp] at h
            exact ih { e with flushFront := e.flushFront ++ [cur], flushRest := rest } calls e' v id hwf1 h hlt hdead
          · rw [if_neg hpp] at h
            by_cases hcnt : 500 < (alookup calls cur).getD 0 + 1
            · rw [if_pos hcnt] at h
              have hwfW : WFids { e with flushFront := e.flushFront ++ [cur], flushRest := rest, warns := e.warns ++ [cur] } := hwf
              exact ih { e with flushFront := e.flushFront ++ [cur], flushRest := rest, warns := e.warns ++ [cur] } (aset calls cur ((alookup calls cur).getD 0 + 1)) e' v id hwfW h
                hlt hdead
            · rw [if_neg hcnt] at h
              have hne : id ≠ cur := by
                intro hh
                subst hh
                rcases hdead with hd | hd
                · rw [unwOf, hw] at hd
                  simp at hd
                  exact hunw hd
                · rw [unwOf, hw] at hd
                  simp at hd
              match h2 : step n { e with flushFront := e.flushFront ++ [cur], flushRest := rest } (.runw cur) with
              | .err => rw [h2] at h; simp at h
              | .fuel => rw [h2] at h; simp at h
              | .ok e2 v2 =>
                rw [h2] at h
                dsimp only at h
                have hr : RunStep cur { e with flushFront := e.flushFront ++ [cur], flushRest := rest } e2 :=
                  stepMB n _ (.runw cur) e2 v2 hwf1 h2
                have hu2 : unwOf e2 id = unwOf e id := (hr.1.2.2.1 id hlt).2
                have hw2 : wrunsOf e2 id = wrunsOf e id := hr.2.1 id hlt hne
                have hres := ih e2 (aset calls cur ((alookup calls cur).getD 0 + 1)) e' v id
                  hr.1.2.1 h (Nat.lt_of_lt_of_le hlt hr.1.1) (by rw [hu2]; exact hdead)
                exact ⟨hres.1, Nat.le_trans hr.1.1 hres.2.1, hres.2.2.1.trans hu2,
                  hres.2.2.2.trans hw2⟩

/-- A top-level action of a tick: a synchronous script against the store, a
queued flush microtask firing, a `release()` call, the debounced removal
timer firing, or the registration of a new observer. -/
inductive Act : Type
  | script (p : Prog)
  | drainA
  | unwatchA (id : Nat)
  | timerA
  | watchA (p : Prog)

/-- Execute one top-level action. -/
def runAct (fuel : Nat) (e : Eng) : Act → Option Eng
  | .script p =>
    match runScript fuel e p with
    | .ok e1 x => some e1
    | _ => Option.none
  | .drainA =>
    match drain fuel e with
    | .ok e1 x => some e1
    | _ => Option.none
  | .unwatchA id => some (unwatch e id)
  | .timerA => cleanTimerFire fuel e
  | .watchA p =>
    match watchP fuel e p with
    | .ok e1 x => some e1
    | _ => Option.none

/-- Execute a sequence of top-level actions, one per tick. -/
def runActs (fuel : Nat) : Eng → List Act → Option Eng
  | e, [] => some e
  | e, a :: rest =>
    match runAct fuel e a with
    | some e1 => runActs fuel e1 rest
    | Option.none => Option.none

/-- One top-level action can never run a watcher that is flagged unwatched
(or already removed): its run counter can only stay or vanish with its entry,
and the flag is sticky. -/
theorem runAct_dead (fuel : Nat) (e : Eng) (a : Act) (e1 : Eng) (id : Nat)
    (hwf : WFids e) (hlt : id < e.nextId)
    (hdead : unwOf e id = some true ∨ unwOf e id = Option.none)
    (h : runAct fuel e a = some e1) :
    WFids e1 ∧ id < e1.nextId ∧
    (unwOf e1 id = some true ∨ unwOf e1 id = Option.none) ∧
    runsOf e1 id ≤ runsOf e id := by
  match a with
  | .script p =>
    simp only [runAct] at h
    match hs : runScript fuel e p with
    | .ok e2 x =>
      rw [hs] at h
      cases h
      have hp : PureStep e e1 := stepMB fuel e (.exec p) e1 x hwf hs
      refine ⟨hp.1.2.1, Nat.lt_of_lt_of_le hlt hp.1.1, ?_, ?_⟩
      · rw [(hp.1.2.2.1 id hlt).2]
        exact hdead
      · rw [runsOf_eq_getD, runsOf_eq_getD, hp.2 id hlt]
    | .err => rw [hs] at h; cases h
    | .fuel => rw [hs] at h; cases h
  | .watchA p =>
    simp only [runAct] at h
    match hs : watchP fuel e p with
    | .ok e2 x =>
      rw [hs] at h
      cases h
      have hp : PureStep e e1 := stepMB fuel e (.mkWatch p UFn.none) e1 x hwf hs
      refine ⟨hp.1.2.1, Nat.lt_of_lt_of_le hlt hp.1.1, ?_, ?_⟩
      · rw [(hp.1.2.2.1 id hlt).2]
        exact hdead
      · rw [runsOf_eq_getD, runsOf_eq_getD, hp.2 id hlt]
    | .err => rw [hs] at h; cases h
    | .fuel => rw [hs] at h; cases h
  | .drainA =>
    simp only [runAct] at h
    match hs : drain fuel e with
    | .ok e2 x =>
      rw [hs] at h
      cases h
      have hd := drainLoop_dead fuel e [] e1 x id hwf hs hlt hdead
      refine ⟨hd.1, Nat.lt_of_lt_of_le hlt hd.2.1, ?_, ?_⟩
      · rw [hd.2.2.1]
        exact hdead
      · rw [runsOf_eq_getD, runsOf_eq_getD, hd.2.2.2]
    | .err => rw [hs] at h; cases h
    | .fuel => rw [hs] at h; cases h
  | .unwatchA j =>
    simp only [runAct] at h
    cases h
    have hn : (unwatch e j).nextId = e.nextId := (updW_watchers_keep e j _).1
    refine ⟨?_, ?_, ?_, ?_⟩
    · intro x hx
      have hx2 : (alookup e.watchers x).isSome = true := by
        have := alookup_updW e j (fun w => { w with unwatched := true }) x
        rw [show (unwatch e j).watchers = (updW e j (fun w => { w with unwatched := true })).watchers from rfl, this] at hx
        by_cases hj : x = j
        · rw [if_pos hj] at hx
          rw [hj]
          match hl : alookup e.watchers j with
          | Option.none => rw [hl] at hx; simp at hx
          | some w => rfl
        · rw [if_neg hj] at hx
          exact hx
      rw [hn]
      exact hwf x hx2
    · rw [hn]
      exact hlt
    · rw [show unwOf (unwatch e j) id = unwOf (updW e j (fun w => { w with unwatched := true })) id from rfl]
      rw [unwOf, alookup_updW]
      by_cases hj : id = j
      · rw [if_pos hj]
        match hl : alookup e.watchers j with
        | Option.none => right; rfl
        | some w => left; rfl
      · rw [if_neg hj]
        exact hdead
    · rw [show runsOf (unwatch e j) id = runsOf (updW e j (fun w => { w with unwatched := true })) id from rfl]
      rw [runsOf_eq_getD, runsOf_eq_getD, wrunsOf, wrunsOf, alookup_updW]
      by_cases hj : id = j
      · rw [if_pos hj, hj]
        match hl : alookup e.watchers j with
        | Option.none => exact Nat.le_refl _
        | some w => exact Nat.le_refl _
      · rw [if_neg hj]
  | .timerA =>
    simp only [runAct] at h
    have kd := cleanTimerFire_kd fuel e e1 h
    refine ⟨?_, ?_, ?_, ?_⟩
    · intro x hx
      rcases kd.2 x with ⟨ha, hb⟩ | hnone
      · have hx2 : (alookup e.watchers x).isSome = true := by
          rw [unwOf, unwOf] at hb
          match hl : alookup e.watchers x with
          | some w => rfl
          | Option.none =>
            rw [hl] at hb
            simp only [Option.map_none'] at hb
            match hl2 : alookup e1.watchers x with
            | Option.none => rw [hl2] at hx; simp at hx
            | some w2 => rw [hl2] at hb; simp at hb
        rw [kd.1]
        exact hwf x hx2
      · rw [hnone] at hx
        simp at hx
    · rw [kd.1]
      exact hlt
    · rcases kd.2 id with ⟨ha, hb⟩ | hnone
      · rw [hb]
        exact hdead
      · right
        rw [unwOf, hnone]
        rfl
    · rcases kd.2 id with ⟨ha, hb⟩ | hnone
      · rw [runsOf_eq_getD, runsOf_eq_getD, ha]
      · rw [runsOf_eq_getD, wrunsOf, hnone]
        exact Nat.zero_le _

/-- Across any sequence of ticks, an observer once flagged unwatched is never
run again: the flag is sticky (until the entry itself is removed) and the run
counter never increases. -/
theorem runActs_dead : ∀ (acts : List Act) (fuel : Nat) (e : Eng) (id : Nat)
    (e' : Eng), WFids e → id < e.nextId →
    (unwOf e id = some true ∨ unwOf e id = Option.none) →
    runActs fuel e acts = some e' →
    (unwOf e' id = some true ∨ unwOf e' id = Option.none) ∧
    runsOf e' id ≤ runsOf e id := by
  intro acts
  induction acts with
  | nil =>
    intro fuel e id e' hwf hlt hdead h
    simp only [runActs] at h
    cases h
    exact ⟨hdead, Nat.le_refl _⟩
  | cons a rest ihl =>
    intro fuel e id e' hwf hlt hdead h
    simp only [runActs] at h
    match ha : runAct fuel e a with
    | Option.none => rw [ha] at h; cases h
    | some e1 =>
      rw [ha] at h
      obtain ⟨hwf1, hlt1, hdead1, hle1⟩ := runAct_dead fuel e a e1 id hwf hlt hdead ha
      obtain ⟨hdead', hle'⟩ := ihl fuel e1 id e' hwf1 hlt1 hdead1 h
      exact ⟨hdead', Nat.le_trans hle' hle1⟩

/-- `release()` flips the flag of a present entry immediately. -/
theorem unwatch_flag (e : Eng) (id : Nat)
    (hs : (alookup e.watchers id).isSome = true) :
    unwOf (unwatch e id) id = some true := by
  rw [show unwOf (unwatch e id) id = unwOf (updW e id (fun w => { w with unwatched := true })) id from rfl]
  rw [unwOf, alookup_updW, if_pos rfl]
  match hl : alookup e.watchers id with
  | Option.none => rw [hl] at hs; simp at hs
  | some w => rfl

/-- `release()` keeps the counter, the run count and schedules the removal. -/
theorem unwatch_keep (e : Eng) (id : Nat) :
    (unwatch e id).nextId = e.nextId ∧ runsOf (unwatch e id) id = runsOf e id ∧
    (unwatch e id).toRemove = e.toRemove ++ [id] := by
  have ht : (unwatch e id).toRemove =
      (updW e id (fun w => { w with unwatched := true })).toRemove ++ [id] := rfl
  have ht2 : (updW e id (fun w => { w with unwatched := true })).toRemove = e.toRemove := by
    unfold updW
    match alookup e.watchers id with
    | Option.none => rfl
    | some w => rfl
  refine ⟨(updW_watchers_keep e id _).1, ?_, by rw [ht, ht2]⟩
  rw [show runsOf (unwatch e id) id = runsOf (updW e id (fun w => { w with unwatched := true })) id from rfl]
  rw [runsOf_eq_getD, runsOf_eq_getD, wrunsOf, wrunsOf, alookup_updW, if_pos rfl]
  match hl : alookup e.watchers id with
  | Option.none => rfl
  | some w => rfl

theorem unwatch_wfids (e : Eng) (id : Nat) (hwf : WFids e) : WFids (unwatch e id) := by
  intro x hx
  rw [show (unwatch e id).watchers = (updW e id (fun w => { w with unwatched := true })).watchers from rfl] at hx
  rw [alookup_updW] at hx
  have hn2 : (unwatch e id).nextId = e.nextId := (updW_watchers_keep e id _).1
  rw [hn2]
  by_cases hj : x = id
  · rw [if_pos hj] at hx
    rw [hj]
    refine hwf id ?_
    match hl : alookup e.watchers id with
    | Option.none => rw [hl] at hx; simp at hx
    | some w => rfl
  · rw [if_neg hj] at hx
    exact hwf x hx

/-! ## C6 scenario: release, then writes across separate ticks -/

def c6e0 : Eng := mkEng [(0, flatObj [("x", .num 0)])]

/-- One observer (id 0) tracking `x`. -/
def c6e1 : Eng := getE (watchP 100 c6e0 (.get 0 "x" (fun xv => .ret .undef)))

/-- The state right after `release()` on the observer. -/
def c6e2 : Eng := unwatch c6e1 0

/-- Ticks after release: write `x`, drain, removal timer fires, write `x`
again on a later tick, drain again. -/
def c6acts : List Act := [.script (incr "x"), .drainA, .timerA, .script (incr "x"), .drainA]

/-- Same ticks without the removal timer ever firing. -/
def c6acts2 : List Act := [.script (incr "x"), .drainA, .script (incr "x"), .drainA]

/-- C6: `release()` sets the unwatched flag at once and appends the observer
to the debounced removal batch; from then on, across any sequence of ticks
(scripts, drains, further releases, timer firings, new observers) the flag
stays set until the entry itself is removed and the observer's run counter
never increases - writes spread one per tick included.  Concretely: the
released observer on `x` is never re-run by later writes to `x`, with or
without the removal timer firing in between, while without `release()` the
same tick sequence re-runs it twice more. -/
theorem c6_unwatch_finality :
    (∀ (e : Eng) (id : Nat), (alookup e.watchers id).isSome = true →
        unwOf (unwatch e id) id = some true ∧
        (unwatch e id).toRemove = e.toRemove ++ [id]) ∧
    (∀ (acts : List Act) (fuel : Nat) (e : Eng) (id : Nat) (e' : Eng),
        WFids e → (alookup e.watchers id).isSome = true →
        runActs fuel (unwatch e id) acts = some e' →
        runsOf e' id ≤ runsOf e id ∧
        (unwOf e' id = some true ∨ unwOf e' id = Option.none)) ∧
    (runsOf c6e1 0 = 1 ∧ unwOf c6e2 0 = some true ∧
     (runActs 300 c6e2 c6acts2).map (fun ee => runsOf ee 0) = some 1 ∧
     (runActs 300 c6e2 c6acts).map (fun ee => (alookup ee.watchers 0).isSome) = some false ∧
     (runActs 300 c6e1 c6acts).map (fun ee => runsOf ee 0) = some 3) := by
  refine ⟨?_, ?_, by decide⟩
  · intro e id hs
    exact ⟨unwatch_flag e id hs, (unwatch_keep e id).2.2⟩
  · intro acts fuel e id e' hwf hs h
    have hlt : id < e.nextId := hwf id hs
    have hres := runActs_dead acts fuel (unwatch e id) id e' (unwatch_wfids e id hwf)
      (by rw [(unwatch_keep e id).1]; exact hlt) (Or.inl (unwatch_flag e id hs)) h
    exact ⟨by rw [← (unwatch_keep e id).2.1]; exact hres.2, hres.1⟩

theorem c6_unwatch_finality_witness :
    ((alookup c6e1.watchers 0).isSome = true ∧
     unwOf (unwatch c6e1 0) 0 = some true ∧
     (unwatch c6e1 0).toRemove = c6e1.toRemove ++ [0]) ∧
    (WFids c6e1 ∧
     runActs 300 (unwatch c6e1 0) c6acts2 = some ((runActs 300 c6e2 c6acts2).getD c6e2) ∧
     (runsOf ((runActs 300 c6e2 c6acts2).getD c6e2) 0 ≤ runsOf c6e1 0 ∧
      (unwOf ((runActs 300 c6e2 c6acts2).getD c6e2) 0 = some true ∨
       unwOf ((runActs 300 c6e2 c6acts2).getD c6e2) 0 = Option.none))) :=
  ⟨⟨rfl, c6_unwatch_finality.1 c6e1 0 rfl⟩,
   ⟨wfids_of_keys c6e1 (by decide), rfl,
    c6_unwatch_finality.2.1 c6acts2 300 c6e1 0 ((runActs 300 c6e2 c6acts2).getD c6e2)
      (wfids_of_keys c6e1 (by decide)) rfl rfl⟩⟩

/-! ## Parent-link stability of the interpreter -/

/-- The parent link recorded in a watcher entry (`none` when absent). -/
def parOf (e : Eng) (id : Nat) : Option (Option Nat) :=
  (alookup e.watchers id).map W.parent

theorem parOf_watchers_same {e e' : Eng} (h : e'.watchers = e.watchers) (id : Nat) :
    parOf e' id = parOf e id := by
  rw [parOf, parOf, h]

theorem wfids_updW (e : Eng) (j : Nat) (f : W → W) (hwf : WFids e) : WFids (updW e j f) := by
  intro x hx
  rw [alookup_updW] at hx
  rw [(updW_watchers_keep e j f).1]
  by_cases hj : x = j
  · rw [if_pos hj] at hx
    rw [hj]
    refine hwf j ?_
    match hl : alookup e.watchers j with
    | Option.none => rw [hl] at hx; simp at hx
    | some w0 => rfl
  · rw [if_neg hj] at hx
    exact hwf x hx

theorem parOf_updW (e : Eng) (j : Nat) (f : W → W)
    (hp : ∀ w, (f w).parent = w.parent) (id : Nat) :
    parOf (updW e j f) id = parOf e id := by
  rw [parOf, parOf, alookup_updW]
  by_cases hx : id = j
  · rw [if_pos hx, hx]
    match alookup e.watchers j with
    | Option.none => rfl
    | some w => simp [hp w]
  · rw [if_neg hx]

theorem parOf_updW_ne (e : Eng) (j : Nat) (f : W → W) (id : Nat) (hne : id ≠ j) :
    parOf (updW e j f) id = parOf e id := by
  rw [parOf, parOf, alookup_updW, if_neg hne]

theorem parOf_updObj (e : Eng) (a : Nat) (f : HObj → HObj) (id : Nat) :
    parOf (updObj e a f) id = parOf e id :=
  parOf_watchers_same (updObj_watchers e a f).1 id

theorem detachMark_watchers (e : Eng) (x : JVal) :
    (detachMark e x).watchers = e.watchers := by
  unfold detachMark
  repeat' split
  all_goals first
    | exact (updObj_watchers _ _ _).1
    | rfl

theorem idxRefresh_watchers (e : Eng) (b : Bool) (prop : String) (x : JVal) :
    (idxRefresh e b prop x).watchers = e.watchers := by
  unfold idxRefresh
  repeat' split
  all_goals first
    | exact (updObj_watchers _ _ _).1
    | rfl

theorem wrapChild_watchers (e : Eng) (a : Nat) (prop : String) (x : JVal) :
    (wrapChild e a prop x).watchers = e.watchers := by
  unfold wrapChild
  repeat' split
  all_goals first
    | exact (updObj_watchers _ _ _).1
    | rfl

theorem parOf_registerSub (e : Eng) (wid : Nat) (path : String) (id : Nat) :
    parOf (registerSub e wid path) id = parOf e id := by
  have h1 : parOf (registerSub e wid path) id =
      parOf (updW { e with pathSubs := aset e.pathSubs path (addOnce (subsOf e path) wid) }
        wid (fun w => { w with pathsSubs := addOnce w.pathsSubs path })) id := rfl
  rw [h1, parOf_updW { e with pathSubs := aset e.pathSubs path (addOnce (subsOf e path) wid) } wid (fun w => { w with pathsSubs := addOnce w.pathsSubs path }) (fun w => rfl) id]
  rfl

theorem parOf_finishRead (n : Nat) (e2 : Eng) (a : Nat) (prop : String) (tv : JVal)
    (propVal : JVal) (e' : Eng) (v : JVal)
    (h : finishRead n e2 a prop tv propVal = .ok e' v) (id : Nat) :
    parOf e' id = parOf e2 id := by
  unfold finishRead at h
  dsimp only at h
  have pw : parOf (wrapChild e2 a prop propVal) id = parOf e2 id :=
    parOf_watchers_same (wrapChild_watchers e2 a prop propVal) id
  match hact : (wrapChild e2 a prop propVal).active with
  | Option.none =>
    rw [hact] at h
    dsimp only at h
    cases h
    exact pw
  | some wid =>
    rw [hact] at h
    dsimp only at h
    match htv : toTgt tv with
    | .empty =>
      rw [htv] at h
      dsimp only at h
      cases h
      exact (parOf_registerSub _ wid prop id).trans pw
    | .obj a2 =>
      rw [htv] at h
      dsimp only at h
      match hp : getPath n (wrapChild e2 a prop propVal) a2 prop with
      | some path =>
        rw [hp] at h
        dsimp only at h
        cases h
        exact (parOf_registerSub _ wid path id).trans pw
      | Option.none =>
        rw [hp] at h
        simp at h

theorem wfids_push (e : Eng) (wNew : W) (hwf : WFids e) :
    WFids { e with nextId := e.nextId + 1, watchers := aset e.watchers e.nextId wNew } := by
  intro id hs
  simp only at hs ⊢
  by_cases hx : id = e.nextId
  · omega
  · rw [alookup_aset_ne e.watchers e.nextId id wNew (fun hh => hx hh.symm)] at hs
    have := hwf id hs
    omega

theorem parOf_push (e : Eng) (wNew : W) (id : Nat) (hlt : id < e.nextId) :
    parOf { e with nextId := e.nextId + 1, watchers := aset e.watchers e.nextId wNew } id =
      parOf e id := by
  rw [parOf, parOf]
  simp only
  rw [alookup_aset_ne e.watchers e.nextId id wNew (fun hh => by omega)]

/-- Conclusion of the parent-stability lemma: a `watcher.run` on `rid` may
set `rid`'s own parent link, every other pre-existing watcher keeps its
parent link; any other call keeps all pre-existing parent links. -/
def MPConc : Call → Eng → Eng → Prop
  | .runw rid => fun e e' => ∀ id, id < e.nextId → id ≠ rid → parOf e' id = parOf e id
  | _ => fun e e' => ∀ id, id < e.nextId → parOf e' id = parOf e id

/-- The `runw` tail of the parent-stability lemma. -/
theorem stepPar_runwCore (n : Nat)
    (ih : ∀ e c e' v, WFids e → step n e c = .ok e' v → MPConc c e e')
    (e : Eng) (rid : Nat) (w : W) (hwf : WFids e) (hrid : rid < e.nextId)
    (eA : Eng) (pPre : PureStep e eA)
    (hParA : ∀ id, id < e.nextId → id ≠ rid → parOf eA id = parOf e id)
    (old : Option Nat) (e' : Eng) (v : JVal)
    (hstep : (match step n (updW { { eA with
          pathSubs := w.pathsSubs.foldl (fun ps p => eraseSub ps p rid) eA.pathSubs }
          with active := some rid } rid (fun ww => { ww with runs := ww.runs + 1 }))
        (.exec w.tracked) with
      | .err => Res.err
      | .fuel => Res.fuel
      | .ok e5 result =>
        (match (match w.untracked with
          | UFn.none => Res.ok e5 JVal.undef
          | UFn.user f => step n { e5 with active := Option.none } (.exec (f result))
          | UFn.cache ca cprop =>
            match objAt { e5 with active := Option.none } ca with
            | Option.none => Res.err
            | some co =>
              match alookup co.fields ("@@" ++ cprop) with
              | Option.none =>
                Res.ok (updObj { e5 with active := Option.none } ca
                  (fun oo => { oo with
                    fields := aset oo.fields ("@@" ++ cprop) result })) JVal.undef
              | some x =>
                step n { e5 with active := Option.none }
                  (.pset ca ("@@" ++ cprop) result)) with
         | .ok e8 x => Res.ok { e8 with active := old } JVal.undef
         | .err => Res.err
         | .fuel => Res.fuel)) = .ok e' v) :
    ∀ id, id < e.nextId → id ≠ rid → parOf e' id = parOf e id := by
  have pB : PureStep e { { eA with
      pathSubs := w.pathsSubs.foldl (fun ps p => eraseSub ps p rid) eA.pathSubs }
      with active := some rid } :=
    pPre.trans (pureStep_of_same pPre.1.2.1 rfl rfl)
  have hParB : ∀ id, id < e.nextId → id ≠ rid → parOf { { eA with
      pathSubs := w.pathsSubs.foldl (fun ps p => eraseSub ps p rid) eA.pathSubs }
      with active := some rid } id = parOf e id :=
    fun id hid hne => hParA id hid hne
  have hwfC : WFids (updW { { eA with
      pathSubs := w.pathsSubs.foldl (fun ps p => eraseSub ps p rid) eA.pathSubs }
      with active := some rid } rid (fun ww => { ww with runs := ww.runs + 1 })) :=
    wfids_updW _ rid _ pB.1.2.1
  have hnC : (updW { { eA with
      pathSubs := w.pathsSubs.foldl (fun ps p => eraseSub ps p rid) eA.pathSubs }
      with active := some rid } rid (fun ww => { ww with runs := ww.runs + 1 })).nextId = eA.nextId :=
    (updW_watchers_keep _ rid _).1
  have hParC : ∀ id, id < e.nextId → id ≠ rid → parOf (updW { { eA with
      pathSubs := w.pathsSubs.foldl (fun ps p => eraseSub ps p rid) eA.pathSubs }
      with active := some rid } rid (fun ww => { ww with runs := ww.runs + 1 })) id = parOf e id :=
    fun id hid hne => (parOf_updW _ rid (fun ww => { ww with runs := ww.runs + 1 })
      (fun ww => rfl) id).trans (hParB id hid hne)
  match h1 : step n (updW { { eA with
      pathSubs := w.pathsSubs.foldl (fun ps p => eraseSub ps p rid) eA.pathSubs }
      with active := some rid } rid (fun ww => { ww with runs := ww.runs + 1 }))
      (.exec w.tracked) with
  | .err => rw [h1] at hstep; simp at hstep
  | .fuel => rw [h1] at hstep; simp at hstep
  | .ok e5 result =>
    rw [h1] at hstep
    dsimp only at hstep
    have p5 : PureStep _ e5 := stepMB n _ (.exec w.tracked) e5 result hwfC h1
    have q5 : ∀ id, id < e.nextId → id ≠ rid → parOf e5 id = parOf e id := by
      intro id hid hne
      have hb : id < (updW { { eA with
          pathSubs := w.pathsSubs.foldl (fun ps p => eraseSub ps p rid) eA.pathSubs }
          with active := some rid } rid (fun ww => { ww with runs := ww.runs + 1 })).nextId := by
        rw [hnC]
        exact Nat.lt_of_lt_of_le hid pPre.1.1
      exact (ih _ (.exec w.tracked) e5 result hwfC h1 id hb).trans (hParC id hid hne)
    have hmono5 : e.nextId ≤ e5.nextId := by
      refine Nat.le_trans ?_ p5.1.1
      rw [hnC]
      exact pPre.1.1
    have hwf5 : WFids e5 := p5.1.2.1
    match hu : w.untracked with
    | UFn.none =>
      rw [hu] at hstep
      dsimp only at hstep
      cases hstep
      exact fun id hid hne => q5 id hid hne
    | UFn.user f =>
      rw [hu] at hstep
      dsimp only at hstep
      match h2 : step n { e5 with active := Option.none } (.exec (f result)) with
      | .err => rw [h2] at hstep; simp at hstep
      | .fuel => rw [h2] at hstep; simp at hstep
      | .ok e7 x =>
        rw [h2] at hstep
        dsimp only at hstep
        cases hstep
        intro id hid hne
        have q7 := ih _ (.exec (f result)) e7 x
          (show WFids { e5 with active := Option.none } from hwf5) h2 id
          (Nat.lt_of_lt_of_le hid hmono5)
        exact (q7.trans (q5 id hid hne) : parOf e7 id = parOf e id)
    | UFn.cache ca cprop =>
      rw [hu] at hstep
      dsimp only at hstep
      match hco : objAt { e5 with active := Option.none } ca with
      | Option.none => rw [hco] at hstep; simp at hstep
      | some co =>
        rw [hco] at hstep
        dsimp only at hstep
        match hfs : alookup co.fields ("@@" ++ cprop) with
        | Option.none =>
          rw [hfs] at hstep
          dsimp only at hstep
          cases hstep
          intro id hid hne
          exact (parOf_updObj { e5 with active := Option.none } ca _ id).trans (q5 id hid hne)
        | some x =>
          rw [hfs] at hstep
          dsimp only at hstep
          match h2 : step n { e5 with active := Option.none }
              (.pset ca ("@@" ++ cprop) result) with
          | .err => rw [h2] at hstep; simp at hstep
          | .fuel => rw [h2] at hstep; simp at hstep
          | .ok e8 x2 =>
            rw [h2] at hstep
            dsimp only at hstep
            cases hstep
            intro id hid hne
            have q8 := ih _ (.pset ca ("@@" ++ cprop) result) e8 x2
              (show WFids { e5 with active := Option.none } from hwf5) h2 id
              (Nat.lt_of_lt_of_le hid hmono5)
            exact (q8.trans (q5 id hid hne) : parOf e8 id = parOf e id)

/-- The fresh-watcher case of the parent-stability lemma. -/
theorem stepPar_mkWatchCore (n : Nat)
    (ih : ∀ e c e' v, WFids e → step n e c = .ok e' v → MPConc c e e')
    (e E1 : Eng) (wNew : W) (hwf : WFids e)
    (e2 : Eng) (v2 : JVal)
    (hrun : step n E1 (.runw e.nextId) = .ok e2 v2)
    (hE1n : E1.nextId = e.nextId + 1)
    (hE1w : E1.watchers = aset e.watchers e.nextId wNew) :
    ∀ id, id < e.nextId → parOf e2 id = parOf e id := by
  have hwf1 : WFids E1 := by
    intro x hx
    rw [hE1w] at hx
    rw [hE1n]
    by_cases hj : x = e.nextId
    · omega
    · rw [alookup_aset_ne e.watchers e.nextId x wNew (fun hh => hj hh.symm)] at hx
      have := hwf x hx
      omega
  have qr := ih E1 (.runw e.nextId) e2 v2 hwf1 hrun
  intro id hid
  have hb : id < E1.nextId := by
    rw [hE1n]
    omega
  have hE1p : parOf E1 id = parOf e id := by
    rw [parOf, parOf, hE1w, alookup_aset_ne e.watchers e.nextId id wNew (fun hh => by omega)]
  exact (qr id hb (by omega)).trans hE1p

/-- Parent-link stability: a successful call changes the parent link of no
pre-existing watcher, except that `watcher.run` on `rid` may set `rid`'s own
parent (when invoked inside another active observer). -/
theorem stepPar : ∀ (n : Nat) (e : Eng) (c : Call) (e' : Eng) (v : JVal),
    WFids e → step n e c = .ok e' v → MPConc c e e' := by
  intro n
  induction n with
  | zero =>
    intro e c e' v hwf hstep
    simp [step] at hstep
  | succ n ih =>
    intro e c e' v hwf hstep
    match c with
    | .rget a prop =>
      show ∀ id, id < e.nextId → parOf e' id = parOf e id
      simp only [step] at hstep
      match ho : objAt e a with
      | Option.none =>
        rw [ho] at hstep
        simp at hstep
      | some o =>
        rw [ho] at hstep
        dsimp only at hstep
        match hf : alookup o.fields prop with
        | some w =>
          rw [hf] at hstep
          dsimp only at hstep
          cases hstep
          exact fun id hid => rfl
        | Option.none =>
          rw [hf] at hstep
          dsimp only at hstep
          match hg : alookup (descriptorsOf o) prop with
          | some g =>
            rw [hg] at hstep
            dsimp only at hstep
            exact ih e (.exec g) e' v hwf hstep
          | Option.none =>
            rw [hg] at hstep
            dsimp only at hstep
            cases hstep
            exact fun id hid => rfl
    | .exec p =>
      show ∀ id, id < e.nextId → parOf e' id = parOf e id
      simp only [step] at hstep
      cases p with
      | ret w =>
        cases hstep
        exact fun id hid => rfl
      | get a prop k =>
        dsimp only at hstep
        match h1 : step n e (.pget a prop) with
        | .ok e1 v1 =>
          rw [h1] at hstep
          dsimp only at hstep
          have p1 : PureStep e e1 := stepMB n e (.pget a prop) e1 v1 hwf h1
          have q1 := ih e (.pget a prop) e1 v1 hwf h1
          have q2 := ih e1 (.exec (k v1)) e' v p1.1.2.1 hstep
          exact fun id hid => (q2 id (Nat.lt_of_lt_of_le hid p1.1.1)).trans (q1 id hid)
        | .err => rw [h1] at hstep; simp at hstep
        | .fuel => rw [h1] at hstep; simp at hstep
      | set a prop vv k =>
        dsimp only at hstep
        match h1 : step n e (.pset a prop vv) with
        | .ok e1 v1 =>
          rw [h1] at hstep
          dsimp only at hstep
          have p1 : PureStep e e1 := stepMB n e (.pset a prop vv) e1 v1 hwf h1
          have q1 := ih e (.pset a prop vv) e1 v1 hwf h1
          have q2 := ih e1 (.exec k) e' v p1.1.2.1 hstep
          exact fun id hid => (q2 id (Nat.lt_of_lt_of_le hid p1.1.1)).trans (q1 id hid)
        | .err => rw [h1] at hstep; simp at hstep
        | .fuel => rw [h1] at hstep; simp at hstep
      | watchNew body k =>
        dsimp only at hstep
        match h1 : step n e (.mkWatch body UFn.none) with
        | .ok e1 v1 =>
          rw [h1] at hstep
          dsimp only at hstep
          have p1 : PureStep e e1 := stepMB n e (.mkWatch body UFn.none) e1 v1 hwf h1
          have q1 := ih e (.mkWatch body UFn.none) e1 v1 hwf h1
          have q2 := ih e1 (.exec k) e' v p1.1.2.1 hstep
          exact fun id hid => (q2 id (Nat.lt_of_lt_of_le hid p1.1.1)).trans (q1 id hid)
        | .err => rw [h1] at hstep; simp at hstep
        | .fuel => rw [h1] at hstep; simp at hstep
    | .dwalk cur props =>
      show ∀ id, id < e.nextId → parOf e' id = parOf e id
      simp only [step] at hstep
      cases props with
      | nil =>
        cases hstep
        exact fun id hid => rfl
      | cons p rest =>
        cases cur with
        | prim m => simp at hstep
        | empty =>
          dsimp only at hstep
          by_cases hr : rest = []
          · rw [if_pos hr] at hstep
            cases hstep
            exact fun id hid => rfl
          · rw [if_neg hr] at hstep
            exact ih e (.dwalk .empty rest) e' v hwf hstep
        | proxy a =>
          dsimp only at hstep
          have pskip : PureStep e (updObj e a (fun oo => { oo with skip := true })) :=
            pureStep_updObjOnly _ _ _ hwf
          match h1 : step n (updObj e a (fun oo => { oo with skip := true })) (.pget a p) with
          | .ok e1 item =>
            rw [h1] at hstep
            dsimp only at hstep
            have p1 : PureStep _ e1 := stepMB n _ (.pget a p) e1 item pskip.1.2.1 h1
            have q1 := ih _ (.pget a p) e1 item pskip.1.2.1 h1
            have hmono1 : e.nextId ≤ e1.nextId := Nat.le_trans pskip.1.1 p1.1.1
            have q01 : ∀ id, id < e.nextId → parOf e1 id = parOf e id := fun id hid =>
              (q1 id (Nat.lt_of_lt_of_le hid pskip.1.1)).trans (parOf_updObj e a _ id)
            have q02 : ∀ id, id < e.nextId →
                parOf (updObj e1 a (fun oo => { oo with skip := false })) id = parOf e id :=
              fun id hid => (parOf_updObj e1 a _ id).trans (q01 id hid)
            have hwf02 : WFids (updObj e1 a (fun oo => { oo with skip := false })) :=
              (pureStep_updObjOnly e1 a _ p1.1.2.1).1.2.1
            by_cases hr : rest = []
            · rw [if_pos hr] at hstep
              cases item with
              | ref c => cases hstep; exact q02
              | num m => cases hstep; exact q02
              | undef => cases hstep; exact q02
            · rw [if_neg hr] at hstep
              have hmono2 : e.nextId ≤ (updObj e1 a (fun oo => { oo with skip := false })).nextId := by
                have hkk := (updObj_watchers e1 a (fun oo => { oo with skip := false })).2.1
                omega
              cases item with
              | ref c =>
                have q3 := ih _ (.dwalk (.proxy c) rest) e' v hwf02 hstep
                exact fun id hid =>
                  (q3 id (Nat.lt_of_lt_of_le hid hmono2)).trans (q02 id hid)
              | num m =>
                have q3 := ih _ (.dwalk (.prim m) rest) e' v hwf02 hstep
                exact fun id hid =>
                  (q3 id (Nat.lt_of_lt_of_le hid hmono2)).trans (q02 id hid)
              | undef =>
                have q3 := ih _ (.dwalk .empty rest) e' v hwf02 hstep
                exact fun id hid =>
                  (q3 id (Nat.lt_of_lt_of_le hid hmono2)).trans (q02 id hid)
          | .err => rw [h1] at hstep; simp at hstep
          | .fuel => rw [h1] at hstep; simp at hstep
    | .pset a prop vv =>
      show ∀ id, id < e.nextId → parOf e' id = parOf e id
      simp only [step] at hstep
      match ho : objAt e a with
      | Option.none => rw [ho] at hstep; simp at hstep
      | some o =>
        rw [ho] at hstep
        dsimp only at hstep
        match h1 : step n e (.rget a prop) with
        | .err => rw [h1] at hstep; simp at hstep
        | .fuel => rw [h1] at hstep; simp at hstep
        | .ok e1 oldValue =>
          rw [h1] at hstep
          dsimp only at hstep
          have p1 : PureStep e e1 := stepMB n e (.rget a prop) e1 oldValue hwf h1
          have q1 := ih e (.rget a prop) e1 oldValue hwf h1
          have q3 : ∀ id, id < e.nextId →
              parOf (idxRefresh (detachMark e1 oldValue) o.isArr prop vv) id = parOf e id :=
            fun id hid =>
              ((parOf_watchers_same (idxRefresh_watchers _ o.isArr prop vv) id).trans
                (parOf_watchers_same (detachMark_watchers e1 oldValue) id)).trans (q1 id hid)
          match hg : alookup (descriptorsOf o) prop with
          | some g => rw [hg] at hstep; simp at hstep
          | Option.none =>
            rw [hg] at hstep
            dsimp only at hstep
            have q4 : ∀ id, id < e.nextId →
                parOf (updObj (idxRefresh (detachMark e1 oldValue) o.isArr prop vv)
                  a (fun oo => { oo with fields := aset oo.fields prop vv })) id =
                parOf e id :=
              fun id hid => (parOf_updObj _ a _ id).trans (q3 id hid)
            by_cases htr : (looseEq vv oldValue = false ∨ prop = "length")
            · rw [if_pos htr] at hstep
              split at hstep
              · rename_i e5 hcw
                cases hstep
                have hk := callWatchers_keep _ _ _ _ _ hcw
                exact fun id hid => (parOf_watchers_same hk.1 id).trans (q4 id hid)
              · simp at hstep
            · rw [if_neg htr] at hstep
              cases hstep
              exact q4
    | .pget a prop =>
      show ∀ id, id < e.nextId → parOf e' id = parOf e id
      simp only [step] at hstep
      match ho : objAt e a with
      | Option.none => rw [ho] at hstep; simp at hstep
      | some o =>
        rw [ho] at hstep
        dsimp only at hstep
        by_cases hraw : prop = "__raw"
        · rw [if_pos hraw] at hstep
          cases hstep
          exact fun id hid => rfl
        · rw [if_neg hraw] at hstep
          match hg : alookup (descriptorsOf o) prop with
          | Option.none =>
            rw [hg] at hstep
            dsimp only at hstep
            exact ih e (.pgetRest a prop) e' v hwf hstep
          | some g =>
            rw [hg] at hstep
            dsimp only at hstep
            by_cases hpar : o.parent = Option.none
            · rw [if_pos hpar] at hstep
              match hact : e.active with
              | Option.none =>
                rw [hact] at hstep
                dsimp only at hstep
                exact ih e (.exec g) e' v hwf hstep
              | some aw =>
                rw [hact] at hstep
                dsimp only at hstep
                match hgw : alookup e.getterW (a, prop) with
                | some wid =>
                  rw [hgw] at hstep
                  dsimp only at hstep
                  exact ih e (.pgetRest a ("@@" ++ prop)) e' v hwf hstep
                | Option.none =>
                  rw [hgw] at hstep
                  dsimp only at hstep
                  match h1 : step n { e with active := Option.none }
                      (.mkWatch g (UFn.cache a prop)) with
                  | .err => rw [h1] at hstep; simp at hstep
                  | .fuel => rw [h1] at hstep; simp at hstep
                  | .ok e2 v2 =>
                    rw [h1] at hstep
                    dsimp only at hstep
                    have hwfa : WFids { e with active := Option.none } := hwf
                    have p2 : PureStep _ e2 :=
                      stepMB n _ (.mkWatch g (UFn.cache a prop)) e2 v2 hwfa h1
                    have q2 := ih _ (.mkWatch g (UFn.cache a prop)) e2 v2 hwfa h1
                    have hmono2 : e.nextId ≤ e2.nextId := p2.1.1
                    have q3 : ∀ id, id < e.nextId →
                        parOf (updW e2 e.nextId
                          (fun w => { w with onRemove := some (a, prop) })) id =
                        parOf e id :=
                      fun id hid =>
                        (parOf_updW e2 e.nextId
                          (fun w => { w with onRemove := some (a, prop) })
                          (fun w => rfl) id).trans (q2 id hid)
                    have hwf4 : WFids { updW e2 e.nextId
                        (fun w => { w with onRemove := some (a, prop) }) with
                        getterW := aset (updW e2 e.nextId
                          (fun w => { w with onRemove := some (a, prop) })).getterW
                          (a, prop) e.nextId,
                        active := some aw } := by
                      intro x hx
                      exact (wfids_updW e2 e.nextId _ p2.1.2.1) x hx
                    have q5 := ih _ (.pgetRest a ("@@" ++ prop)) e' v hwf4 hstep
                    intro id hid
                    have hb : id < (updW e2 e.nextId
                        (fun w => { w with onRemove := some (a, prop) })).nextId := by
                      rw [(updW_watchers_keep e2 e.nextId _).1]
                      exact Nat.lt_of_lt_of_le hid hmono2
                    exact (q5 id hb).trans (q3 id hid)
            · rw [if_neg hpar] at hstep
              exact ih e (.pgetRest a prop) e' v hwf hstep
    | .pgetRest a prop =>
      show ∀ id, id < e.nextId → parOf e' id = parOf e id
      simp only [step] at hstep
      match ho : objAt e a with
      | Option.none => rw [ho] at hstep; simp at hstep
      | some o =>
        rw [ho] at hstep
        dsimp only at hstep
        by_cases hcond : (o.skip = false ∧ o.parent.isSome = true)
        · rw [if_pos hcond] at hstep
          match hup : upWalk n e a with
          | Option.none => rw [hup] at hstep; simp at hstep
          | some (props, root, det) =>
            rw [hup] at hstep
            dsimp only at hstep
            by_cases hdet : det = true
            · rw [if_pos hdet] at hstep
              match h1 : step n e (.dwalk (.proxy root) props.reverse) with
              | .err => rw [h1] at hstep; simp at hstep
              | .fuel => rw [h1] at hstep; simp at hstep
              | .ok e1 tv =>
                rw [h1] at hstep
                dsimp only at hstep
                have pA : PureStep e e1 := stepMB n e (.dwalk (.proxy root) props.reverse) e1 tv hwf h1
                have qA := ih e (.dwalk (.proxy root) props.reverse) e1 tv hwf h1
                match htv : toTgt tv with
                | .empty =>
                  rw [htv] at hstep
                  dsimp only at hstep
                  exact fun id hid =>
                    (parOf_finishRead n e1 a prop tv .undef e' v hstep id).trans (qA id hid)
                | .obj a2 =>
                  rw [htv] at hstep
                  dsimp only at hstep
                  match h2 : step n e1 (.rget a2 prop) with
                  | .err => rw [h2] at hstep; simp at hstep
                  | .fuel => rw [h2] at hstep; simp at hstep
                  | .ok e2 propVal =>
                    rw [h2] at hstep
                    dsimp only at hstep
                    have qB := ih e1 (.rget a2 prop) e2 propVal pA.1.2.1 h2
                    exact fun id hid =>
                      ((parOf_finishRead n e2 a prop tv propVal e' v hstep id).trans
                        (qB id (Nat.lt_of_lt_of_le hid pA.1.1))).trans (qA id hid)
            · rw [if_neg hdet] at hstep
              simp only [toTgt] at hstep
              match h2 : step n e (.rget a prop) with
              | .err => rw [h2] at hstep; simp at hstep
              | .fuel => rw [h2] at hstep; simp at hstep
              | .ok e2 propVal =>
                rw [h2] at hstep
                dsimp only at hstep
                have qB := ih e (.rget a prop) e2 propVal hwf h2
                exact fun id hid =>
                  (parOf_finishRead n e2 a prop (.ref a) propVal e' v hstep id).trans
                    (qB id hid)
        · rw [if_neg hcond] at hstep
          simp only [toTgt] at hstep
          match h2 : step n e (.rget a prop) with
          | .err => rw [h2] at hstep; simp at hstep
          | .fuel => rw [h2] at hstep; simp at hstep
          | .ok e2 propVal =>
            rw [h2] at hstep
            dsimp only at hstep
            have qB := ih e (.rget a prop) e2 propVal hwf h2
            exact fun id hid =>
              (parOf_finishRead n e2 a prop (.ref a) propVal e' v hstep id).trans
                (qB id hid)
    | .mkWatch tracked ufn =>
      show ∀ id, id < e.nextId → parOf e' id = parOf e id
      simp only [step] at hstep
      split at hstep
      · rename_i ee vv hrun
        cases hstep
        exact stepPar_mkWatchCore n ih e _ _ hwf _ _ hrun rfl rfl
      · simp at hstep
      · simp at hstep
    | .runw rid =>
      show ∀ id, id < e.nextId → id ≠ rid → parOf e' id = parOf e id
      simp only [step] at hstep
      match hw : alookup e.watchers rid with
      | Option.none => rw [hw] at hstep; simp at hstep
      | some w =>
        rw [hw] at hstep
        dsimp only at hstep
        have hrid : rid < e.nextId := hwf rid (by rw [hw]; rfl)
        match hact : e.active with
        | some pid =>
          rw [hact] at hstep
          dsimp only at hstep
          refine stepPar_runwCore n ih e rid w hwf hrid
            (updW (updW e rid (fun ww => { ww with parent := some pid })) pid
              (fun pw => { pw with children := pw.children ++ [rid] }))
            ((pureStep_of_updW e rid (fun ww => { ww with parent := some pid }) hwf
                (fun x => rfl) (fun x => rfl)).trans
              (pureStep_of_updW (updW e rid (fun ww => { ww with parent := some pid })) pid
                (fun pw => { pw with children := pw.children ++ [rid] })
                (pureStep_of_updW e rid (fun ww => { ww with parent := some pid }) hwf
                  (fun x => rfl) (fun x => rfl)).1.2.1
                (fun x => rfl) (fun x => rfl)))
            ?_ (some pid) e' v hstep
          intro id hid hne
          exact (parOf_updW (updW e rid (fun ww => { ww with parent := some pid })) pid
            (fun pw => { pw with children := pw.children ++ [rid] })
            (fun pw => rfl) id).trans
            (parOf_updW_ne e rid (fun ww => { ww with parent := some pid }) id hne)
        | Option.none =>
          rw [hact] at hstep
          dsimp only at hstep
          exact stepPar_runwCore n ih e rid w hwf hrid e (PureStep.refl e hwf)
            (fun id hid hne => rfl) Option.none e' v hstep

/-! ## Read-only drains: at most one execution per pending observer -/

/-- In a read-only engine, a drain never runs an observer that is not in the
still-to-visit part of the flush queue. -/
theorem drainLoop_ro_out : ∀ (n : Nat) (e : Eng) (calls : List (Nat × Nat))
    (e' : Eng) (v : JVal), WFids e → ROEng e → drainLoop n e calls = .ok e' v →
    ∀ id, id < e.nextId → id ∉ e.flushRest → wrunsOf e' id = wrunsOf e id := by
  intro n
  induction n with
  | zero =>
    intro e calls e' v hwf hro h
    simp [drainLoop] at h
  | succ n ih =>
    intro e calls e' v hwf hro h
    simp only [drainLoop] at h
    match hrest : e.flushRest with
    | [] =>
      rw [hrest] at h
      dsimp only at h
      cases h
      intro id hid hmem
      rfl
    | cur :: rest =>
      rw [hrest] at h
      dsimp only at h
      have hwf1 : WFids { e with flushFront := e.flushFront ++ [cur], flushRest := rest } := hwf
      have hro1 : ROEng { e with flushFront := e.flushFront ++ [cur], flushRest := rest } := hro
      intro id hid hmem
      have hne : id ≠ cur := fun hh => hmem (hh ▸ List.mem_cons_self cur rest)
      have hnr : id ∉ rest := fun hh => hmem (List.mem_cons_of_mem cur hh)
      match hw : alookup e.watchers cur with
      | Option.none =>
        rw [hw] at h
        dsimp only at h
        exact ih { e with flushFront := e.flushFront ++ [cur], flushRest := rest } calls e' v hwf1 hro1 h id hid hnr
      | some w =>
        rw [hw] at h
        dsimp only at h
        by_cases hunw : w.unwatched = true
        · rw [if_pos hunw] at h
          exact ih { e with flushFront := e.flushFront ++ [cur], flushRest := rest } calls e' v hwf1 hro1 h id hid hnr
        · rw [if_neg hunw] at h
          by_cases hpp : (match w.parent with
              | some pid => decide (pid ∈ e.flushFront ++ [cur] ++ rest)
              | Option.none => false) = true
          · rw [if_pos hpp] at h
            exact ih { e with flushFront := e.flushFront ++ [cur], flushRest := rest } calls e' v hwf1 hro1 h id hid hnr
          · rw [if_neg hpp] at h
            by_cases hcnt : 500 < (alookup calls cur).getD 0 + 1
            · rw [if_pos hcnt] at h
              have hwfW : WFids { e with flushFront := e.flushFront ++ [cur], flushRest := rest, warns := e.warns ++ [cur] } := hwf
              have hroW : ROEng { e with flushFront := e.flushFront ++ [cur], flushRest := rest, warns := e.warns ++ [cur] } := hro
              exact ih { e with flushFront := e.flushFront ++ [cur], flushRest := rest, warns := e.warns ++ [cur] } (aset calls cur ((alookup calls cur).getD 0 + 1)) e' v hwfW hroW h id hid hnr
            · rw [if_neg hcnt] at h
              match h2 : step n { e with flushFront := e.flushFront ++ [cur], flushRest := rest } (.runw cur) with
              | .err => rw [h2] at h; simp at h
              | .fuel => rw [h2] at h; simp at h
              | .ok e2 v2 =>
                rw [h2] at h
                dsimp only at h
                have hr : RunStep cur { e with flushFront := e.flushFront ++ [cur], flushRest := rest } e2 :=
                  stepMB n _ (.runw cur) e2 v2 hwf1 h2
                have hq : QRO { e with flushFront := e.flushFront ++ [cur], flushRest := rest } e2 :=
                  stepRO n _ (.runw cur) e2 v2 hro1 trivial h2
                have hnr2 : id ∉ e2.flushRest := by
                  rw [hq.2.1]
                  exact hnr
                have hres := ih e2 (aset calls cur ((alookup calls cur).getD 0 + 1)) e' v
                  hr.1.2.1 hq.2.2.2 h id (Nat.lt_of_lt_of_le hid hr.1.1) hnr2
                rw [hres]
                exact hr.2.1 id hid hne

/-- In a read-only engine whose pending set is duplicate-free, a drain runs
every observer at most once. -/
theorem drainLoop_ro_once : ∀ (n : Nat) (e : Eng) (calls : List (Nat × Nat))
    (e' : Eng) (v : JVal), WFids e → ROEng e → e.flushRest.Nodup →
    drainLoop n e calls = .ok e' v →
    ∀ id, id < e.nextId → runsOf e' id ≤ runsOf e id + 1 := by
  intro n
  induction n with
  | zero =>
    intro e calls e' v hwf hro hnd h
    simp [drainLoop] at h
  | succ n ih =>
    intro e calls e' v hwf hro hnd h
    simp only [drainLoop] at h
    match hrest : e.flushRest with
    | [] =>
      rw [hrest] at h
      dsimp only at h
      cases h
      intro id hid
      exact Nat.le_succ _
    | cur :: rest =>
      rw [hrest] at h
      dsimp only at h
      rw [hrest] at hnd
      have hcnr : cur ∉ rest := (List.nodup_cons.mp hnd).1
      have hndr : rest.Nodup := (List.nodup_cons.mp hnd).2
      have hwf1 : WFids { e with flushFront := e.flushFront ++ [cur], flushRest := rest } := hwf
      have hro1 : ROEng { e with flushFront := e.flushFront ++ [cur], flushRest := rest } := hro
      intro id hid
      match hw : alookup e.watchers cur with
      | Option.none =>
        rw [hw] at h
        dsimp only at h
        exact ih { e with flushFront := e.flushFront ++ [cur], flushRest := rest } calls e' v hwf1 hro1 hndr h id hid
      | some w =>
        rw [hw] at h
        dsimp only at h
        by_cases hunw : w.unwatched = true
        · rw [if_pos hunw] at h
          exact ih { e with flushFront := e.flushFront ++ [cur], flushRest := rest } calls e' v hwf1 hro1 hndr h id hid
        · rw [if_neg hunw] at h
          by_cases hpp : (match w.parent with
              | some pid => decide (pid ∈ e.flushFront ++ [cur] ++ rest)
              | Option.none => false) = true
          · rw [if_pos hpp] at h
            exact ih { e with flushFront := e.flushFront ++ [cur], flushRest := rest } calls e' v hwf1 hro1 hndr h id hid
          · rw [if_neg hpp] at h
            by_cases hcnt : 500 < (alookup calls cur).getD 0 + 1
            · rw [if_pos hcnt] at h
              have hwfW : WFids { e with flushFront := e.flushFront ++ [cur], flushRest := rest, warns := e.warns ++ [cur] } := hwf
              have hroW : ROEng { e with flushFront := e.flushFront ++ [cur], flushRest := rest, warns := e.warns ++ [cur] } := hro
              exact ih { e with flushFront := e.flushFront ++ [cur], flushRest := rest, warns := e.warns ++ [cur] } (aset calls cur ((alookup calls cur).getD 0 + 1)) e' v hwfW hroW hndr h id hid
            · rw [if_neg hcnt] at h
              match h2 : step n { e with flushFront := e.flushFront ++ [cur], flushRest := rest } (.runw cur) with
              | .err => rw [h2] at h; simp at h
              | .fuel => rw [h2] at h; simp at h
              | .ok e2 v2 =>
                rw [h2] at h
                dsimp only at h
                have hr : RunStep cur { e with flushFront := e.flushFront ++ [cur], flushRest := rest } e2 :=
                  stepMB n _ (.runw cur) e2 v2 hwf1 h2
                have hq : QRO { e with flushFront := e.flushFront ++ [cur], flushRest := rest } e2 :=
                  stepRO n _ (.runw cur) e2 v2 hro1 trivial h2
                by_cases hx : id = cur
                · subst hx
                  have hcurrun : runsOf e2 id = w.runs + 1 := hr.2.2 w hw
                  have hein : runsOf e id = w.runs := by
                    rw [runsOf_eq_getD, wrunsOf, hw]
                    rfl
                  have hout := drainLoop_ro_out n e2
                    (aset calls id ((alookup calls id).getD 0 + 1)) e' v
                    hr.1.2.1 hq.2.2.2 h id (Nat.lt_of_lt_of_le hid hr.1.1)
                    (by rw [hq.2.1]; exact hcnr)
                  rw [runsOf_eq_getD, hout, ← runsOf_eq_getD, hcurrun, hein]
                · have hsame : wrunsOf e2 id = wrunsOf { e with flushFront := e.flushFront ++ [cur], flushRest := rest } id :=
                    hr.2.1 id hid hx
                  have h22 : runsOf e2 id = runsOf e id := by
                    rw [runsOf_eq_getD, hsame]
                    rfl
                  have hres := ih e2 (aset calls cur ((alookup calls cur).getD 0 + 1)) e' v
                    hr.1.2.1 hq.2.2.2 (by rw [hq.2.1]; exact hndr) h id
                    (Nat.lt_of_lt_of_le hid hr.1.1)
                  rw [h22] at hres
                  exact hres

/-- In a read-only engine, an observer whose parent id is anywhere in the
flush queue (already visited or still pending) is never executed by the
drain: parent invalidation subsumes child invalidation. -/
theorem drainLoop_ro_parent : ∀ (n : Nat) (e : Eng) (calls : List (Nat × Nat))
    (e' : Eng) (v : JVal), WFids e → ROEng e → drainLoop n e calls = .ok e' v →
    ∀ id pid w, id < e.nextId → alookup e.watchers id = some w →
    w.parent = some pid → pid ∈ e.flushFront ++ e.flushRest →
    wrunsOf e' id = wrunsOf e id := by
  intro n
  induction n with
  | zero =>
    intro e calls e' v hwf hro h
    simp [drainLoop] at h
  | succ n ih =>
    intro e calls e' v hwf hro h
    simp only [drainLoop] at h
    match hrest : e.flushRest with
    | [] =>
      rw [hrest] at h
      dsimp only at h
      cases h
      intro id pid w hid hw hp hmem
      rfl
    | cur :: rest =>
      rw [hrest] at h
      dsimp only at h
      have hwf1 : WFids { e with flushFront := e.flushFront ++ [cur], flushRest := rest } := hwf
      have hro1 : ROEng { e with flushFront := e.flushFront ++ [cur], flushRest := rest } := hro
      intro id pid w hid hw hp hmem
      have hmem1 : pid ∈ e.flushFront ++ [cur] ++ rest := by
        simp only [List.mem_append, List.mem_cons, List.mem_singleton] at hmem ⊢
        tauto
      match hwc : alookup e.watchers cur with
      | Option.none =>
        rw [hwc] at h
        dsimp only at h
        exact ih { e with flushFront := e.flushFront ++ [cur], flushRest := rest } calls e' v hwf1 hro1 h id pid w hid hw hp hmem1
      | some wc =>
        rw [hwc] at h
        dsimp only at h
        by_cases hunw : wc.unwatched = true
        · rw [if_pos hunw] at h
          exact ih { e with flushFront := e.flushFront ++ [cur], flushRest := rest } calls e' v hwf1 hro1 h id pid w hid hw hp hmem1
        · rw [if_neg hunw] at h
          by_cases hpp : (match wc.parent with
              | some pid2 => decide (pid2 ∈ e.flushFront ++ [cur] ++ rest)
              | Option.none => false) = true
          · rw [if_pos hpp] at h
            exact ih { e with flushFront := e.flushFront ++ [cur], flushRest := rest } calls e' v hwf1 hro1 h id pid w hid hw hp hmem1
          · rw [if_neg hpp] at h
            have hne : id ≠ cur := by
              intro hh
              subst hh
              rw [hw] at hwc
              cases hwc
              apply hpp
              rw [hp]
              simp only [decide_eq_true_eq]
              exact hmem1
            by_cases hcnt : 500 < (alookup calls cur).getD 0 + 1
            · rw [if_pos hcnt] at h
              have hwfW : WFids { e with flushFront := e.flushFront ++ [cur], flushRest := rest, warns := e.warns ++ [cur] } := hwf
              have hroW : ROEng { e with flushFront := e.flushFront ++ [cur], flushRest := rest, warns := e.warns ++ [cur] } := hro
              exact ih { e with flushFront := e.flushFront ++ [cur], flushRest := rest, warns := e.warns ++ [cur] } (aset calls cur ((alookup calls cur).getD 0 + 1)) e' v hwfW hroW h id pid w hid hw hp hmem1
            · rw [if_neg hcnt] at h
              match h2 : step n { e with flushFront := e.flushFront ++ [cur], flushRest := rest } (.runw cur) with
              | .err => rw [h2] at h; simp at h
              | .fuel => rw [h2] at h; simp at h
              | .ok e2 v2 =>
                rw [h2] at h
                dsimp only at h
                have hr : RunStep cur { e with flushFront := e.flushFront ++ [cur], flushRest := rest } e2 :=
                  stepMB n _ (.runw cur) e2 v2 hwf1 h2
                have hq : QRO { e with flushFront := e.flushFront ++ [cur], flushRest := rest } e2 :=
                  stepRO n _ (.runw cur) e2 v2 hro1 trivial h2
                have hpar : parOf e2 id = parOf { e with flushFront := e.flushFront ++ [cur], flushRest := rest } id :=
                  stepPar n _ (.runw cur) e2 v2 hwf1 h2 id hid hne
                have hpe : parOf { e with flushFront := e.flushFront ++ [cur], flushRest := rest } id = some (some pid) := by
                  rw [parOf]
                  simp only
                  rw [hw]
                  simp only [Option.map_some']
                  rw [hp]
                rw [hpe] at hpar
                have hw2 : ∃ w2, alookup e2.watchers id = some w2 ∧ w2.parent = some pid := by
                  rw [parOf] at hpar
                  match hl2 : alookup e2.watchers id with
                  | Option.none => rw [hl2] at hpar; simp at hpar
                  | some w2 =>
                    rw [hl2] at hpar
                    simp only [Option.map_some', Option.some.injEq] at hpar
                    exact ⟨w2, rfl, hpar⟩
                obtain ⟨w2, hlw2, hpw2⟩ := hw2
                have hmem2 : pid ∈ e2.flushFront ++ e2.flushRest := by
                  rw [hq.1, hq.2.1]
                  exact hmem1
                have hres := ih e2 (aset calls cur ((alookup calls cur).getD 0 + 1)) e' v
                  hr.1.2.1 hq.2.2.2 h id pid w2 (Nat.lt_of_lt_of_le hid hr.1.1)
                  hlw2 hpw2 hmem2
                rw [hres]
                exact hr.2.1 id hid hne

theorem alookup_mem {K V : Type} [DecidableEq K] :
    ∀ (l : List (K × V)) (k : K) (v : V), alookup l k = some v → (k, v) ∈ l := by
  intro l
  induction l with
  | nil =>
    intro k v h
    simp [alookup] at h
  | cons hd t ihl =>
    intro k v h
    simp only [alookup] at h
    by_cases hx : hd.1 = k
    · rw [if_pos hx] at h
      cases h
      subst hx
      simp
    · rw [if_neg hx] at h
      exact List.mem_cons_of_mem _ (ihl k v h)

/-- Read-onlyness of a concrete engine from checkable key lists plus explicit
read-only proofs for each watcher body. -/
theorem roeng_of_checks (e : Eng) (ks : List Nat)
    (h1 : ∀ p ∈ e.heap, (p.2 : HObj).getters.length = 0)
    (hk : ∀ p ∈ e.watchers, (p.1 : Nat) ∈ ks)
    (ht : ∀ k, k ∈ ks → ∀ w, alookup e.watchers k = some w →
        ROProg w.tracked ∧ w.untracked = UFn.none) :
    ROEng e := by
  constructor
  · intro a o ho
    have hm := alookup_mem e.heap a o ho
    have h0 := h1 (a, o) hm
    exact List.length_eq_zero.mp h0
  · intro id w hw
    exact ht id (hk (id, w) (alookup_mem e.watchers id w hw)) w hw

/-! ## C2 scenario: three synchronous writes, then one flush -/

/-- An observer reading both `x` and `y`. -/
def c2body : Prog := .get 0 "x" (fun xv => .get 0 "y" (fun yv => .ret .undef))

def c2e0 : Eng := mkEng [(0, flatObj [("x", .num 0), ("y", .num 0)])]

def c2e1 : Eng := getE (watchP 100 c2e0 c2body)

/-- Three writes before yielding: `x = 1; x = 2; y = 5`. -/
def c2w3 : Prog := .set 0 "x" (.num 1) (.set 0 "x" (.num 2) (.set 0 "y" (.num 5) (.ret .undef)))

def c2e2 : Eng := getE (runScript 100 c2e1 c2w3)

def c2e3 : Eng := getE (drain 300 c2e2)

theorem c2body_ro : ROProg c2body :=
  ROProg.get 0 "x" _ (fun xv => ROProg.get 0 "y" _ (fun yv => ROProg.ret .undef))

/-- C2: a synchronous script (any sequence of reads and writes) never runs a
pre-existing observer - observer executions happen only in the flush after
the microtask boundary; and when every registered observer is read-only
(no reactive writes, no untracked callback, no computed properties in the
store), a single flush over a duplicate-free pending set runs each observer
at most once.  Concretely, three writes touching the tracked paths of one
observer leave its run counter untouched and enqueue it once, and the
subsequent flush runs it exactly once more, not three times. -/
theorem c2_write_batching :
    (∀ (fuel : Nat) (e : Eng) (p : Prog) (e' : Eng) (v : JVal) (id : Nat),
        WFids e → runScript fuel e p = .ok e' v → id < e.nextId →
        wrunsOf e' id = wrunsOf e id) ∧
    (∀ (fuel : Nat) (e e' : Eng) (v : JVal) (id : Nat),
        WFids e → ROEng e → e.flushRest.Nodup → drain fuel e = .ok e' v →
        id < e.nextId → runsOf e' id ≤ runsOf e id + 1) ∧
    (runsOf c2e1 0 = 1 ∧ runsOf c2e2 0 = 1 ∧ queueOf c2e2 = [0] ∧
     runsOf c2e3 0 = 2 ∧ queueOf c2e3 = []) := by
  refine ⟨?_, ?_, by decide⟩
  · intro fuel e p e' v id hwf h hid
    exact (stepMB fuel e (.exec p) e' v hwf h).2 id hid
  · intro fuel e e' v id hwf hro hnd h hid
    exact drainLoop_ro_once fuel e [] e' v hwf hro hnd h id hid

theorem c2_write_batching_witness :
    (WFids c2e1 ∧ runScript 100 c2e1 c2w3 = .ok c2e2 .undef ∧ 0 < c2e1.nextId ∧
     wrunsOf c2e2 0 = wrunsOf c2e1 0) ∧
    (WFids c2e2 ∧ ROEng c2e2 ∧ c2e2.flushRest.Nodup ∧
     drain 300 c2e2 = .ok c2e3 .undef ∧ 0 < c2e2.nextId ∧
     runsOf c2e3 0 ≤ runsOf c2e2 0 + 1) := by
  have hwf1 : WFids c2e1 := wfids_of_keys c2e1 (by decide)
  have hwf2 : WFids c2e2 := wfids_of_keys c2e2 (by decide)
  have hro2 : ROEng c2e2 := by
    refine roeng_of_checks c2e2 [0] (by decide) (by decide) ?_
    intro k hkm w hw
    simp only [List.mem_singleton] at hkm
    subst hkm
    have htr : (alookup c2e2.watchers 0).map W.tracked = some c2body := rfl
    have htu : (alookup c2e2.watchers 0).map W.untracked = some UFn.none := rfl
    rw [hw] at htr htu
    simp only [Option.map_some', Option.some.injEq] at htr htu
    rw [htr, htu]
    exact ⟨c2body_ro, rfl⟩
  refine ⟨⟨hwf1, rfl, by decide, ?_⟩, ⟨hwf2, hro2, by decide, rfl, by decide, ?_⟩⟩
  · exact c2_write_batching.1 100 c2e1 c2w3 c2e2 .undef 0 hwf1 rfl (by decide)
  · exact c2_write_batching.2.1 300 c2e2 c2e3 .undef 0 hwf2 hro2 (by decide) rfl (by decide)

/-! ## C4 scenario: parent and child pending in the same batch -/

/-- A parent observer reading `x` that creates a nested child observer
reading `y` on each of its runs. -/
def c4parent : Prog :=
  .get 0 "x" (fun xv => .watchNew (.get 0 "y" (fun yv => .ret .undef)) (.ret .undef))

def c4e0 : Eng := mkEng [(0, flatObj [("x", .num 0), ("y", .num 0)])]

/-- Parent gets id 0; its initial run creates the child with id 1. -/
def c4e1 : Eng := getE (watchP 100 c4e0 c4parent)

/-- One script invalidating both: write `x` (parent) and `y` (child). -/
def c4e2 : Eng := getE (runScript 100 c4e1 (.set 0 "x" (.num 1) (.set 0 "y" (.num 7) (.ret .undef))))

def c4e3 : Eng := getE (drain 400 c4e2)

/-- A default watcher record used only to name lookup results. -/
def w0 : W :=
  { tracked := .ret .undef, untracked := UFn.none, parent := Option.none,
    children := [], pathsSubs := [], unwatched := false,
    onRemove := Option.none, runs := 0 }

def c4cw : W := (alookup c4e2.watchers 1).getD w0

theorem c4parent_ro : ROProg c4parent :=
  ROProg.get 0 "x" _ (fun xv =>
    ROProg.watchNew _ _
      (ROProg.get 0 "y" _ (fun yv => ROProg.ret .undef))
      (ROProg.ret .undef))

/-- C4: in a read-only engine, a flush drain never executes an observer whose
parent id is anywhere in the same batch (visited or still pending) - the
parent's execution subsumes it.  Concretely, with parent (id 0, reading `x`,
spawning a child per run) and child (id 1, reading `y`) both pending after
writes to `x` and `y`, the drain runs only the parent (its counter 1 to 2),
leaves the pending child's counter at 1, and the refresh happens through a
fresh replacement child (id 2, one run) created by the parent's re-run. -/
theorem c4_parent_subsumption :
    (∀ (fuel : Nat) (e e' : Eng) (v : JVal) (id pid : Nat) (w : W),
        WFids e → ROEng e → drain fuel e = .ok e' v →
        id < e.nextId → alookup e.watchers id = some w → w.parent = some pid →
        pid ∈ queueOf e → wrunsOf e' id = wrunsOf e id) ∧
    (queueOf c4e2 = [0, 1] ∧ parOf c4e2 1 = some (some 0) ∧
     runsOf c4e2 0 = 1 ∧ runsOf c4e2 1 = 1 ∧ c4e2.nextId = 2 ∧
     runsOf c4e3 0 = 2 ∧ runsOf c4e3 1 = 1 ∧ runsOf c4e3 2 = 1 ∧
     c4e3.nextId = 3) := by
  refine ⟨?_, by decide⟩
  intro fuel e e' v id pid w hwf hro h hid hw hp hmem
  exact drainLoop_ro_parent fuel e [] e' v hwf hro h id pid w hid hw hp hmem

theorem c4_parent_subsumption_witness :
    (WFids c4e2 ∧ ROEng c4e2 ∧ drain 400 c4e2 = .ok c4e3 .undef ∧
     1 < c4e2.nextId ∧ alookup c4e2.watchers 1 = some c4cw ∧
     c4cw.parent = some 0 ∧ 0 ∈ queueOf c4e2) ∧
    wrunsOf c4e3 1 = wrunsOf c4e2 1 := by
  have hwf2 : WFids c4e2 := wfids_of_keys c4e2 (by decide)
  have hro2 : ROEng c4e2 := by
    refine roeng_of_checks c4e2 [0, 1] (by decide) (by decide) ?_
    intro k hkm w hw
    simp only [List.mem_cons, List.mem_singleton, List.not_mem_nil, or_false] at hkm
    rcases hkm with rfl | rfl
    · have htr : (alookup c4e2.watchers 0).map W.tracked = some c4parent := rfl
      have htu : (alookup c4e2.watchers 0).map W.untracked = some UFn.none := rfl
      rw [hw] at htr htu
      simp only [Option.map_some', Option.some.injEq] at htr htu
      rw [htr, htu]
      exact ⟨c4parent_ro, rfl⟩
    · have htr : (alookup c4e2.watchers 1).map W.tracked =
          some (.get 0 "y" (fun yv => .ret .undef)) := rfl
      have htu : (alookup c4e2.watchers 1).map W.untracked = some UFn.none := rfl
      rw [hw] at htr htu
      simp only [Option.map_some', Option.some.injEq] at htr htu
      rw [htr, htu]
      exact ⟨ROProg.get 0 "y" _ (fun yv => ROProg.ret .undef), rfl⟩
  refine ⟨⟨hwf2, hro2, rfl, by decide, rfl, rfl, by decide⟩, ?_⟩
  exact c4_parent_subsumption.1 400 c4e2 c4e3 .undef 1 0 c4cw hwf2 hro2 rfl
    (by decide) rfl rfl (by decide)

/-! ## Re-subscription machinery: subscriber-set deltas and the read trace -/

/-- Effect shape of subscription-monotone calls: the read trace grows by a
delta `d` and an id belongs to a path's subscriber set afterwards iff it did
before or the pair was just recorded in `d`. -/
def SDelta (e e' : Eng) : Prop :=
  ∃ d, e'.trace = e.trace ++ d ∧
    ∀ id q, id ∈ subsOf e' q ↔ (id ∈ subsOf e q ∨ (id, q) ∈ d)

theorem SDelta.srefl (e : Eng) : SDelta e e :=
  ⟨[], (List.append_nil _).symm, fun id q => by simp⟩

theorem SDelta.strans {e e1 e2 : Eng} (h1 : SDelta e e1) (h2 : SDelta e1 e2) :
    SDelta e e2 := by
  obtain ⟨d1, ht1, hi1⟩ := h1
  obtain ⟨d2, ht2, hi2⟩ := h2
  refine ⟨d1 ++ d2, ?_, fun id q => ?_⟩
  · rw [ht2, ht1, List.append_assoc]
  · rw [hi2, hi1]
    simp [List.mem_append, or_assoc]

theorem sdelta_of_same {e e' : Eng} (h1 : e'.pathSubs = e.pathSubs)
    (h2 : e'.trace = e.trace) : SDelta e e' := by
  refine ⟨[], by rw [h2, List.append_nil], fun id q => ?_⟩
  rw [subsOf, subsOf, h1]
  simp

theorem sdelta_updW (e : Eng) (j : Nat) (f : W → W) : SDelta e (updW e j f) :=
  sdelta_of_same (updW_watchers_keep e j f).2.1 (updW_watchers_keep e j f).2.2.2.2.2.2.2

theorem sdelta_updObj (e : Eng) (a : Nat) (f : HObj → HObj) : SDelta e (updObj e a f) :=
  sdelta_of_same (updObj_watchers e a f).2.2.1 (updObj_watchers e a f).2.2.2.2.2.2.2

theorem sdelta_registerSub (e : Eng) (wid : Nat) (path : String) :
    SDelta e (registerSub e wid path) := by
  refine ⟨[(wid, path)], ?_, fun id q => ?_⟩
  · have h0 : (registerSub e wid path).trace =
        (updW { e with pathSubs := aset e.pathSubs path (addOnce (subsOf e path) wid) }
          wid (fun w => { w with pathsSubs := addOnce w.pathsSubs path })).trace
          ++ [(wid, path)] := rfl
    rw [h0, (updW_watchers_keep _ wid _).2.2.2.2.2.2.2]
  · have h1 : subsOf (registerSub e wid path) q =
        (alookup (aset e.pathSubs path (addOnce (subsOf e path) wid)) q).getD [] := by
      rw [subsOf]
      have h2 : (registerSub e wid path).pathSubs =
          (updW { e with pathSubs := aset e.pathSubs path (addOnce (subsOf e path) wid) }
            wid (fun w => { w with pathsSubs := addOnce w.pathsSubs path })).pathSubs := rfl
      rw [h2, (updW_watchers_keep _ wid _).2.1]
    rw [h1]
    by_cases hq : q = path
    · subst hq
      rw [alookup_aset_self]
      simp only [Option.getD_some]
      rw [mem_addOnce]
      simp [List.mem_singleton, Prod.ext_iff]
    · rw [alookup_aset_ne e.pathSubs path q _ (fun hh => hq hh.symm)]
      rw [show (alookup e.pathSubs q).getD [] = subsOf e q from rfl]
      simp only [List.mem_singleton, Prod.ext_iff]
      constructor
      · exact Or.inl
      · rintro (hm | ⟨hh1, hh2⟩)
        · exact hm
        · exact absurd hh2 hq

theorem wrapChild_keepST (e : Eng) (a : Nat) (prop : String) (x : JVal) :
    (wrapChild e a prop x).pathSubs = e.pathSubs ∧
    (wrapChild e a prop x).trace = e.trace := by
  unfold wrapChild
  repeat' split
  all_goals first
    | exact ⟨(updObj_watchers _ _ _).2.2.1, (updObj_watchers _ _ _).2.2.2.2.2.2.2⟩
    | exact ⟨rfl, rfl⟩

theorem detachMark_keepST (e : Eng) (x : JVal) :
    (detachMark e x).pathSubs = e.pathSubs ∧ (detachMark e x).trace = e.trace := by
  unfold detachMark
  repeat' split
  all_goals first
    | exact ⟨(updObj_watchers _ _ _).2.2.1, (updObj_watchers _ _ _).2.2.2.2.2.2.2⟩
    | exact ⟨rfl, rfl⟩

theorem idxRefresh_keepST (e : Eng) (b : Bool) (prop : String) (x : JVal) :
    (idxRefresh e b prop x).pathSubs = e.pathSubs ∧
    (idxRefresh e b prop x).trace = e.trace := by
  unfold idxRefresh
  repeat' split
  all_goals first
    | exact ⟨(updObj_watchers _ _ _).2.2.1, (updObj_watchers _ _ _).2.2.2.2.2.2.2⟩
    | exact ⟨rfl, rfl⟩

theorem sdelta_finishRead (n : Nat) (e2 : Eng) (a : Nat) (prop : String) (tv : JVal)
    (propVal : JVal) (e' : Eng) (v : JVal)
    (h : finishRead n e2 a prop tv propVal = .ok e' v) : SDelta e2 e' := by
  unfold finishRead at h
  dsimp only at h
  have pw : SDelta e2 (wrapChild e2 a prop propVal) :=
    sdelta_of_same (wrapChild_keepST e2 a prop propVal).1 (wrapChild_keepST e2 a prop propVal).2
  match hact : (wrapChild e2 a prop propVal).active with
  | Option.none =>
    rw [hact] at h
    dsimp only at h
    cases h
    exact pw
  | some wid =>
    rw [hact] at h
    dsimp only at h
    match htv : toTgt tv with
    | .empty =>
      rw [htv] at h
      dsimp only at h
      cases h
      exact pw.strans (sdelta_registerSub _ wid prop)
    | .obj a2 =>
      rw [htv] at h
      dsimp only at h
      match hp : getPath n (wrapChild e2 a prop propVal) a2 prop with
      | some path =>
        rw [hp] at h
        dsimp only at h
        cases h
        exact pw.strans (sdelta_registerSub _ wid path)
      | Option.none =>
        rw [hp] at h
        simp at h

/-- After erasing an id from every set whose path is listed in `paths`, the
id belongs to no subscriber set - provided `paths` covered all its previous
memberships. -/
theorem fold_erase_covers (paths : List String) : ∀ (ps : List (String × List Nat))
    (rid : Nat), (∀ q, rid ∈ (alookup ps q).getD [] → q ∈ paths) →
    ∀ q, rid ∉ (alookup (paths.foldl (fun acc p => eraseSub acc p rid) ps) q).getD [] := by
  induction paths with
  | nil =>
    intro ps rid hcov q hm
    exact absurd (hcov q hm) (List.not_mem_nil q)
  | cons p rest ihl =>
    intro ps rid hcov q
    simp only [List.foldl_cons]
    refine ihl (eraseSub ps p rid) rid ?_ q
    intro q2 hm2
    rw [subsOf_eraseSub ps p q2 rid] at hm2
    by_cases hq : q2 = p
    · rw [if_pos hq] at hm2
      exact absurd hm2 (not_mem_lerase_self _ _)
    · rw [if_neg hq] at hm2
      rcases List.mem_cons.mp (hcov q2 hm2) with h | h
      · exact absurd h hq
      · exact h

/-- Safety condition for the delta lemma: a direct `watcher.run` target must
have no joined sets recorded yet (true of every freshly allocated watcher,
the only way the interpreter reaches `runw` from inside a call). -/
def SubsSafe : Call → Eng → Prop
  | .runw rid => fun e => ∀ w, alookup e.watchers rid = some w → w.pathsSubs = []
  | _ => fun _ => True

/-- The `runw` tail of the subscription-delta lemma (target has no joined
sets, so the erase phase is a no-op). -/
theorem stepSB_runwCore (n : Nat)
    (ih : ∀ e c e' v, WFids e → SubsSafe c e → step n e c = .ok e' v → SDelta e e')
    (e : Eng) (rid : Nat) (w : W) (hwf : WFids e)
    (hps : w.pathsSubs = [])
    (eA : Eng) (pPre : PureStep e eA) (sPre : SDelta e eA)
    (old : Option Nat) (e' : Eng) (v : JVal)
    (hstep : (match step n (updW { { eA with
          pathSubs := w.pathsSubs.foldl (fun ps p => eraseSub ps p rid) eA.pathSubs }
          with active := some rid } rid (fun ww => { ww with runs := ww.runs + 1 }))
        (.exec w.tracked) with
      | .err => Res.err
      | .fuel => Res.fuel
      | .ok e5 result =>
        (match (match w.untracked with
          | UFn.none => Res.ok e5 JVal.undef
          | UFn.user f => step n { e5 with active := Option.none } (.exec (f result))
          | UFn.cache ca cprop =>
            match objAt { e5 with active := Option.none } ca with
            | Option.none => Res.err
            | some co =>
              match alookup co.fields ("@@" ++ cprop) with
              | Option.none =>
                Res.ok (updObj { e5 with active := Option.none } ca
                  (fun oo => { oo with
                    fields := aset oo.fields ("@@" ++ cprop) result })) JVal.undef
              | some x =>
                step n { e5 with active := Option.none }
                  (.pset ca ("@@" ++ cprop) result)) with
         | .ok e8 x => Res.ok { e8 with active := old } JVal.undef
         | .err => Res.err
         | .fuel => Res.fuel)) = .ok e' v) :
    SDelta e e' := by
  have pB : PureStep e { { eA with
      pathSubs := w.pathsSubs.foldl (fun ps p => eraseSub ps p rid) eA.pathSubs }
      with active := some rid } :=
    pPre.trans (pureStep_of_same pPre.1.2.1 rfl rfl)
  have sB : SDelta e { { eA with
      pathSubs := w.pathsSubs.foldl (fun ps p => eraseSub ps p rid) eA.pathSubs }
      with active := some rid } := by
    refine sPre.strans (sdelta_of_same ?_ rfl)
    rw [hps]
    rfl
  have hwfC : WFids (updW { { eA with
      pathSubs := w.pathsSubs.foldl (fun ps p => eraseSub ps p rid) eA.pathSubs }
      with active := some rid } rid (fun ww => { ww with runs := ww.runs + 1 })) :=
    wfids_updW _ rid _ pB.1.2.1
  have sC : SDelta e (updW { { eA with
      pathSubs := w.pathsSubs.foldl (fun ps p => eraseSub ps p rid) eA.pathSubs }
      with active := some rid } rid (fun ww => { ww with runs := ww.runs + 1 })) :=
    sB.strans (sdelta_updW _ rid _)
  match h1 : step n (updW { { eA with
      pathSubs := w.pathsSubs.foldl (fun ps p => eraseSub ps p rid) eA.pathSubs }
      with active := some rid } rid (fun ww => { ww with runs := ww.runs + 1 }))
      (.exec w.tracked) with
  | .err => rw [h1] at hstep; simp at hstep
  | .fuel => rw [h1] at hstep; simp at hstep
  | .ok e5 result =>
    rw [h1] at hstep
    dsimp only at hstep
    have p5 : PureStep _ e5 := stepMB n _ (.exec w.tracked) e5 result hwfC h1
    have s5 : SDelta e e5 := sC.strans (ih _ (.exec w.tracked) e5 result hwfC trivial h1)
    match hu : w.untracked with
    | UFn.none =>
      rw [hu] at hstep
      dsimp only at hstep
      cases hstep
      exact s5.strans (sdelta_of_same rfl rfl)
    | UFn.user f =>
      rw [hu] at hstep
      dsimp only at hstep
      match h2 : step n { e5 with active := Option.none } (.exec (f result)) with
      | .err => rw [h2] at hstep; simp at hstep
      | .fuel => rw [h2] at hstep; simp at hstep
      | .ok e7 x =>
        rw [h2] at hstep
        dsimp only at hstep
        cases hstep
        have s7 : SDelta e e7 := s5.strans (ih { e5 with active := Option.none }
          (.exec (f result)) e7 x p5.1.2.1 trivial h2)
        exact s7.strans (sdelta_of_same rfl rfl)
    | UFn.cache ca cprop =>
      rw [hu] at hstep
      dsimp only at hstep
      match hco : objAt { e5 with active := Option.none } ca with
      | Option.none => rw [hco] at hstep; simp at hstep
      | some co =>
        rw [hco] at hstep
        dsimp only at hstep
        match hfs : alookup co.fields ("@@" ++ cprop) with
        | Option.none =>
          rw [hfs] at hstep
          dsimp only at hstep
          cases hstep
          exact (s5.strans (sdelta_updObj { e5 with active := Option.none } ca _)).strans
            (sdelta_of_same rfl rfl)
        | some x =>
          rw [hfs] at hstep
          dsimp only at hstep
          match h2 : step n { e5 with active := Option.none }
              (.pset ca ("@@" ++ cprop) result) with
          | .err => rw [h2] at hstep; simp at hstep
          | .fuel => rw [h2] at hstep; simp at hstep
          | .ok e8 x2 =>
            rw [h2] at hstep
            dsimp only at hstep
            cases hstep
            have s8 : SDelta e e8 := s5.strans (ih { e5 with active := Option.none }
              (.pset ca ("@@" ++ cprop) result) e8 x2 p5.1.2.1 trivial h2)
            exact s8.strans (sdelta_of_same rfl rfl)

/-- The fresh-watcher case of the subscription-delta lemma. -/
theorem stepSB_mkWatchCore (n : Nat)
    (ih : ∀ e c e' v, WFids e → SubsSafe c e → step n e c = .ok e' v → SDelta e e')
    (e E1 : Eng) (wNew : W) (hwf : WFids e)
    (e2 : Eng) (v2 : JVal)
    (hrun : step n E1 (.runw e.nextId) = .ok e2 v2)
    (hE1n : E1.nextId = e.nextId + 1)
    (hE1w : E1.watchers = aset e.watchers e.nextId wNew)
    (hE1p : E1.pathSubs = e.pathSubs) (hE1t : E1.trace = e.trace)
    (hWps : wNew.pathsSubs = []) :
    SDelta e e2 := by
  have hwf1 : WFids E1 := by
    intro x hx
    rw [hE1w] at hx
    rw [hE1n]
    by_cases hj : x = e.nextId
    · omega
    · rw [alookup_aset_ne e.watchers e.nextId x wNew (fun hh => hj hh.symm)] at hx
      have := hwf x hx
      omega
  have hsafe1 : SubsSafe (.runw e.nextId) E1 := by
    intro w hw
    rw [hE1w, alookup_aset_self] at hw
    cases hw
    exact hWps
  exact (sdelta_of_same hE1p hE1t).strans (ih E1 (.runw e.nextId) e2 v2 hwf1 hsafe1 hrun)

/-- Subscription-delta lemma: every successful call (whose direct `runw`
target, if any, has no joined sets yet) only grows subscriber sets, and every
addition is recorded in the read trace: an id is subscribed to a path
afterwards iff it was before or the `(id, path)` registration was traced. -/
theorem stepSB : ∀ (n : Nat) (e : Eng) (c : Call) (e' : Eng) (v : JVal),
    WFids e → SubsSafe c e → step n e c = .ok e' v → SDelta e e' := by
  intro n
  induction n with
  | zero =>
    intro e c e' v hwf hsafe hstep
    simp [step] at hstep
  | succ n ih =>
    intro e c e' v hwf hsafe hstep
    match c with
    | .rget a prop =>
      simp only [step] at hstep
      match ho : objAt e a with
      | Option.none =>
        rw [ho] at hstep
        simp at hstep
      | some o =>
        rw [ho] at hstep
        dsimp only at hstep
        match hf : alookup o.fields prop with
        | some w =>
          rw [hf] at hstep
          dsimp only at hstep
          cases hstep
          exact SDelta.srefl e
        | Option.none =>
          rw [hf] at hstep
          dsimp only at hstep
          match hg : alookup (descriptorsOf o) prop with
          | some g =>
            rw [hg] at hstep
            dsimp only at hstep
            exact ih e (.exec g) e' v hwf trivial hstep
          | Option.none =>
            rw [hg] at hstep
            dsimp only at hstep
            cases hstep
            exact SDelta.srefl e
    | .exec p =>
      simp only [step] at hstep
      cases p with
      | ret w =>
        cases hstep
        exact SDelta.srefl e
      | get a prop k =>
        dsimp only at hstep
        match h1 : step n e (.pget a prop) with
        | .ok e1 v1 =>
          rw [h1] at hstep
          dsimp only at hstep
          have p1 : PureStep e e1 := stepMB n e (.pget a prop) e1 v1 hwf h1
          exact (ih e (.pget a prop) e1 v1 hwf trivial h1).strans
            (ih e1 (.exec (k v1)) e' v p1.1.2.1 trivial hstep)
        | .err => rw [h1] at hstep; simp at hstep
        | .fuel => rw [h1] at hstep; simp at hstep
      | set a prop vv k =>
        dsimp only at hstep
        match h1 : step n e (.pset a prop vv) with
        | .ok e1 v1 =>
          rw [h1] at hstep
          dsimp only at hstep
          have p1 : PureStep e e1 := stepMB n e (.pset a prop vv) e1 v1 hwf h1
          exact (ih e (.pset a prop vv) e1 v1 hwf trivial h1).strans
            (ih e1 (.exec k) e' v p1.1.2.1 trivial hstep)
        | .err => rw [h1] at hstep; simp at hstep
        | .fuel => rw [h1] at hstep; simp at hstep
      | watchNew body k =>
        dsimp only at hstep
        match h1 : step n e (.mkWatch body UFn.none) with
        | .ok e1 v1 =>
          rw [h1] at hstep
          dsimp only at hstep
          have p1 : PureStep e e1 := stepMB n e (.mkWatch body UFn.none) e1 v1 hwf h1
          exact (ih e (.mkWatch body UFn.none) e1 v1 hwf trivial h1).strans
            (ih e1 (.exec k) e' v p1.1.2.1 trivial hstep)
        | .err => rw [h1] at hstep; simp at hstep
        | .fuel => rw [h1] at hstep; simp at hstep
    | .dwalk cur props =>
      simp only [step] at hstep
      cases props with
      | nil =>
        cases hstep
        exact SDelta.srefl e
      | cons p rest =>
        cases cur with
        | prim m => simp at hstep
        | empty =>
          dsimp only at hstep
          by_cases hr : rest = []
          · rw [if_pos hr] at hstep
            cases hstep
            exact SDelta.srefl e
          · rw [if_neg hr] at hstep
            exact ih e (.dwalk .empty rest) e' v hwf trivial hstep
        | proxy a =>
          dsimp only at hstep
          have pskip : PureStep e (updObj e a (fun oo => { oo with skip := true })) :=
            pureStep_updObjOnly _ _ _ hwf
          match h1 : step n (updObj e a (fun oo => { oo with skip := true })) (.pget a p) with
          | .ok e1 item =>
            rw [h1] at hstep
            dsimp only at hstep
            have p1 : PureStep _ e1 := stepMB n _ (.pget a p) e1 item pskip.1.2.1 h1
            have s01 : SDelta e e1 :=
              (sdelta_updObj e a _).strans
                (ih _ (.pget a p) e1 item pskip.1.2.1 trivial h1)
            have s02 : SDelta e (updObj e1 a (fun oo => { oo with skip := false })) :=
              s01.strans (sdelta_updObj e1 a _)
            have hwf02 : WFids (updObj e1 a (fun oo => { oo with skip := false })) :=
              (pureStep_updObjOnly e1 a _ p1.1.2.1).1.2.1
            by_cases hr : rest = []
            · rw [if_pos hr] at hstep
              cases item with
              | ref c => cases hstep; exact s02
              | num m => cases hstep; exact s02
              | undef => cases hstep; exact s02
            · rw [if_neg hr] at hstep
              cases item with
              | ref c =>
                exact s02.strans (ih _ (.dwalk (.proxy c) rest) e' v hwf02 trivial hstep)
              | num m =>
                exact s02.strans (ih _ (.dwalk (.prim m) rest) e' v hwf02 trivial hstep)
              | undef =>
                exact s02.strans (ih _ (.dwalk .empty rest) e' v hwf02 trivial hstep)
          | .err => rw [h1] at hstep; simp at hstep
          | .fuel => rw [h1] at hstep; simp at hstep
    | .pset a prop vv =>
      simp only [step] at hstep
      match ho : objAt e a with
      | Option.none => rw [ho] at hstep; simp at hstep
      | some o =>
        rw [ho] at hstep
        dsimp only at hstep
        match h1 : step n e (.rget a prop) with
        | .err => rw [h1] at hstep; simp at hstep
        | .fuel => rw [h1] at hstep; simp at hstep
        | .ok e1 oldValue =>
          rw [h1] at hstep
          dsimp only at hstep
          have s1 : SDelta e e1 := ih e (.rget a prop) e1 oldValue hwf trivial h1
          have s3 : SDelta e (idxRefresh (detachMark e1 oldValue) o.isArr prop vv) :=
            (s1.strans (sdelta_of_same (detachMark_keepST e1 oldValue).1
              (detachMark_keepST e1 oldValue).2)).strans
              (sdelta_of_same (idxRefresh_keepST _ o.isArr prop vv).1
                (idxRefresh_keepST _ o.isArr prop vv).2)
          match hg : alookup (descriptorsOf o) prop with
          | some g => rw [hg] at hstep; simp at hstep
          | Option.none =>
            rw [hg] at hstep
            dsimp only at hstep
            have s4 : SDelta e (updObj (idxRefresh (detachMark e1 oldValue) o.isArr prop vv)
                a (fun oo => { oo with fields := aset oo.fields prop vv })) :=
              s3.strans (sdelta_updObj _ a _)
            by_cases htr : (looseEq vv oldValue = false ∨ prop = "length")
            · rw [if_pos htr] at hstep
              split at hstep
              · rename_i e5 hcw
                cases hstep
                have hk := callWatchers_keep _ _ _ _ _ hcw
                exact s4.strans (sdelta_of_same hk.2.2.1 hk.2.2.2.2.2)
              · simp at hstep
            · rw [if_neg htr] at hstep
              cases hstep
              exact s4
    | .pget a prop =>
      simp only [step] at hstep
      match ho : objAt e a with
      | Option.none => rw [ho] at hstep; simp at hstep
      | some o =>
        rw [ho] at hstep
        dsimp only at hstep
        by_cases hraw : prop = "__raw"
        · rw [if_pos hraw] at hstep
          cases hstep
          exact SDelta.srefl e
        · rw [if_neg hraw] at hstep
          match hg : alookup (descriptorsOf o) prop with
          | Option.none =>
            rw [hg] at hstep
            dsimp only at hstep
            exact ih e (.pgetRest a prop) e' v hwf trivial hstep
          | some g =>
            rw [hg] at hstep
            dsimp only at hstep
            by_cases hpar : o.parent = Option.none
            · rw [if_pos hpar] at hstep
              match hact : e.active with
              | Option.none =>
                rw [hact] at hstep
                dsimp only at hstep
                exact ih e (.exec g) e' v hwf trivial hstep
              | some aw =>
                rw [hact] at hstep
                dsimp only at hstep
                match hgw : alookup e.getterW (a, prop) with
                | some wid =>
                  rw [hgw] at hstep
                  dsimp only at hstep
                  exact ih e (.pgetRest a ("@@" ++ prop)) e' v hwf trivial hstep
                | Option.none =>
                  rw [hgw] at hstep
                  dsimp only at hstep
                  match h1 : step n { e with active := Option.none }
                      (.mkWatch g (UFn.cache a prop)) with
                  | .err => rw [h1] at hstep; simp at hstep
                  | .fuel => rw [h1] at hstep; simp at hstep
                  | .ok e2 v2 =>
                    rw [h1] at hstep
                    dsimp only at hstep
                    have hwfa : WFids { e with active := Option.none } := hwf
                    have p2 : PureStep _ e2 :=
                      stepMB n _ (.mkWatch g (UFn.cache a prop)) e2 v2 hwfa h1
                    have s2 : SDelta e e2 :=
                      (sdelta_of_same (rfl : ({ e with active := Option.none } : Eng).pathSubs = e.pathSubs) rfl).strans
                        (ih _ (.mkWatch g (UFn.cache a prop)) e2 v2 hwfa trivial h1)
                    have hwf4 : WFids { updW e2 e.nextId
                        (fun w => { w with onRemove := some (a, prop) }) with
                        getterW := aset (updW e2 e.nextId
                          (fun w => { w with onRemove := some (a, prop) })).getterW
                          (a, prop) e.nextId,
                        active := some aw } := by
                      intro x hx
                      exact (wfids_updW e2 e.nextId _ p2.1.2.1) x hx
                    have s4 : SDelta e { updW e2 e.nextId
                        (fun w => { w with onRemove := some (a, prop) }) with
                        getterW := aset (updW e2 e.nextId
                          (fun w => { w with onRemove := some (a, prop) })).getterW
                          (a, prop) e.nextId,
                        active := some aw } :=
                      (s2.strans (sdelta_updW e2 e.nextId _)).strans
                        (sdelta_of_same rfl rfl)
                    exact s4.strans (ih _ (.pgetRest a ("@@" ++ prop)) e' v hwf4 trivial hstep)
            · rw [if_neg hpar] at hstep
              exact ih e (.pgetRest a prop) e' v hwf trivial hstep
    | .pgetRest a prop =>
      simp only [step] at hstep
      match ho : objAt e a with
      | Option.none => rw [ho] at hstep; simp at hstep
      | some o =>
        rw [ho] at hstep
        dsimp only at hstep
        by_cases hcond : (o.skip = false ∧ o.parent.isSome = true)
        · rw [if_pos hcond] at hstep
          match hup : upWalk n e a with
          | Option.none => rw [hup] at hstep; simp at hstep
          | some (props, root, det) =>
            rw [hup] at hstep
            dsimp only at hstep
            by_cases hdet : det = true
            · rw [if_pos hdet] at hstep
              match h1 : step n e (.dwalk (.proxy root) props.reverse) with
              | .err => rw [h1] at hstep; simp at hstep
              | .fuel => rw [h1] at hstep; simp at hstep
              | .ok e1 tv =>
                rw [h1] at hstep
                dsimp only at hstep
                have pA : PureStep e e1 := stepMB n e (.dwalk (.proxy root) props.reverse) e1 tv hwf h1
                have sA : SDelta e e1 := ih e (.dwalk (.proxy root) props.reverse) e1 tv hwf trivial h1
                match htv : toTgt tv with
                | .empty =>
                  rw [htv] at hstep
                  dsimp only at hstep
                  exact sA.strans (sdelta_finishRead n e1 a prop tv .undef e' v hstep)
                | .obj a2 =>
                  rw [htv] at hstep
                  dsimp only at hstep
                  match h2 : step n e1 (.rget a2 prop) with
                  | .err => rw [h2] at hstep; simp at hstep
                  | .fuel => rw [h2] at hstep; simp at hstep
                  | .ok e2 propVal =>
                    rw [h2] at hstep
                    dsimp only at hstep
                    have sB : SDelta e e2 :=
                      sA.strans (ih e1 (.rget a2 prop) e2 propVal pA.1.2.1 trivial h2)
                    exact sB.strans (sdelta_finishRead n e2 a prop tv propVal e' v hstep)
            · rw [if_neg hdet] at hstep
              simp only [toTgt] at hstep
              match h2 : step n e (.rget a prop) with
              | .err => rw [h2] at hstep; simp at hstep
              | .fuel => rw [h2] at hstep; simp at hstep
              | .ok e2 propVal =>
                rw [h2] at hstep
                dsimp only at hstep
                have sB : SDelta e e2 := ih e (.rget a prop) e2 propVal hwf trivial h2
                exact sB.strans (sdelta_finishRead n e2 a prop (.ref a) propVal e' v hstep)
        · rw [if_neg hcond] at hstep
          simp only [toTgt] at hstep
          match h2 : step n e (.rget a prop) with
          | .err => rw [h2] at hstep; simp at hstep
          | .fuel => rw [h2] at hstep; simp at hstep
          | .ok e2 propVal =>
            rw [h2] at hstep
            dsimp only at hstep
            have sB : SDelta e e2 := ih e (.rget a prop) e2 propVal hwf trivial h2
            exact sB.strans (sdelta_finishRead n e2 a prop (.ref a) propVal e' v hstep)
    | .mkWatch tracked ufn =>
      simp only [step] at hstep
      split at hstep
      · rename_i ee vv hrun
        cases hstep
        exact stepSB_mkWatchCore n ih e _ _ hwf _ _ hrun rfl rfl rfl rfl rfl
      · simp at hstep
      · simp at hstep
    | .runw rid =>
      simp only [step] at hstep
      match hw : alookup e.watchers rid with
      | Option.none => rw [hw] at hstep; simp at hstep
      | some w =>
        rw [hw] at hstep
        dsimp only at hstep
        have hps : w.pathsSubs = [] := hsafe w hw
        match hact : e.active with
        | some pid =>
          rw [hact] at hstep
          dsimp only at hstep
          exact stepSB_runwCore n ih e rid w hwf hps
            (updW (updW e rid (fun ww => { ww with parent := some pid })) pid
              (fun pw => { pw with children := pw.children ++ [rid] }))
            ((pureStep_of_updW e rid (fun ww => { ww with parent := some pid }) hwf
                (fun x => rfl) (fun x => rfl)).trans
              (pureStep_of_updW (updW e rid (fun ww => { ww with parent := some pid })) pid
                (fun pw => { pw with children := pw.children ++ [rid] })
                (pureStep_of_updW e rid (fun ww => { ww with parent := some pid }) hwf
                  (fun x => rfl) (fun x => rfl)).1.2.1
                (fun x => rfl) (fun x => rfl)))
            ((sdelta_updW e rid (fun ww => { ww with parent := some pid })).strans
              (sdelta_updW (updW e rid (fun ww => { ww with parent := some pid })) pid
                (fun pw => { pw with children := pw.children ++ [rid] })))
            (some pid) e' v hstep
        | Option.none =>
          rw [hact] at hstep
          dsimp only at hstep
          exact stepSB_runwCore n ih e rid w hwf hps e (PureStep.refl e hwf)
            (SDelta.srefl e) Option.none e' v hstep

theorem cov_of_keys (ps : List (String × List Nat)) (rid : Nat) (paths : List String)
    (h : ∀ p ∈ ps, rid ∈ p.2 → p.1 ∈ paths) :
    ∀ q, rid ∈ (alookup ps q).getD [] → q ∈ paths := by
  intro q hm
  match hl : alookup ps q with
  | Option.none => rw [hl] at hm; simp at hm
  | some l =>
    rw [hl] at hm
    simp only [Option.getD_some] at hm
    exact h (q, l) (alookup_mem ps q l hl) hm

/-- The tail of a re-run of a watcher with no untracked callback: the erase
phase removes the id from every set its joined-paths list covers, and the
subsequent tracked execution subscribes it to exactly the paths whose reads
it traces. -/
theorem c1_runwCore (n : Nat) (e : Eng) (rid : Nat) (w : W)
    (hu : w.untracked = UFn.none)
    (hcov : ∀ q, rid ∈ subsOf e q → q ∈ w.pathsSubs)
    (eA : Eng) (hwfA : WFids eA)
    (heqp : eA.pathSubs = e.pathSubs) (heqt : eA.trace = e.trace)
    (old : Option Nat) (e' : Eng) (v : JVal)
    (hstep : (match step n (updW { { eA with
          pathSubs := w.pathsSubs.foldl (fun ps p => eraseSub ps p rid) eA.pathSubs }
          with active := some rid } rid (fun ww => { ww with runs := ww.runs + 1 }))
        (.exec w.tracked) with
      | .err => Res.err
      | .fuel => Res.fuel
      | .ok e5 result =>
        (match (match w.untracked with
          | UFn.none => Res.ok e5 JVal.undef
          | UFn.user f => step n { e5 with active := Option.none } (.exec (f result))
          | UFn.cache ca cprop =>
            match objAt { e5 with active := Option.none } ca with
            | Option.none => Res.err
            | some co =>
              match alookup co.fields ("@@" ++ cprop) with
              | Option.none =>
                Res.ok (updObj { e5 with active := Option.none } ca
                  (fun oo => { oo with
                    fields := aset oo.fields ("@@" ++ cprop) result })) JVal.undef
              | some x =>
                step n { e5 with active := Option.none }
                  (.pset ca ("@@" ++ cprop) result)) with
         | .ok e8 x => Res.ok { e8 with active := old } JVal.undef
         | .err => Res.err
         | .fuel => Res.fuel)) = .ok e' v) :
    ∃ d, e'.trace = e.trace ++ d ∧ ∀ q, (rid ∈ subsOf e' q ↔ (rid, q) ∈ d) := by
  have hBp : (updW { { eA with
      pathSubs := w.pathsSubs.foldl (fun ps p => eraseSub ps p rid) eA.pathSubs }
      with active := some rid } rid (fun ww => { ww with runs := ww.runs + 1 })).pathSubs =
      w.pathsSubs.foldl (fun ps p => eraseSub ps p rid) e.pathSubs := by
    have t2 : w.pathsSubs.foldl (fun ps p => eraseSub ps p rid) eA.pathSubs =
        w.pathsSubs.foldl (fun ps p => eraseSub ps p rid) e.pathSubs := by
      rw [heqp]
    exact ((updW_watchers_keep { { eA with pathSubs := w.pathsSubs.foldl (fun ps p => eraseSub ps p rid) eA.pathSubs } with active := some rid } rid (fun ww => { ww with runs := ww.runs + 1 })).2.1).trans t2
  have hBt : (updW { { eA with
      pathSubs := w.pathsSubs.foldl (fun ps p => eraseSub ps p rid) eA.pathSubs }
      with active := some rid } rid (fun ww => { ww with runs := ww.runs + 1 })).trace =
      e.trace := by
    exact ((updW_watchers_keep { { eA with pathSubs := w.pathsSubs.foldl (fun ps p => eraseSub ps p rid) eA.pathSubs } with active := some rid } rid (fun ww => { ww with runs := ww.runs + 1 })).2.2.2.2.2.2.2).trans heqt
  have hwfB : WFids (updW { { eA with
      pathSubs := w.pathsSubs.foldl (fun ps p => eraseSub ps p rid) eA.pathSubs }
      with active := some rid } rid (fun ww => { ww with runs := ww.runs + 1 })) :=
    wfids_updW _ rid _ hwfA
  have hnot : ∀ q, rid ∉ subsOf (updW { { eA with
      pathSubs := w.pathsSubs.foldl (fun ps p => eraseSub ps p rid) eA.pathSubs }
      with active := some rid } rid (fun ww => { ww with runs := ww.runs + 1 })) q := by
    intro q
    rw [subsOf, hBp]
    exact fold_erase_covers w.pathsSubs e.pathSubs rid hcov q
  match h1 : step n (updW { { eA with
      pathSubs := w.pathsSubs.foldl (fun ps p => eraseSub ps p rid) eA.pathSubs }
      with active := some rid } rid (fun ww => { ww with runs := ww.runs + 1 }))
      (.exec w.tracked) with
  | .err => rw [h1] at hstep; simp at hstep
  | .fuel => rw [h1] at hstep; simp at hstep
  | .ok e5 result =>
    rw [h1] at hstep
    dsimp only at hstep
    obtain ⟨d, hdt, hdi⟩ := stepSB n _ (.exec w.tracked) e5 result hwfB trivial h1
    rw [hu] at hstep
    dsimp only at hstep
    cases hstep
    refine ⟨d, ?_, ?_⟩
    · rw [show ({ e5 with active := old } : Eng).trace = e5.trace from rfl, hdt, hBt]
    · intro q
      rw [show subsOf { e5 with active := old } q = subsOf e5 q from rfl]
      rw [hdi rid q]
      constructor
      · rintro (hm | hm)
        · exact absurd hm (hnot q)
        · exact hm
      · exact Or.inr

/-! ## C1 scenario: conditional dependency tracking over a/b/c -/

/-- The observer body: read `a`; if positive read `b`, otherwise read `c`. -/
def c1body : Prog :=
  .get 0 "a" (fun av =>
    if jgt av then .get 0 "b" (fun bv => .ret .undef)
    else .get 0 "c" (fun cv => .ret .undef))

def c1e0 : Eng := mkEng [(0, flatObj [("a", .num 0), ("b", .num 0), ("c", .num 0)])]

def c1e1 : Eng := getE (watchP 100 c1e0 c1body)

/-- Increment `c`, flush. -/
def c1s1 : Eng := getE (drain 300 (getE (runScript 100 c1e1 (incr "c"))))

/-- Increment `b`, flush. -/
def c1s2 : Eng := getE (drain 300 (getE (runScript 100 c1s1 (incr "b"))))

/-- Increment `a`, flush (the condition flips). -/
def c1s3 : Eng := getE (drain 300 (getE (runScript 100 c1s2 (incr "a"))))

/-- Increment `b` again, flush. -/
def c1s4 : Eng := getE (drain 300 (getE (runScript 100 c1s3 (incr "b"))))

/-- Increment `c` again, flush. -/
def c1s5 : Eng := getE (drain 300 (getE (runScript 100 c1s4 (incr "c"))))

/-- The observer's watcher entry in `c1e1`, for naming lookup results. -/
def c1w : W := (alookup c1e1.watchers 0).getD w0

/-- The state after re-running the observer of `c1e1` directly. -/
def c1rr : Eng := getE (step 100 c1e1 (.runw 0))

/-- C1: a re-run of an observer (whose joined-paths list covers every
subscriber set holding its id) first leaves it subscribed to nothing, so
afterwards it is subscribed to a path exactly when that read was traced
during this run.  Concretely, over `{a:0, b:0, c:0}` with the body
`a > 0 ? b : c`: initially the observer is subscribed to exactly `a` and
`c`; incrementing `c` fires it once, incrementing `b` fires it zero times,
incrementing `a` fires it once and flips the subscriptions to `b` (dropping
`c`), after which incrementing `b` fires once and incrementing `c` zero
times. -/
theorem c1_rerun_resubscribes :
    (∀ (n : Nat) (e : Eng) (rid : Nat) (w : W) (e' : Eng) (v : JVal),
        WFids e → alookup e.watchers rid = some w → w.untracked = UFn.none →
        (∀ q, rid ∈ subsOf e q → q ∈ w.pathsSubs) →
        step (n + 1) e (.runw rid) = .ok e' v →
        ∃ d, e'.trace = e.trace ++ d ∧ ∀ q, (rid ∈ subsOf e' q ↔ (rid, q) ∈ d)) ∧
    (runsOf c1e1 0 = 1 ∧
     subsOf c1e1 "a" = [0] ∧ subsOf c1e1 "c" = [0] ∧ subsOf c1e1 "b" = [] ∧
     runsOf c1s1 0 = 2 ∧ runsOf c1s2 0 = 2 ∧ runsOf c1s3 0 = 3 ∧
     subsOf c1s3 "a" = [0] ∧ subsOf c1s3 "b" = [0] ∧ subsOf c1s3 "c" = [] ∧
     runsOf c1s4 0 = 4 ∧ runsOf c1s5 0 = 4) := by
  refine ⟨?_, by decide⟩
  intro n e rid w e' v hwf hw hu hcov hstep
  simp only [step] at hstep
  rw [hw] at hstep
  dsimp only at hstep
  match hact : e.active with
  | some pid =>
    rw [hact] at hstep
    dsimp only at hstep
    refine c1_runwCore n e rid w hu hcov
      (updW (updW e rid (fun ww => { ww with parent := some pid })) pid
        (fun pw => { pw with children := pw.children ++ [rid] }))
      (wfids_updW _ pid _ (wfids_updW e rid _ hwf)) ?_ ?_ (some pid) e' v hstep
    · rw [(updW_watchers_keep _ pid _).2.1, (updW_watchers_keep e rid _).2.1]
    · rw [(updW_watchers_keep _ pid _).2.2.2.2.2.2.2,
        (updW_watchers_keep e rid _).2.2.2.2.2.2.2]
  | Option.none =>
    rw [hact] at hstep
    dsimp only at hstep
    exact c1_runwCore n e rid w hu hcov e hwf rfl rfl Option.none e' v hstep

theorem c1_rerun_resubscribes_witness :
    (WFids c1e1 ∧ alookup c1e1.watchers 0 = some c1w ∧ c1w.untracked = UFn.none ∧
     step 100 c1e1 (.runw 0) = .ok c1rr .undef) ∧
    (∃ d, c1rr.trace = c1e1.trace ++ d ∧ ∀ q, (0 ∈ subsOf c1rr q ↔ (0, q) ∈ d)) := by
  have hwf : WFids c1e1 := wfids_of_keys c1e1 (by decide)
  have hcov : ∀ q, 0 ∈ subsOf c1e1 q → q ∈ c1w.pathsSubs :=
    cov_of_keys c1e1.pathSubs 0 c1w.pathsSubs (by decide)
  refine ⟨⟨hwf, rfl, rfl, rfl⟩, ?_⟩
  exact c1_rerun_resubscribes.1 99 c1e1 0 c1w c1rr .undef hwf rfl rfl hcov rfl

/-- The engine after one write to `x` against the self-retriggering observer
of the C9 scenario, and after the following single flush. -/
def c2xe1 : Eng := getE (runScript 100 c9e1 (incr "x"))

def c2xe2 : Eng := getE (drain 3000 c2xe1)

/-- Observer A: reads `y` and performs no writes at all. -/
def c2yA : Prog := .get 0 "y" (fun yv => .ret .undef)

/-- Observer B: reads `x` and copies its value into `y` (its initial run
writes `y := 0` over `0`, which the loose-equality check drops). -/
def c2yB : Prog := .get 0 "x" (fun xv => .set 0 "y" xv (.ret .undef))

def c2ye0 : Eng := mkEng [(0, flatObj [("x", .num 0), ("y", .num 0)])]

def c2ye1 : Eng := getE (watchP 100 c2ye0 c2yA)

def c2ye2 : Eng := getE (watchP 100 c2ye1 c2yB)

/-- One script invalidating both: write `y` (A's path), then `x` (B's). -/
def c2ye3 : Eng := getE (runScript 100 c2ye2 (.set 0 "y" (.num 1) (.set 0 "x" (.num 3) (.ret .undef))))

def c2ye4 : Eng := getE (drain 300 c2ye3)

set_option maxRecDepth 10000 in
/-- C2 counterexample, in two parts.  First, the at-most-once guarantee is
not per observer: A (id 0) reads `y` and writes nothing, B (id 1) reads `x`
and writes `y`; after one script writing `y` then `x` both are pending once
(counters 1, 1, queue `[0, 1]`), yet the single subsequent flush executes A
twice (counter 1 to 3) - B's in-drain write to `y` deletes A's id and
re-appends it behind the live iterator - so an observer whose own callback
performs no reactive writes is still re-run when a co-pending observer
writes its tracked path.  Second, an observer of `x` whose callback writes
`x` back is executed 500 times (counter 1 to 501) by the one flush that
follows a single write to `x`. -/
theorem c2_single_flush_multiple_runs_counterexample :
    (runsOf c2ye3 0 = 1 ∧ runsOf c2ye3 1 = 1 ∧ queueOf c2ye3 = [0, 1] ∧
     runsOf c2ye4 0 = 3 ∧ runsOf c2ye4 1 = 2 ∧ isOk (drain 300 c2ye3) = true) ∧
    (runsOf c9e1 0 = 1 ∧ queueOf c2xe1 = [0] ∧ runsOf c2xe1 0 = 1 ∧
     runsOf c2xe2 0 = 501 ∧ isOk (drain 3000 c2xe1) = true) := by
  decide

end Shablon
